import Mathlib

/-!
# Verification of the binpack codec (Disservin/binpack-rust)

A shallow embedding of the library's chess core and codec, translated from
the Rust sources (`src/chess/*.rs`, `src/compressed_position.rs`,
`src/entry.rs`, `src/writer/move_score_list.rs`, `src/reader/bitreader.rs`,
`src/reader/compressed_reader.rs`), together with theorems settling the
specification claims.

Conventions of the embedding:
* machine integers are `Nat` with explicit `% 2^w` where wrap-around can
  occur (Rust release semantics); bitboards are `Nat` values `< 2^64`;
* code whose Rust counterpart panics (out-of-bounds array index,
  `unreachable!`) returns `Option`, with `none` modelling the panic;
* a few support files of the crate are not present in the source tree
  (`coords.rs`, `color.rs` is folded into the chess module here,
  `castling_rights.rs`, `hyperbola.rs`, `arithmetic.rs`,
  `compressed_move.rs`, `compressed_training_file.rs`); definitions for
  those carry a doc comment starting with `Modelled from the spec:`.
-/

/-! ## Basic chess types (`color.rs` contents are inlined in users; the
enum layout {White=0, Black=1} is fixed by spec §3) -/

inductive Color where
  | White
  | Black
deriving DecidableEq, Repr

/-- `Color as usize` / `ordinal`: White = 0, Black = 1 (spec §3). -/
def Color.toNat : Color → Nat
  | .White => 0
  | .Black => 1

/-- `Not for Color` (negation swaps, spec §3). -/
def Color.opp : Color → Color
  | .White => .Black
  | .Black => .White

/-- `Color::from_ordinal` (used through `Piece::color`). -/
def Color.from_ordinal (n : Nat) : Color :=
  if n = 0 then .White else .Black

/-- `PieceType` from `src/chess/piecetype.rs`. -/
inductive PieceType where
  | Pawn
  | Knight
  | Bishop
  | Rook
  | Queen
  | King
  | None
deriving DecidableEq, Repr

/-- `PieceType::ordinal` from `src/chess/piecetype.rs`. -/
def PieceType.ordinal : PieceType → Nat
  | .Pawn => 0
  | .Knight => 1
  | .Bishop => 2
  | .Rook => 3
  | .Queen => 4
  | .King => 5
  | .None => 6

/-- `PieceType::from_ordinal` from `src/chess/piecetype.rs`; the Rust code
transmutes a value asserted `< 7`, values `≥ 6` map to `None` here. -/
def PieceType.from_ordinal (n : Nat) : PieceType :=
  match n with
  | 0 => .Pawn
  | 1 => .Knight
  | 2 => .Bishop
  | 3 => .Rook
  | 4 => .Queen
  | 5 => .King
  | _ => .None

/-- `Piece` from `src/chess/piece.rs`: lowest bit is the color, higher bits
the piece type. -/
structure Piece where
  id : Nat
deriving DecidableEq, Repr

/-- `Piece::new` from `src/chess/piece.rs`. -/
def Piece.new (pt : PieceType) (c : Color) : Piece :=
  ⟨(pt.ordinal <<< 1) ||| c.toNat⟩

/-- `Piece::none` from `src/chess/piece.rs`. -/
def Piece.none : Piece := Piece.new .None .White

/-- `Piece::from_id` from `src/chess/piece.rs`. -/
def Piece.from_id (id : Nat) : Piece := ⟨id⟩

/-- `Piece::piece_type` from `src/chess/piece.rs`. -/
def Piece.piece_type (pc : Piece) : PieceType := PieceType.from_ordinal (pc.id >>> 1)

/-- `Piece::color` from `src/chess/piece.rs`. -/
def Piece.color (pc : Piece) : Color := Color.from_ordinal (pc.id &&& 1)

def Piece.WHITE_PAWN : Piece := Piece.new .Pawn .White
def Piece.BLACK_PAWN : Piece := Piece.new .Pawn .Black
def Piece.WHITE_ROOK : Piece := Piece.new .Rook .White
def Piece.BLACK_ROOK : Piece := Piece.new .Rook .Black
def Piece.BLACK_KING : Piece := Piece.new .King .Black

/-- Modelled from the spec: `castling_rights.rs` is not in src/.  Spec §3
defines `CastlingRights` as the 4-bit flag set {WK, WQ, BK, BQ}; the flag
set is represented by four booleans. -/
structure CastlingRights where
  wk : Bool
  wq : Bool
  bk : Bool
  bq : Bool
deriving DecidableEq, Repr

def CastlingRights.NONE : CastlingRights := ⟨false, false, false, false⟩
def CastlingRights.WHITE_KING_SIDE : CastlingRights := ⟨true, false, false, false⟩
def CastlingRights.WHITE_QUEEN_SIDE : CastlingRights := ⟨false, true, false, false⟩
def CastlingRights.BLACK_KING_SIDE : CastlingRights := ⟨false, false, true, false⟩
def CastlingRights.BLACK_QUEEN_SIDE : CastlingRights := ⟨false, false, false, true⟩
def CastlingRights.WHITE : CastlingRights := ⟨true, true, false, false⟩
def CastlingRights.BLACK : CastlingRights := ⟨false, false, true, true⟩

/-- Flag-set union (`|` / `|=` of the bitflags type). -/
def CastlingRights.union (a b : CastlingRights) : CastlingRights :=
  ⟨a.wk || b.wk, a.wq || b.wq, a.bk || b.bk, a.bq || b.bq⟩

/-- Flag-set intersection (`&` of the bitflags type). -/
def CastlingRights.inter (a b : CastlingRights) : CastlingRights :=
  ⟨a.wk && b.wk, a.wq && b.wq, a.bk && b.bk, a.bq && b.bq⟩

/-- Flag-set complement (`!` of the bitflags type). -/
def CastlingRights.compl (a : CastlingRights) : CastlingRights :=
  ⟨!a.wk, !a.wq, !a.bk, !a.bq⟩

/-- `contains` of the bitflags type: `self & other == other`. -/
def CastlingRights.contains (a b : CastlingRights) : Bool :=
  a.inter b == b

/-- `count_ones` of the 4-bit flag value. -/
def CastlingRights.count_ones (a : CastlingRights) : Nat :=
  a.wk.toNat + a.wq.toNat + a.bk.toNat + a.bq.toNat

/-- `CastleType` (`castling_rights.rs`, not in src/; the two castle kinds
are named in spec §4.3/§4.8). -/
inductive CastleType where
  | Short
  | Long
deriving DecidableEq, Repr

/-- Modelled from the spec: `CastlingTraits::castling_rights` maps a side
and castle kind to the corresponding single flag (spec §3, §4.8). -/
def CastlingTraits.castling_rights (c : Color) (ct : CastleType) : CastlingRights :=
  match c, ct with
  | .White, .Short => CastlingRights.WHITE_KING_SIDE
  | .White, .Long => CastlingRights.WHITE_QUEEN_SIDE
  | .Black, .Short => CastlingRights.BLACK_KING_SIDE
  | .Black, .Long => CastlingRights.BLACK_QUEEN_SIDE

/-! ## Squares and bitboard helpers (`coords.rs` is not in src/; spec §3:
square = rank·8 + file, 64 denotes "none") -/

abbrev Square := Nat

def Square.NONE : Square := 64
def Square.A1 : Square := 0
def Square.B1 : Square := 1
def Square.C1 : Square := 2
def Square.D1 : Square := 3
def Square.E1 : Square := 4
def Square.F1 : Square := 5
def Square.G1 : Square := 6
def Square.H1 : Square := 7
def Square.A8 : Square := 56
def Square.B8 : Square := 57
def Square.C8 : Square := 58
def Square.D8 : Square := 59
def Square.E8 : Square := 60
def Square.F8 : Square := 61
def Square.G8 : Square := 62
def Square.H8 : Square := 63

/-- Modelled from the spec: `FlatSquareOffset(df, dr)` adds `df` files and
`dr` ranks (spec §4.1); the offset is `dr·8 + df` on the flat index. -/
def Square.add_offset (sq : Square) (df dr : Int) : Square :=
  ((sq : Int) + dr * 8 + df).toNat

/-- Modelled from the spec: square rendering, files `a..h`, ranks `1..8`
(spec §3, §6 FEN output). -/
def Square.to_string (sq : Square) : String :=
  String.mk [Char.ofNat (97 + sq % 8), Char.ofNat (49 + sq / 8)]

/-- `u64::trailing_zeros` restricted to 64-bit values (64 for input 0),
as used by `BitboardIterator::next` and `pop_lsb`. -/
def trailing_zeros64 (v : Nat) : Nat :=
  (List.range 64).findIdx (fun i => v.testBit i)

/-- `v &= v - 1`: clear the lowest set bit (`BitboardIterator::next`,
`pop_lsb`). -/
def clear_lsb (v : Nat) : Nat := v &&& (v - 1)

/-- `BitboardIterator` unrolled: extract/clear the lowest set bit until the
board is empty, yielding squares in ascending index.  The fuel argument
(64 at call sites) bounds the number of set bits of a `u64`. -/
def bb_to_list : Nat → Nat → List Square
  | _, 0 => []
  | v, fuel + 1 =>
    if v = 0 then [] else trailing_zeros64 v :: bb_to_list (clear_lsb v) fuel

/-- Iterate a bitboard (`Bitboard::iter`). -/
def bb_iter (v : Nat) : List Square := bb_to_list v 64

/-- `u64::count_ones` for 64-bit values (`Bitboard::count`). -/
def count64 (v : Nat) : Nat :=
  (List.range 64).countP (fun i => v.testBit i)

/-- `!bb` on `u64`. -/
def compl64 (v : Nat) : Nat := v ^^^ 0xFFFFFFFFFFFFFFFF

/-- `Bitboard::from_before(index)`: `(1 << index) - 1`. -/
def from_before (i : Nat) : Nat := (1 <<< i) - 1

/-- `Bitboard::from_square(index)`: `1 << index`. -/
def from_square (sq : Square) : Nat := 1 <<< sq

/-! ## Attack tables from `src/chess/attacks.rs` -/

def PAWN_ATTACKS_WHITE : List Nat := [
  0x200, 0x500, 0xa00, 0x1400,
  0x2800, 0x5000, 0xa000, 0x4000,
  0x20000, 0x50000, 0xa0000, 0x140000,
  0x280000, 0x500000, 0xa00000, 0x400000,
  0x2000000, 0x5000000, 0xa000000, 0x14000000,
  0x28000000, 0x50000000, 0xa0000000, 0x40000000,
  0x200000000, 0x500000000, 0xa00000000, 0x1400000000,
  0x2800000000, 0x5000000000, 0xa000000000, 0x4000000000,
  0x20000000000, 0x50000000000, 0xa0000000000, 0x140000000000,
  0x280000000000, 0x500000000000, 0xa00000000000, 0x400000000000,
  0x2000000000000, 0x5000000000000, 0xa000000000000, 0x14000000000000,
  0x28000000000000, 0x50000000000000, 0xa0000000000000, 0x40000000000000,
  0x200000000000000, 0x500000000000000, 0xa00000000000000, 0x1400000000000000,
  0x2800000000000000, 0x5000000000000000, 0xa000000000000000, 0x4000000000000000,
  0x0, 0x0, 0x0, 0x0,
  0x0, 0x0, 0x0, 0x0]

def PAWN_ATTACKS_BLACK : List Nat := [
  0x0, 0x0, 0x0, 0x0,
  0x0, 0x0, 0x0, 0x0,
  0x2, 0x5, 0xa, 0x14,
  0x28, 0x50, 0xa0, 0x40,
  0x200, 0x500, 0xa00, 0x1400,
  0x2800, 0x5000, 0xa000, 0x4000,
  0x20000, 0x50000, 0xa0000, 0x140000,
  0x280000, 0x500000, 0xa00000, 0x400000,
  0x2000000, 0x5000000, 0xa000000, 0x14000000,
  0x28000000, 0x50000000, 0xa0000000, 0x40000000,
  0x200000000, 0x500000000, 0xa00000000, 0x1400000000,
  0x2800000000, 0x5000000000, 0xa000000000, 0x4000000000,
  0x20000000000, 0x50000000000, 0xa0000000000, 0x140000000000,
  0x280000000000, 0x500000000000, 0xa00000000000, 0x400000000000,
  0x2000000000000, 0x5000000000000, 0xa000000000000, 0x14000000000000,
  0x28000000000000, 0x50000000000000, 0xa0000000000000, 0x40000000000000]

def KNIGHT_ATTACKS : List Nat := [
  0x0000000000020400, 0x0000000000050800, 0x00000000000A1100, 0x0000000000142200,
  0x0000000000284400, 0x0000000000508800, 0x0000000000A01000, 0x0000000000402000,
  0x0000000002040004, 0x0000000005080008, 0x000000000A110011, 0x0000000014220022,
  0x0000000028440044, 0x0000000050880088, 0x00000000A0100010, 0x0000000040200020,
  0x0000000204000402, 0x0000000508000805, 0x0000000A1100110A, 0x0000001422002214,
  0x0000002844004428, 0x0000005088008850, 0x000000A0100010A0, 0x0000004020002040,
  0x0000020400040200, 0x0000050800080500, 0x00000A1100110A00, 0x0000142200221400,
  0x0000284400442800, 0x0000508800885000, 0x0000A0100010A000, 0x0000402000204000,
  0x0002040004020000, 0x0005080008050000, 0x000A1100110A0000, 0x0014220022140000,
  0x0028440044280000, 0x0050880088500000, 0x00A0100010A00000, 0x0040200020400000,
  0x0204000402000000, 0x0508000805000000, 0x0A1100110A000000, 0x1422002214000000,
  0x2844004428000000, 0x5088008850000000, 0xA0100010A0000000, 0x4020002040000000,
  0x0400040200000000, 0x0800080500000000, 0x1100110A00000000, 0x2200221400000000,
  0x4400442800000000, 0x8800885000000000, 0x100010A000000000, 0x2000204000000000,
  0x0004020000000000, 0x0008050000000000, 0x00110A0000000000, 0x0022140000000000,
  0x0044280000000000, 0x0088500000000000, 0x0010A00000000000, 0x0020400000000000]

def KING_ATTACKS : List Nat := [
  0x0000000000000302, 0x0000000000000705, 0x0000000000000E0A, 0x0000000000001C14,
  0x0000000000003828, 0x0000000000007050, 0x000000000000E0A0, 0x000000000000C040,
  0x0000000000030203, 0x0000000000070507, 0x00000000000E0A0E, 0x00000000001C141C,
  0x0000000000382838, 0x0000000000705070, 0x0000000000E0A0E0, 0x0000000000C040C0,
  0x0000000003020300, 0x0000000007050700, 0x000000000E0A0E00, 0x000000001C141C00,
  0x0000000038283800, 0x0000000070507000, 0x00000000E0A0E000, 0x00000000C040C000,
  0x0000000302030000, 0x0000000705070000, 0x0000000E0A0E0000, 0x0000001C141C0000,
  0x0000003828380000, 0x0000007050700000, 0x000000E0A0E00000, 0x000000C040C00000,
  0x0000030203000000, 0x0000070507000000, 0x00000E0A0E000000, 0x00001C141C000000,
  0x0000382838000000, 0x0000705070000000, 0x0000E0A0E0000000, 0x0000C040C0000000,
  0x0003020300000000, 0x0007050700000000, 0x000E0A0E00000000, 0x001C141C00000000,
  0x0038283800000000, 0x0070507000000000, 0x00E0A0E000000000, 0x00C040C000000000,
  0x0302030000000000, 0x0705070000000000, 0x0E0A0E0000000000, 0x1C141C0000000000,
  0x3828380000000000, 0x7050700000000000, 0xE0A0E00000000000, 0xC040C00000000000,
  0x0203000000000000, 0x0507000000000000, 0x0A0E000000000000, 0x141C000000000000,
  0x2838000000000000, 0x5070000000000000, 0xA0E0000000000000, 0x40C0000000000000]

/-- `attacks::pawn` from `src/chess/attacks.rs`. -/
def attacks.pawn (c : Color) (sq : Square) : Nat :=
  match c with
  | .White => PAWN_ATTACKS_WHITE.getD sq 0
  | .Black => PAWN_ATTACKS_BLACK.getD sq 0

/-- `attacks::knight` from `src/chess/attacks.rs`. -/
def attacks.knight (sq : Square) : Nat := KNIGHT_ATTACKS.getD sq 0

/-- `attacks::king` from `src/chess/attacks.rs`. -/
def attacks.king (sq : Square) : Nat := KING_ATTACKS.getD sq 0

/-! ## Sliding attacks.  `hyperbola.rs` is not in src/; the construction is
modelled from spec §4.2 (Hyperbola-Quintessence): per-square ray masks for
file / rank / diagonal / anti-diagonal, and the attack formula
`(((o∧m) − 2s) ⊕ reverse(reverse(o∧m) − 2·reverse(s))) ∧ m`. -/

/-- Bitboard of a list of squares. -/
def bb_of_squares (l : List Square) : Nat :=
  l.foldl (fun a s => a ||| (1 <<< s)) 0

/-- 64-bit bit reversal (spec §4.2 `reverse`). -/
def reverse64 (v : Nat) : Nat :=
  (List.range 64).foldl (fun acc i => if v.testBit i then acc ||| (1 <<< (63 - i)) else acc) 0

/-- Modelled from the spec: diagonal ray mask through a square, the square
itself excluded (spec §4.2). -/
def diag_mask (sq : Square) : Nat :=
  bb_of_squares ((List.range 64).filter
    (fun t => t ≠ sq ∧ ((t / 8 : Int) - (t % 8 : Int) = (sq / 8 : Int) - (sq % 8 : Int))))

/-- Modelled from the spec: anti-diagonal ray mask, square excluded. -/
def antidiag_mask (sq : Square) : Nat :=
  bb_of_squares ((List.range 64).filter
    (fun t => t ≠ sq ∧ t / 8 + t % 8 = sq / 8 + sq % 8))

/-- Modelled from the spec: file ray mask, square excluded. -/
def file_mask_ex (sq : Square) : Nat :=
  bb_of_squares ((List.range 64).filter (fun t => t ≠ sq ∧ t % 8 = sq % 8))

/-- Modelled from the spec: rank ray mask, square excluded. -/
def rank_mask_ex (sq : Square) : Nat :=
  bb_of_squares ((List.range 64).filter (fun t => t ≠ sq ∧ t / 8 = sq / 8))

/-- Wrapping `u64` subtraction. -/
def wsub64 (a b : Nat) : Nat := ((a % 2 ^ 64) + 2 ^ 64 - b % 2 ^ 64) % 2 ^ 64

/-- Modelled from the spec: the Hyperbola-Quintessence line attack
(spec §4.2). -/
def hyperbola_attack (sq : Square) (occ mask : Nat) : Nat :=
  let s := 1 <<< sq
  let o := occ &&& mask
  let forward := wsub64 o (2 * s)
  let backward := reverse64 (wsub64 (reverse64 o) (2 * reverse64 s))
  (forward ^^^ backward) &&& mask

/-- `attacks::bishop`: diagonal ⊕ anti-diagonal (spec §4.2). -/
def attacks.bishop (sq : Square) (occ : Nat) : Nat :=
  hyperbola_attack sq occ (diag_mask sq) ^^^ hyperbola_attack sq occ (antidiag_mask sq)

/-- `attacks::rook`: file ⊕ rank (spec §4.2). -/
def attacks.rook (sq : Square) (occ : Nat) : Nat :=
  hyperbola_attack sq occ (file_mask_ex sq) ^^^ hyperbola_attack sq occ (rank_mask_ex sq)

/-- `attacks::queen` from `src/chess/attacks.rs`. -/
def attacks.queen (sq : Square) (occ : Nat) : Nat :=
  attacks.bishop sq occ ||| attacks.rook sq occ

/-- `attacks::piece_attacks` from `src/chess/attacks.rs`; the `_ => panic`
branch is never reached by the code paths verified here and returns 0. -/
def attacks.piece_attacks (pt : PieceType) (sq : Square) (occ : Nat) : Nat :=
  match pt with
  | .Knight => attacks.knight sq
  | .Bishop => attacks.bishop sq occ
  | .Rook => attacks.rook sq occ
  | .Queen => attacks.queen sq occ
  | .King => attacks.king sq
  | _ => 0

/-! ## Moves (`src/chess/move.rs`) -/

inductive MoveType where
  | Normal
  | Promotion
  | Castle
  | EnPassant
deriving DecidableEq, Repr

/-- `MoveType::ordinal` from `src/chess/move.rs`. -/
def MoveType.ordinal : MoveType → Nat
  | .Normal => 0
  | .Promotion => 1
  | .Castle => 2
  | .EnPassant => 3

/-- `MoveType::from_ordinal` from `src/chess/move.rs`; the panic on
ordinals `≥ 4` is unreachable from the 2-bit field that feeds it, values
`≥ 4` map to `Normal` here. -/
def MoveType.from_ordinal (n : Nat) : MoveType :=
  match n with
  | 0 => .Normal
  | 1 => .Promotion
  | 2 => .Castle
  | _ => .EnPassant

/-- `Move` from `src/chess/move.rs`. -/
structure Move where
  from_sq : Square
  to_sq : Square
  move_type : MoveType
  promoted_piece : Piece
deriving DecidableEq, Repr

/-- `Move::normal`. -/
def Move.normal (f t : Square) : Move := ⟨f, t, .Normal, Piece.none⟩

/-- `Move::en_passant`. -/
def Move.en_passant (f t : Square) : Move := ⟨f, t, .EnPassant, Piece.none⟩

/-- `Move::promotion`. -/
def Move.promotion (f t : Square) (pc : Piece) : Move := ⟨f, t, .Promotion, pc⟩

/-- `Move::castle`. -/
def Move.castle (f t : Square) : Move := ⟨f, t, .Castle, Piece.none⟩

/-- `Move::castle_type`: `Short` iff the destination file is H. -/
def Move.castle_type (mv : Move) : CastleType :=
  if mv.to_sq % 8 = 7 then .Short else .Long

/-! ## Position (`src/chess/position.rs`) -/

structure Position where
  /-- Bitboards for each piece type (PNBRQK), six entries. -/
  bb : List Nat
  /-- Bitboards for each color (White, Black), two entries. -/
  bb_color : List Nat
  /-- Piece list, 64 entries. -/
  pieces : List Piece
  /-- Side to move. -/
  stm : Color
  /-- Castling rights. -/
  castling_rights : CastlingRights
  /-- Halfmove clock (`u8`). -/
  halfm : Nat
  /-- Fullmove number (`u16`). -/
  fullm : Nat
  /-- En passant target square. -/
  enpassant : Square
deriving DecidableEq, Repr

/-- `Position::new`. -/
def Position.new : Position :=
  { bb := [0, 0, 0, 0, 0, 0]
    bb_color := [0, 0]
    pieces := List.replicate 64 Piece.none
    stm := .White
    castling_rights := CastlingRights.NONE
    halfm := 0
    fullm := 1
    enpassant := Square.NONE }

/-- `Position::occupied`. -/
def Position.occupied (pos : Position) : Nat :=
  pos.bb_color.getD 0 0 ||| pos.bb_color.getD 1 0

/-- `Position::pieces_bb`. -/
def Position.pieces_bb (pos : Position) (c : Color) : Nat :=
  pos.bb_color.getD c.toNat 0

/-- `Position::pieces_bb_color`. -/
def Position.pieces_bb_color (pos : Position) (c : Color) (pt : PieceType) : Nat :=
  pos.bb_color.getD c.toNat 0 &&& pos.bb.getD pt.ordinal 0

/-- `Position::piece_at`. -/
def Position.piece_at (pos : Position) (sq : Square) : Piece :=
  pos.pieces.getD sq Piece.none

/-- `Position::ep_square`. -/
def Position.ep_square (pos : Position) : Square := pos.enpassant

/-- `Position::place_piece`.  `none` models the Rust panic
(`bb[6]` out of bounds) when the piece is the none piece. -/
def Position.place_piece (pos : Position) (side : Color) (pc : Piece) (sq : Square) :
    Option Position :=
  if pc.piece_type = PieceType.None then none
  else
    let mask := 1 <<< sq
    some { pos with
      bb_color := pos.bb_color.set side.toNat (pos.bb_color.getD side.toNat 0 ||| mask)
      bb := pos.bb.set pc.piece_type.ordinal (pos.bb.getD pc.piece_type.ordinal 0 ||| mask)
      pieces := pos.pieces.set sq pc }

/-- `Position::remove_piece`, with the same panic modelling. -/
def Position.remove_piece (pos : Position) (side : Color) (pc : Piece) (sq : Square) :
    Option Position :=
  if pc.piece_type = PieceType.None then none
  else
    let mask := 1 <<< sq
    some { pos with
      bb_color := pos.bb_color.set side.toNat (pos.bb_color.getD side.toNat 0 ^^^ mask)
      bb := pos.bb.set pc.piece_type.ordinal (pos.bb.getD pc.piece_type.ordinal 0 ^^^ mask)
      pieces := pos.pieces.set sq Piece.none }

/-- `Position::place`. -/
def Position.place (pos : Position) (pc : Piece) (sq : Square) : Option Position :=
  pos.place_piece pc.color pc sq

/-- `Position::is_attacked`.  Total for `sq < 64`; a `sq` of 64 would
panic in Rust (table index), the guard lives in the callers below. -/
def Position.is_attacked (pos : Position) (sq : Square) (c : Color) : Bool :=
  let occupied := pos.occupied
  (attacks.pawn c.opp sq &&& pos.pieces_bb_color c .Pawn
      ||| attacks.knight sq &&& pos.pieces_bb_color c .Knight
      ||| attacks.king sq &&& pos.pieces_bb_color c .King
      ||| attacks.bishop sq occupied
        &&& (pos.pieces_bb_color c .Bishop ||| pos.pieces_bb_color c .Queen)
      ||| attacks.rook sq occupied
        &&& (pos.pieces_bb_color c .Rook ||| pos.pieces_bb_color c .Queen)) > 0

/-- `Position::king_sq`: lowest set bit of the king bitboard
(`lsb` is lowest-set-bit extraction, spec §4.1); 64 when there is no king. -/
def Position.king_sq (pos : Position) (c : Color) : Square :=
  trailing_zeros64 (pos.pieces_bb_color c .King)

/-- `Position::is_checked`; `none` models the attack-table panic that a
kingless side would trigger in Rust. -/
def Position.is_checked (pos : Position) (c : Color) : Option Bool :=
  let k := pos.king_sq c
  if k < 64 then some (pos.is_attacked k c.opp) else none

/-- `Position::update_castling_rights`. -/
def Position.update_castling_rights (pos : Position) (fr tsq : Square) : Position :=
  let r := pos.castling_rights
  let r := if fr = Square.E1 ∨ tsq = Square.E1 then r.inter CastlingRights.WHITE.compl else r
  let r := if fr = Square.E8 ∨ tsq = Square.E8 then r.inter CastlingRights.BLACK.compl else r
  let r := if fr = Square.A1 ∨ tsq = Square.A1 then
      r.inter CastlingRights.WHITE_QUEEN_SIDE.compl else r
  let r := if fr = Square.H1 ∨ tsq = Square.H1 then
      r.inter CastlingRights.WHITE_KING_SIDE.compl else r
  let r := if fr = Square.A8 ∨ tsq = Square.A8 then
      r.inter CastlingRights.BLACK_QUEEN_SIDE.compl else r
  let r := if fr = Square.H8 ∨ tsq = Square.H8 then
      r.inter CastlingRights.BLACK_KING_SIDE.compl else r
  { pos with castling_rights := r }

/-- One iteration body of the en-passant legality loop of
`Position::do_move` (simulate the candidate capture, test for check, undo),
folded over the candidate squares in ascending order. -/
def Position.ep_loop (ep tsq : Square) (piece : Piece) (stm : Color) :
    Position → List Square → Option Position
  | pos, [] => some pos
  | pos, enemy_sq :: rest =>
    let enemy_pawn := pos.piece_at enemy_sq
    (pos.remove_piece stm.opp enemy_pawn enemy_sq).bind fun p1 =>
    (p1.place_piece stm.opp enemy_pawn ep).bind fun p2 =>
    (p2.remove_piece stm piece tsq).bind fun p3 =>
    (p3.is_checked stm.opp).bind fun checked =>
    (p3.place_piece stm.opp enemy_pawn enemy_sq).bind fun p4 =>
    (p4.remove_piece stm.opp enemy_pawn ep).bind fun p5 =>
    (p5.place_piece stm piece tsq).bind fun p6 =>
    if checked = false then some { p6 with enpassant := ep }
    else Position.ep_loop ep tsq piece stm p6 rest

/-- `Position::do_move`.  `none` models a Rust panic (removing or placing
the none piece, or the attack-table access of a kingless side inside the
en-passant legality simulation). -/
def Position.do_move (pos : Position) (mv : Move) : Option Position :=
  let fr := mv.from_sq
  let tsq := mv.to_sq
  let piece := pos.piece_at fr
  let captured := pos.piece_at tsq
  let genuine_capture := captured ≠ Piece.none ∧ mv.move_type ≠ MoveType.Castle
  (pos.remove_piece pos.stm piece fr).bind fun p1 =>
  (if genuine_capture then p1.remove_piece pos.stm.opp captured tsq else some p1).bind fun p2 =>
  (if mv.move_type = MoveType.Promotion then
      p2.place_piece pos.stm mv.promoted_piece tsq
    else if mv.move_type = MoveType.EnPassant then
      let captured_sq := tsq ^^^ 8
      (p2.remove_piece pos.stm.opp (p2.piece_at captured_sq) captured_sq).bind fun pa =>
      pa.place_piece pos.stm piece tsq
    else if mv.move_type = MoveType.Normal then
      p2.place_piece pos.stm piece tsq
    else
      if mv.castle_type = CastleType.Short then
        let rook_to := if pos.stm = Color.White then Square.F1 else Square.F8
        let king_to := if pos.stm = Color.White then Square.G1 else Square.G8
        let rook := p2.piece_at tsq
        (p2.remove_piece pos.stm rook tsq).bind fun pa =>
        (pa.place_piece pos.stm rook rook_to).bind fun pb =>
        pb.place_piece pos.stm piece king_to
      else
        let rook_to := if pos.stm = Color.White then Square.D1 else Square.D8
        let king_to := if pos.stm = Color.White then Square.C1 else Square.C8
        let rook := p2.piece_at tsq
        (p2.remove_piece pos.stm rook tsq).bind fun pa =>
        (pa.place_piece pos.stm rook rook_to).bind fun pb =>
        pb.place_piece pos.stm piece king_to).bind fun p3 =>
  let p4 := { p3 with
    halfm := if genuine_capture ∨ piece.piece_type = PieceType.Pawn then 0
             else (p3.halfm + 1) % 256
    fullm := if pos.stm = Color.Black then (p3.fullm + 1) % 65536 else p3.fullm }
  let p5 := p4.update_castling_rights fr tsq
  let p6 := { p5 with enpassant := Square.NONE }
  (if piece.piece_type = PieceType.Pawn ∧ ((tsq : Int) - (fr : Int)).natAbs = 16 then
      let ep := tsq ^^^ 8
      let ep_mask := attacks.pawn pos.stm ep
      let enemy_mask := p6.pieces_bb_color pos.stm.opp .Pawn
      if ep_mask &&& enemy_mask > 0 then
        Position.ep_loop ep tsq piece pos.stm p6 (bb_iter (ep_mask &&& enemy_mask))
      else some p6
    else some p6).map fun p7 =>
  { p7 with stm := pos.stm.opp }

/-- `Position::set_castling_rights`. -/
def Position.set_castling_rights (pos : Position) (r : CastlingRights) : Position :=
  { pos with castling_rights := r }

/-- `Position::set_ep_square_unchecked`. -/
def Position.set_ep_square_unchecked (pos : Position) (sq : Square) : Position :=
  { pos with enpassant := sq }

/-- `Position::add_castling_rights`. -/
def Position.add_castling_rights (pos : Position) (r : CastlingRights) : Position :=
  { pos with castling_rights := pos.castling_rights.union r }

/-- `Position::set_side_to_move`. -/
def Position.set_side_to_move (pos : Position) (c : Color) : Position :=
  { pos with stm := c }

/-- `Position::set_ply`: `fullm = ply / 2 + 1`. -/
def Position.set_ply (pos : Position) (ply : Nat) : Position :=
  { pos with fullm := ply / 2 + 1 }

/-- `Position::ply`: `((fullm - 1) * 2) + (stm as u16)` in `u16`
arithmetic. -/
def Position.ply (pos : Position) : Nat :=
  ((pos.fullm + 65536 - 1) % 65536 * 2 % 65536 + pos.stm.toNat) % 65536

/-- `Position::set_rule50_counter`: stores `counter as u8`. -/
def Position.set_rule50_counter (pos : Position) (counter : Nat) : Position :=
  { pos with halfm := counter % 256 }

/-- `Position::rule50_counter`: returns `halfm as u16`. -/
def Position.rule50_counter (pos : Position) : Nat := pos.halfm

/-- The piece character of `Position::fen`; the panic branch for the none
piece is unreachable from the rendering loop and yields a placeholder. -/
def piece_fen_char (pc : Piece) : Char :=
  let c : Char := match pc.piece_type with
    | .Pawn => 'p'
    | .Knight => 'n'
    | .Bishop => 'b'
    | .Rook => 'r'
    | .Queen => 'q'
    | .King => 'k'
    | .None => '?'
  if pc.color = Color.White then c.toUpper else c

/-- One rank of the board part of `Position::fen` (inner file loop with
the empty-square run counter). -/
def fen_rank_string (pos : Position) (rank : Nat) : String :=
  let st := (List.range 8).foldl (fun (st : Nat × String) file =>
    let sq := rank * 8 + file
    let pc := pos.piece_at sq
    if pc = Piece.none then (st.1 + 1, st.2)
    else
      let s1 := if st.1 > 0 then st.2 ++ toString st.1 else st.2
      (0, s1.push (piece_fen_char pc))) (0, "")
  if st.1 > 0 then st.2 ++ toString st.1 else st.2

/-- `Position::fen`. -/
def Position.fen (pos : Position) : String :=
  let board := String.intercalate "/"
    (((List.range 8).reverse).map (fun r => fen_rank_string pos r))
  let stm := if pos.stm = Color.White then "w" else "b"
  let cr := pos.castling_rights
  let castling :=
    if cr = CastlingRights.NONE then "-"
    else
      (if cr.contains CastlingRights.WHITE_KING_SIDE then "K" else "")
        ++ (if cr.contains CastlingRights.WHITE_QUEEN_SIDE then "Q" else "")
        ++ (if cr.contains CastlingRights.BLACK_KING_SIDE then "k" else "")
        ++ (if cr.contains CastlingRights.BLACK_QUEEN_SIDE then "q" else "")
  let ep := if pos.enpassant = Square.NONE then "-" else Square.to_string pos.enpassant
  board ++ " " ++ stm ++ " " ++ castling ++ " " ++ ep ++ " "
    ++ toString pos.halfm ++ " " ++ toString pos.fullm

/-! ## Compressed position (`src/compressed_position.rs`) -/

structure CompressedPosition where
  occupied : Nat
  packed_state : List Nat
deriving DecidableEq, Repr

/-- `CompressedPosition::read_from_big_endian`: 8 big-endian occupancy
bytes followed by 16 nibble bytes. -/
def CompressedPosition.read_from_big_endian (data : List Nat) : CompressedPosition :=
  { occupied :=
      (data.getD 0 0) <<< 56 ||| (data.getD 1 0) <<< 48 ||| (data.getD 2 0) <<< 40
        ||| (data.getD 3 0) <<< 32 ||| (data.getD 4 0) <<< 24 ||| (data.getD 5 0) <<< 16
        ||| (data.getD 6 0) <<< 8 ||| data.getD 7 0
    packed_state := (data.drop 8).take 16 }

/-- The per-square nibble decoder closure of
`CompressedPosition::decompress`; `none` models the `unreachable!` branch
for nibbles `≥ 16`. -/
def decompress_piece (pos : Position) (sq : Square) (nibble : Nat) : Option Position :=
  if nibble ≤ 11 then pos.place (Piece.from_id nibble) sq
  else if nibble = 12 then
    let rank := sq / 8
    if rank = 3 then
      (pos.place Piece.WHITE_PAWN sq).map fun p =>
        p.set_ep_square_unchecked (sq.add_offset 0 (-1))
    else
      (pos.place Piece.BLACK_PAWN sq).map fun p =>
        p.set_ep_square_unchecked (sq.add_offset 0 1)
  else if nibble = 13 then
    (pos.place Piece.WHITE_ROOK sq).map fun p =>
      if sq = Square.A1 then p.add_castling_rights CastlingRights.WHITE_QUEEN_SIDE
      else p.add_castling_rights CastlingRights.WHITE_KING_SIDE
  else if nibble = 14 then
    (pos.place Piece.BLACK_ROOK sq).map fun p =>
      if sq = Square.A8 then p.add_castling_rights CastlingRights.BLACK_QUEEN_SIDE
      else p.add_castling_rights CastlingRights.BLACK_KING_SIDE
  else if nibble = 15 then
    (pos.place Piece.BLACK_KING sq).map fun p => p.set_side_to_move Color.Black
  else none

/-- The chunk loop of `CompressedPosition::decompress`: each packed byte
supplies a low and a high nibble for the next occupied squares; the loop
breaks when the square iterator is exhausted. -/
def decompress_loop : Position → List Nat → List Square → Option Position
  | pos, _, [] => some pos
  | pos, [], _ => some pos
  | pos, chunk :: chunks, sq :: sqs =>
    (decompress_piece pos sq (chunk &&& 0xF)).bind fun p1 =>
    match sqs with
    | [] => some p1
    | sq2 :: rest =>
      (decompress_piece p1 sq2 (chunk >>> 4)).bind fun p2 =>
      decompress_loop p2 chunks rest

/-- `CompressedPosition::decompress`. -/
def CompressedPosition.decompress (cp : CompressedPosition) : Option Position :=
  let pos := Position.new.set_castling_rights CastlingRights.NONE
  decompress_loop pos cp.packed_state (bb_iter cp.occupied)

/-! ## Arithmetic helpers.  `arithmetic.rs` is not in src/; the zig-zag
codec and field widths are specified by the spec glossary and §4.8. -/

/-- Modelled from the spec: inverse zig-zag, even `v` to `v/2`, odd `v` to
`-(v+1)/2` (spec glossary). -/
def unsigned_to_signed (v : Nat) : Int :=
  if v % 2 = 0 then (v / 2 : Nat) else -(((v : Int) + 1) / 2)

/-- Modelled from the spec: zig-zag, `x ≥ 0` to `2x`, `x < 0` to `-2x-1`
(spec glossary). -/
def signed_to_unsigned (x : Int) : Nat :=
  if 0 ≤ x then (2 * x).toNat else (-2 * x - 1).toNat

/-- Modelled from the spec: `used_bits(n) = 0` if `n ≤ 1` else `⌈log₂ n⌉`
(spec §4.8). -/
def used_bits_safe (n : Nat) : Nat :=
  if n ≤ 1 then 0 else Nat.clog 2 n

/-! ## Compressed move.  `compressed_move.rs` is not in src/; layout from
spec §4.6: one big-endian 16-bit word, top 2 bits the move type ordinal,
then 6 bits `from`, 6 bits `to`, bottom 2 bits `promotion piece − Knight`
(zero otherwise). -/

structure CompressedMove where
  packed : Nat
deriving DecidableEq, Repr

/-- Modelled from the spec: read the 2-byte big-endian word (spec §4.6). -/
def CompressedMove.read_from_big_endian (data : List Nat) : CompressedMove :=
  ⟨(data.getD 0 0) <<< 8 ||| data.getD 1 0⟩

/-- Modelled from the spec: unpack the move word (spec §4.6).  For a
promotion the promoted piece type is `Knight + bits`; its color is the
side that reaches the promotion rank (rank 8 promotes White pawns). -/
def CompressedMove.decompress (cm : CompressedMove) : Move :=
  let mt := MoveType.from_ordinal (cm.packed >>> 14)
  let fr := (cm.packed >>> 8) &&& 0x3F
  let tsq := (cm.packed >>> 2) &&& 0x3F
  let promoted :=
    if mt = MoveType.Promotion then
      Piece.new (PieceType.from_ordinal ((cm.packed &&& 0x3) + 1))
        (if tsq / 8 = 7 then Color.White else Color.Black)
    else Piece.none
  ⟨fr, tsq, mt, promoted⟩

/-! ## Training entries (`src/entry.rs`) -/

structure TrainingDataEntry where
  pos : Position
  mv : Move
  score : Int
  ply : Nat
  result : Int
deriving DecidableEq, Repr

structure PackedTrainingDataEntry where
  data : List Nat
deriving DecidableEq, Repr

/-- `read_u16_be` of `src/entry.rs`. -/
def read_u16_be (data : List Nat) (offset : Nat) : Nat :=
  (data.getD offset 0) <<< 8 ||| data.getD (offset + 1) 0

/-- `PackedTrainingDataEntry::unpack_entry`. -/
def PackedTrainingDataEntry.unpack_entry (e : PackedTrainingDataEntry) :
    Option TrainingDataEntry :=
  let compressed_pos := CompressedPosition.read_from_big_endian e.data
  (compressed_pos.decompress).map fun pos =>
  let compressed_move := CompressedMove.read_from_big_endian (e.data.drop 24)
  let mv := compressed_move.decompress
  let score := unsigned_to_signed (read_u16_be e.data 26)
  let pr := read_u16_be e.data 28
  let ply := pr &&& 0x3FFF
  let result := unsigned_to_signed (pr >>> 14)
  let pos := pos.set_ply ply
  let pos := pos.set_rule50_counter (read_u16_be e.data 30)
  { pos := pos, mv := mv, score := score, ply := ply, result := result }

/-! ## Bit-stream writer (`src/writer/move_score_list.rs`) -/

/-- `PackedMoveScoreList` (the chain encoder state). -/
structure PackedMoveScoreList where
  num_plies : Nat
  movetext : List Nat
  bits_left : Nat
  last_score : Int
deriving DecidableEq, Repr

/-- `PackedMoveScoreList::new`. -/
def PackedMoveScoreList.new : PackedMoveScoreList :=
  { num_plies := 0, movetext := [], bits_left := 0, last_score := 0 }

/-- Replace the last byte of the buffer (`self.movetext[last_idx] |= …`);
the Rust code would panic on an empty buffer, which no reachable state
produces (`bits_left > 0` implies a non-empty buffer). -/
def or_into_last (l : List Nat) (x : Nat) : List Nat :=
  l.dropLast ++ [l.getLastD 0 ||| x]

/-- `PackedMoveScoreList::add_bits_le8`: append `count ≤ 8` bits (the
value `bits < 2^count`), filling bytes from the most significant bit
down. -/
def PackedMoveScoreList.add_bits_le8 (s : PackedMoveScoreList) (bits count : Nat) :
    PackedMoveScoreList :=
  if count = 0 then s
  else if s.bits_left = 0 then
    { s with movetext := s.movetext ++ [(bits <<< (8 - count)) % 256]
             bits_left := 8 - count }
  else if count ≤ s.bits_left then
    { s with movetext := or_into_last s.movetext ((bits <<< (s.bits_left - count)) % 256)
             bits_left := s.bits_left - count }
  else
    let spill_count := count - s.bits_left
    { s with movetext := or_into_last s.movetext ((bits >>> spill_count) % 256)
                          ++ [(bits <<< (8 - spill_count)) % 256]
             bits_left := s.bits_left + 8 - count }

/-- The loop of `PackedMoveScoreList::add_bits_vle16`, with fuel (each
iteration shifts `v` right by `block_size ≥ 1` bits, so 17 units of fuel
cover every 16-bit value). -/
def add_bits_vle16_aux (block_size : Nat) :
    Nat → Nat → PackedMoveScoreList → PackedMoveScoreList
  | 0, _, s => s
  | fuel + 1, v, s =>
    let mask := (1 <<< block_size) - 1
    let block := (v &&& mask) ||| ((if v > mask then 1 else 0) <<< block_size)
    let s := s.add_bits_le8 block (block_size + 1)
    let v := v >>> block_size
    if v = 0 then s else add_bits_vle16_aux block_size fuel v s

/-- `PackedMoveScoreList::add_bits_vle16`. -/
def PackedMoveScoreList.add_bits_vle16 (s : PackedMoveScoreList) (v : Nat)
    (block_size : Nat) : PackedMoveScoreList :=
  add_bits_vle16_aux block_size 17 v s

/-- The `(move_id, num_moves)` computation of
`PackedMoveScoreList::add_move_score` (the `match` on the moving piece's
type); `move_id` follows the `u32` wrapping arithmetic of the source. -/
def move_id_and_count (pos : Position) (mv : Move) : Nat × Nat :=
  let side_to_move := pos.stm
  let our_pieces := pos.pieces_bb side_to_move
  let their_pieces := pos.pieces_bb side_to_move.opp
  let occupied := our_pieces ||| their_pieces
  let pt := (pos.piece_at mv.from_sq).piece_type
  match pt with
  | .Pawn =>
    let second_to_last_rank := if side_to_move = Color.White then 6 else 1
    let start_rank := if side_to_move = Color.White then 1 else 6
    let forward : Int := if side_to_move = Color.White then 8 else -8
    let ep_square := pos.ep_square
    let attack_targets :=
      if ep_square ≠ Square.NONE then their_pieces ||| from_square ep_square
      else their_pieces
    let destinations := attacks.pawn side_to_move mv.from_sq &&& attack_targets
    let sq_forward := ((mv.from_sq : Int) + forward).toNat
    let destinations :=
      if ¬ (occupied.testBit sq_forward) then
        let d := destinations ||| from_square sq_forward
        if mv.from_sq / 8 = start_rank
            ∧ ¬ (occupied.testBit (((sq_forward : Int) + forward).toNat)) then
          d ||| from_square (((sq_forward : Int) + forward).toNat)
        else d
      else destinations
    let move_id := count64 (destinations &&& from_before mv.to_sq)
    let num_moves := count64 destinations
    if mv.from_sq / 8 = second_to_last_rank then
      let promotion_index :=
        mv.promoted_piece.piece_type.ordinal - PieceType.Knight.ordinal
      (move_id * 4 + promotion_index, num_moves * 4)
    else (move_id, num_moves)
  | .King =>
    let our_castling_rights_mask :=
      if side_to_move = Color.White then CastlingRights.WHITE else CastlingRights.BLACK
    let castling_rights := pos.castling_rights
    let atk := attacks.king mv.from_sq &&& compl64 our_pieces
    let attacks_size := count64 atk
    let num_castling_rights := (castling_rights.inter our_castling_rights_mask).count_ones
    let num_moves := attacks_size + num_castling_rights
    if mv.move_type = MoveType.Castle then
      let long_castling_rights := CastlingTraits.castling_rights side_to_move CastleType.Long
      let move_id := (attacks_size + 2 ^ 32 - 1) % 2 ^ 32
      let move_id :=
        if castling_rights.contains long_castling_rights then (move_id + 1) % 2 ^ 32
        else move_id
      let move_id :=
        if mv.castle_type = CastleType.Short then (move_id + 1) % 2 ^ 32 else move_id
      (move_id, num_moves)
    else
      (count64 (atk &&& from_before mv.to_sq), num_moves)
  | _ =>
    let atk := attacks.piece_attacks pt mv.from_sq occupied &&& compl64 our_pieces
    (count64 (atk &&& from_before mv.to_sq), count64 atk)

/-- `PackedMoveScoreList::add_move_score`. -/
def PackedMoveScoreList.add_move_score (s : PackedMoveScoreList) (pos : Position)
    (mv : Move) (score : Int) : PackedMoveScoreList :=
  let piece_id := count64 (pos.pieces_bb pos.stm &&& from_before mv.from_sq)
  let ids := move_id_and_count pos mv
  let num_pieces := count64 (pos.pieces_bb pos.stm)
  let s := s.add_bits_le8 piece_id (used_bits_safe num_pieces)
  let s := s.add_bits_le8 (ids.1 % 256) (used_bits_safe ids.2)
  let score_delta := signed_to_unsigned (score - s.last_score)
  let s := s.add_bits_vle16 score_delta 4
  { s with last_score := -score, num_plies := s.num_plies + 1 }

/-! ## Bit-stream reader (`src/reader/bitreader.rs`) -/

/-- `BitReader`; `data` stands for the byte slice starting at the reader's
base offset.  Out-of-range accesses (undefined behaviour through the raw
pointer in Rust) read 0 here; the theorems below only apply the reader
within bounds. -/
structure BitReader where
  data : List Nat
  read_bits_left : Nat
  read_offset : Nat
deriving DecidableEq, Repr

/-- `BitReader::new`. -/
def BitReader.new (data : List Nat) : BitReader :=
  { data := data, read_bits_left := 8, read_offset := 0 }

/-- `BitReader::extract_bits_le8`, returning the extracted value and the
advanced reader. -/
def BitReader.extract_bits_le8 (r : BitReader) (count : Nat) : Nat × BitReader :=
  if count = 0 then (0, r)
  else
    let r := if r.read_bits_left = 0 then
        { r with read_offset := r.read_offset + 1, read_bits_left := 8 }
      else r
    let byte := ((r.data.getD r.read_offset 0) <<< (8 - r.read_bits_left)) % 256
    let bits := byte >>> (8 - count)
    if count > r.read_bits_left then
      let spill_count := count - r.read_bits_left
      let bits := bits ||| ((r.data.getD (r.read_offset + 1) 0) >>> (8 - spill_count))
      (bits, { r with read_offset := r.read_offset + 1
                      read_bits_left := r.read_bits_left + 8 - count })
    else
      (bits, { r with read_bits_left := r.read_bits_left - count })

/-- The loop of `BitReader::extract_vle16`, with fuel (17 covers any
16-bit value; every iteration consumes `block_size + 1 ≥ 2` bits). -/
def extract_vle16_aux (block_size : Nat) :
    Nat → Nat → Nat → BitReader → Nat × BitReader
  | 0, _, v, r => (v, r)
  | fuel + 1, offset, v, r =>
    let mask := (1 <<< block_size) - 1
    let br := r.extract_bits_le8 (block_size + 1)
    let block := br.1
    let v := v ||| (((block &&& mask) <<< offset) % 65536)
    if block >>> block_size = 0 then (v, br.2)
    else extract_vle16_aux block_size fuel (offset + block_size) v br.2

/-- `BitReader::extract_vle16`. -/
def BitReader.extract_vle16 (r : BitReader) (block_size : Nat) : Nat × BitReader :=
  extract_vle16_aux block_size 17 0 0 r

/-! ## Reader façade (`src/reader/compressed_reader.rs`).  The underlying
`CompressedTrainingDataFile` (chunk framing) is not in src/. -/

/-- `BinpackError` (`binpack_error.rs`, not in src/): the format-error
values surfaced by the chunk layer (spec §7). -/
inductive BinpackError where
  | invalid_format (msg : String)
deriving DecidableEq, Repr

/-- `CompressedReaderError` from `src/reader/compressed_reader.rs`. -/
inductive CompressedReaderError where
  | io
  | invalid_format (msg : String)
  | end_of_file
  | binpack (e : BinpackError)
deriving DecidableEq, Repr

/-- Modelled from the spec: `compressed_training_file.rs` is not in src/.
Spec §1 assumes "a filesystem byte-stream interface supporting sequential
read of length-prefixed chunks"; the file is modelled at chunk granularity
as the list of chunk payloads still to be read (spec §4.9). -/
structure CompressedTrainingDataFile where
  chunks : List (List Nat)
deriving DecidableEq, Repr

/-- Modelled from the spec: `has_next_chunk` — more chunks remain. -/
def CompressedTrainingDataFile.has_next_chunk (f : CompressedTrainingDataFile) : Bool :=
  !f.chunks.isEmpty

/-- Modelled from the spec: `read_next_chunk` — sequential read of the
next length-prefixed chunk payload. -/
def CompressedTrainingDataFile.read_next_chunk (f : CompressedTrainingDataFile) :
    Except BinpackError (List Nat × CompressedTrainingDataFile) :=
  match f.chunks with
  | [] => .error (.invalid_format "no chunk")
  | c :: rest => .ok (c, ⟨rest⟩)

/-- `CompressedTrainingDataEntryReader` (the fields the constructor
establishes). -/
structure CompressedTrainingDataEntryReader where
  chunk : List Nat
  input_file : CompressedTrainingDataFile
  offset : Nat
  is_end : Bool
deriving DecidableEq, Repr

/-- `CompressedTrainingDataEntryReader::new` from
`src/reader/compressed_reader.rs`: error `EndOfFile` when the file has no
chunk, otherwise load the first chunk. -/
def CompressedTrainingDataEntryReader.new (file : CompressedTrainingDataFile) :
    Except CompressedReaderError CompressedTrainingDataEntryReader :=
  if ¬ file.has_next_chunk then .error .end_of_file
  else
    match file.read_next_chunk with
    | .error e => .error (.binpack e)
    | .ok (c, rest) =>
      .ok { chunk := c, input_file := rest, offset := 0, is_end := false }

/-- `CompressedTrainingDataEntryReader::has_next`. -/
def CompressedTrainingDataEntryReader.has_next
    (r : CompressedTrainingDataEntryReader) : Bool :=
  !r.is_end

/-! ## Pseudo-legal move generator (`src/chess/attacks.rs`) -/

/-- `PROMOTION_PIECES` from `src/chess/attacks.rs`. -/
def promotion_pieces : List PieceType := [.Queen, .Rook, .Bishop, .Knight]

/-- `super_attacks_from_square` from `src/chess/attacks.rs`. -/
def super_attacks_from_square (sq : Square) (c : Color) (pos : Position) : Nat :=
  attacks.pawn c sq &&& pos.pieces_bb_color c.opp .Pawn
    ||| attacks.knight sq &&& pos.pieces_bb_color c.opp .Knight
    ||| attacks.bishop sq pos.occupied
      &&& (pos.pieces_bb_color c.opp .Bishop ||| pos.pieces_bb_color c.opp .Queen)
    ||| attacks.rook sq pos.occupied
      &&& (pos.pieces_bb_color c.opp .Rook ||| pos.pieces_bb_color c.opp .Queen)
    ||| attacks.king sq &&& pos.pieces_bb_color c.opp .King

/-- The pawn block of `pseudo_legal_moves` for one source square: pushes
(single, promotions, double) followed by the attack loop (en passant,
captures, capture promotions). -/
def pawn_moves_from (pos : Position) (side : Color) (fr : Square) : List Move :=
  let from_rank := fr / 8
  let direction : Int := if side = Color.White then 8 else -8
  let one_step : Int := (fr : Int) + direction
  let push_moves :=
    if 0 ≤ one_step ∧ one_step < 64 then
      let tsq := one_step.toNat
      if pos.piece_at tsq = Piece.none then
        if (side = Color.White ∧ 56 ≤ one_step) ∨ (side = Color.Black ∧ one_step < 8) then
          promotion_pieces.map fun promo => Move.promotion fr tsq (Piece.new promo side)
        else
          Move.normal fr tsq ::
            (let start_rank := if side = Color.White then 1 else 6
            if from_rank = start_rank then
              let two_step : Int := (fr : Int) + 2 * direction
              if 0 ≤ two_step ∧ two_step < 64 then
                let mid_sq := one_step.toNat
                let dbl_sq := two_step.toNat
                if pos.piece_at mid_sq = Piece.none ∧ pos.piece_at dbl_sq = Piece.none then
                  [Move.normal fr dbl_sq]
                else []
              else []
            else [])
      else []
    else []
  let capture_moves :=
    (bb_iter (attacks.pawn side fr)).flatMap fun tsq =>
      if pos.ep_square ≠ Square.NONE ∧ tsq = pos.ep_square then [Move.en_passant fr tsq]
      else
        let target := pos.piece_at tsq
        if target ≠ Piece.none ∧ target.color ≠ side then
          if (side = Color.White ∧ 56 ≤ tsq) ∨ (side = Color.Black ∧ tsq < 8) then
            promotion_pieces.map fun promo => Move.promotion fr tsq (Piece.new promo side)
          else [Move.normal fr tsq]
        else []
  push_moves ++ capture_moves

/-- The generic piece block of `pseudo_legal_moves`: iterate the sources
in ascending square order, the destinations in ascending order, keep
empty or enemy-occupied destinations. -/
def moves_for_targets (pos : Position) (side : Color) (src_bb : Nat)
    (targets_of : Square → Nat) : List Move :=
  (bb_iter src_bb).flatMap fun fr =>
    (bb_iter (targets_of fr)).filterMap fun tsq =>
      let target := pos.piece_at tsq
      if target = Piece.none ∨ target.color ≠ side then some (Move.normal fr tsq)
      else Option.none

/-- The castling block of `pseudo_legal_moves` (king captures rook);
skipped entirely when the mover is in check. -/
def castle_move_list (pos : Position) (side : Color) (king_sq : Square) : List Move :=
  if super_attacks_from_square king_sq side pos ≠ 0 then []
  else if side = Color.White then
    (if pos.castling_rights.contains CastlingRights.WHITE_KING_SIDE
        ∧ super_attacks_from_square Square.F1 side pos = 0
        ∧ super_attacks_from_square Square.G1 side pos = 0
        ∧ pos.piece_at Square.F1 = Piece.none ∧ pos.piece_at Square.G1 = Piece.none then
      [Move.castle king_sq Square.H1] else [])
    ++ (if pos.castling_rights.contains CastlingRights.WHITE_QUEEN_SIDE
        ∧ super_attacks_from_square Square.C1 side pos = 0
        ∧ super_attacks_from_square Square.D1 side pos = 0
        ∧ pos.piece_at Square.B1 = Piece.none ∧ pos.piece_at Square.C1 = Piece.none
        ∧ pos.piece_at Square.D1 = Piece.none then
      [Move.castle king_sq Square.A1] else [])
  else
    (if pos.castling_rights.contains CastlingRights.BLACK_KING_SIDE
        ∧ super_attacks_from_square Square.F8 side pos = 0
        ∧ super_attacks_from_square Square.G8 side pos = 0
        ∧ pos.piece_at Square.F8 = Piece.none ∧ pos.piece_at Square.G8 = Piece.none then
      [Move.castle king_sq Square.H8] else [])
    ++ (if pos.castling_rights.contains CastlingRights.BLACK_QUEEN_SIDE
        ∧ super_attacks_from_square Square.C8 side pos = 0
        ∧ super_attacks_from_square Square.D8 side pos = 0
        ∧ pos.piece_at Square.B8 = Piece.none ∧ pos.piece_at Square.C8 = Piece.none
        ∧ pos.piece_at Square.D8 = Piece.none then
      [Move.castle king_sq Square.A8] else [])

/-- `pseudo_legal_moves` from `src/chess/attacks.rs`.  `none` models the
attack-table panic when the mover has no king (the castle section indexes
tables at `king_sq`). -/
def pseudo_legal_moves (pos : Position) : Option (List Move) :=
  let side := pos.stm
  let occupancy := pos.occupied
  let pawn_moves := (bb_iter (pos.pieces_bb_color side .Pawn)).flatMap
    (pawn_moves_from pos side)
  let knight_moves := moves_for_targets pos side (pos.pieces_bb_color side .Knight)
    (fun fr => attacks.knight fr)
  let bishop_moves := moves_for_targets pos side (pos.pieces_bb_color side .Bishop)
    (fun fr => attacks.bishop fr occupancy)
  let rook_moves := moves_for_targets pos side (pos.pieces_bb_color side .Rook)
    (fun fr => attacks.rook fr occupancy)
  let queen_moves := moves_for_targets pos side (pos.pieces_bb_color side .Queen)
    (fun fr => attacks.queen fr occupancy)
  let king_moves := moves_for_targets pos side (pos.pieces_bb_color side .King)
    (fun fr => attacks.king fr)
  let king_sq := pos.king_sq side
  if king_sq < 64 then
    some (pawn_moves ++ knight_moves ++ bishop_moves ++ rook_moves ++ queen_moves
      ++ king_moves ++ castle_move_list pos side king_sq)
  else Option.none

/-! ## Concrete inputs used by the scenario claims -/

/-- The 32-byte stem of the library's `test_packed_training_data_entry`
test: prefix `62 79 c0 15 18 4c f1 64 64 6a 00 04 08 30 02 11 11 91 13 75
f7 00 00 00`, suffix `3d e8 00 fd 00 27 00 02`. -/
def c1_stem_bytes : List Nat :=
  [98, 121, 192, 21, 24, 76, 241, 100, 100, 106, 0, 4, 8, 48, 2, 17,
   17, 145, 19, 117, 247, 0, 0, 0, 61, 232, 0, 253, 0, 39, 0, 2]

/-- The standard chess starting position as a `Position` value. -/
def startpos : Position :=
  { bb := [0x00FF00000000FF00, 0x4200000000000042, 0x2400000000000024,
           0x8100000000000081, 0x0800000000000008, 0x1000000000000010]
    bb_color := [0xFFFF, 0xFFFF000000000000]
    pieces :=
      [Piece.from_id 6, Piece.from_id 2, Piece.from_id 4, Piece.from_id 8,
       Piece.from_id 10, Piece.from_id 4, Piece.from_id 2, Piece.from_id 6]
      ++ List.replicate 8 (Piece.from_id 0)
      ++ List.replicate 32 Piece.none
      ++ List.replicate 8 (Piece.from_id 1)
      ++ [Piece.from_id 7, Piece.from_id 3, Piece.from_id 5, Piece.from_id 9,
          Piece.from_id 11, Piece.from_id 5, Piece.from_id 3, Piece.from_id 7]
    stm := .White
    castling_rights := ⟨true, true, true, true⟩
    halfm := 0
    fullm := 1
    enpassant := Square.NONE }

/-- Write a list of `(value, width)` fields with `add_bits_le8`, starting
from the fresh encoder state. -/
def write_fields (fs : List (Nat × Nat)) : PackedMoveScoreList :=
  fs.foldl (fun s f => s.add_bits_le8 f.1 f.2) PackedMoveScoreList.new

/-- Read a list of widths with `extract_bits_le8`, returning the values. -/
def read_fields : BitReader → List Nat → List Nat
  | _, [] => []
  | r, c :: cs =>
    let br := r.extract_bits_le8 c
    br.1 :: read_fields br.2 cs

/-- The byte buffer read big-endian as one number. -/
def bytes_val (l : List Nat) : Nat := l.foldl (fun a b => a * 256 + b) 0

/-- Total bit width of a field list. -/
def fields_bits (fs : List (Nat × Nat)) : Nat := (fs.map Prod.snd).sum

/-- The field list laid out MSB-first as one number, from an accumulator. -/
def fields_val_from (a : Nat) : List (Nat × Nat) → Nat
  | [] => a
  | f :: fs => fields_val_from (a * 2 ^ f.2 + f.1) fs

/-- The field list laid out MSB-first as one number. -/
def fields_val (fs : List (Nat × Nat)) : Nat := fields_val_from 0 fs

/-- Field lists the claim quantifies over: widths at most 8, values in
range. -/
def fields_ok (fs : List (Nat × Nat)) : Prop := ∀ f ∈ fs, f.2 ≤ 8 ∧ f.1 < 2 ^ f.2

/-- Writer invariant: the bytes are in range, at most 7 bits of the last
byte are free, the byte count matches the logical bit count `n`, and the
buffer value is the stream value `S` shifted past the free bits. -/
def WInv (s : PackedMoveScoreList) (n S : Nat) : Prop :=
  (∀ b ∈ s.movetext, b < 256) ∧ s.bits_left ≤ 7
    ∧ 8 * s.movetext.length = n + s.bits_left
    ∧ bytes_val s.movetext = S * 2 ^ s.bits_left

/-- Reader position: `p` bits consumed so far. -/
def RPos (r : BitReader) (p : Nat) : Prop :=
  r.read_bits_left ≤ 8 ∧ 8 * r.read_offset + 8 = p + r.read_bits_left

/-- The sequence of `(block, block_size + 1)` fields the `add_bits_vle16`
loop emits for a value `v`, with the same fuel discipline. -/
def vle_blocks (block_size : Nat) : Nat → Nat → List (Nat × Nat)
  | 0, _ => []
  | fuel + 1, v =>
    let mask := (1 <<< block_size) - 1
    let block := (v &&& mask) ||| ((if v > mask then 1 else 0) <<< block_size)
    if v >>> block_size = 0 then [(block, block_size + 1)]
    else (block, block_size + 1) :: vle_blocks block_size fuel (v >>> block_size)


/-- A sparse position for exercising the king-move encoding: white king
e1, white rooks a1 and h1, black king e8, white to move, all castling
rights. -/
def kings_and_rooks : Position :=
  { bb := [0, 0, 0, 0x81, 0, 0x1000000000000010]
    bb_color := [0x91, 0x1000000000000000]
    pieces :=
      [Piece.from_id 6] ++ List.replicate 3 Piece.none ++ [Piece.from_id 10]
        ++ List.replicate 2 Piece.none ++ [Piece.from_id 6]
        ++ List.replicate 52 Piece.none
        ++ [Piece.from_id 11] ++ List.replicate 3 Piece.none
    stm := .White
    castling_rights := ⟨true, true, true, true⟩
    halfm := 0
    fullm := 1
    enpassant := Square.NONE }


/-- The six real piece types, in ordinal order. -/
def all_piece_types : List PieceType :=
  [.Pawn, .Knight, .Bishop, .Rook, .Queen, .King]

/-- The union of the six piece-type bitboards. -/
def type_union (pos : Position) : Nat :=
  pos.bb.getD 0 0 ||| pos.bb.getD 1 0 ||| pos.bb.getD 2 0 ||| pos.bb.getD 3 0
    ||| pos.bb.getD 4 0 ||| pos.bb.getD 5 0

/-- The board/bitboard agreement invariant of the spec: a square holds a
real piece exactly when its bit is set in the piece color bitboard and in
its piece-type bitboard; the occupancy equals the union of the color
bitboards, which equals the union of the six type bitboards. -/
def AgreeInv (pos : Position) : Prop :=
  (∀ sq, sq < 64 → ∀ pt ∈ all_piece_types, ∀ c ∈ [Color.White, Color.Black],
    (pos.piece_at sq = Piece.new pt c ↔ (pos.pieces_bb_color c pt).testBit sq))
  ∧ pos.occupied = pos.pieces_bb Color.White ||| pos.pieces_bb Color.Black
  ∧ pos.occupied = type_union pos

/-- Structural well-formedness of a `Position` value: list lengths as in
the Rust fixed-size arrays, 64-bit boards, piece ids in range. -/
def PosWF (pos : Position) : Prop :=
  pos.bb.length = 6 ∧ pos.bb_color.length = 2 ∧ pos.pieces.length = 64
  ∧ (∀ b ∈ pos.bb, b < 2 ^ 64) ∧ (∀ b ∈ pos.bb_color, b < 2 ^ 64)
  ∧ (∀ pc ∈ pos.pieces, pc.id < 13)


instance (pos : Position) : Decidable (AgreeInv pos) := by
  unfold AgreeInv
  infer_instance

instance (pos : Position) : Decidable (PosWF pos) := by
  unfold PosWF
  infer_instance

/-- Structural conditions on the castling target squares that `do_move`
needs: both in range, distinct, and each either vacated by the move or
already empty. -/
def castle_targets_ok (pos : Position) (mv : Move) (rt kt : Square) : Prop :=
  rt < 64 ∧ kt < 64 ∧ rt ≠ kt
  ∧ (rt = mv.from_sq ∨ rt = mv.to_sq ∨ pos.piece_at rt = Piece.none)
  ∧ (kt = mv.from_sq ∨ kt = mv.to_sq ∨ pos.piece_at kt = Piece.none)


instance (pos : Position) (mv : Move) (rt kt : Square) :
    Decidable (castle_targets_ok pos mv rt kt) := by
  unfold castle_targets_ok
  infer_instance

/-- `startpos` renders to the standard starting FEN through the
position's own FEN writer. -/
theorem startpos_fen :
    startpos.fen = "rnbqkbnr/pppppppp/8/8/8/8/PPPPPPPP/RNBQKBNR w KQkq - 0 1" := by
  rfl

/-- C1: decoding the 32-byte stem `62 79 c0 15 18 4c f1 64 64 6a 00 04 08
30 02 11 11 91 13 75 f7 00 00 00 3d e8 00 fd 00 27 00 02` with
`PackedTrainingDataEntry::unpack_entry` yields an entry whose position has
FEN `1r3rk1/p2qnpb1/6pp/P1p1p3/3nN3/2QP2P1/R3PPBP/2B2RK1 b - - 2 20`,
whose move goes from square 61 to square 58 with type `Normal` and no
promotion piece, and whose score is −127, ply 39 and result 0. -/
theorem C1_unpack_entry_stem_scenario :
    ∃ e, PackedTrainingDataEntry.unpack_entry ⟨c1_stem_bytes⟩ = some e
      ∧ e.pos.fen = "1r3rk1/p2qnpb1/6pp/P1p1p3/3nN3/2QP2P1/R3PPBP/2B2RK1 b - - 2 20"
      ∧ e.mv.from_sq = 61 ∧ e.mv.to_sq = 58 ∧ e.mv.move_type = MoveType.Normal
      ∧ e.mv.promoted_piece = Piece.none
      ∧ e.score = -127 ∧ e.ply = 39 ∧ e.result = 0 := by
  exact ⟨_, rfl, rfl, rfl, rfl, rfl, rfl, rfl, rfl, rfl⟩

/-- C2 counterexample: after the double pawn push e2e4 (square 12 to 28)
from the starting position, `do_move` leaves the en-passant square empty
(`Square::NONE` = 64), not e3 (= square 20) as the claim states. -/
theorem C2_counterexample_e2e4_ep_square :
    (startpos.do_move (Move.normal 12 28)).map Position.ep_square = some Square.NONE
    ∧ ¬ ((startpos.do_move (Move.normal 12 28)).map Position.ep_square = some 20) := by
  exact ⟨rfl, by decide⟩

/-- C2 (amended): after e2e4 from the starting position the en-passant
square is none, and after a2a4 it is likewise none; in both cases no
black pawn can even pseudo-capture on the skipped square (e3 resp. a3),
so the en-passant filter of `do_move` records nothing. -/
theorem C2_ep_square_double_pushes_startpos :
    (startpos.do_move (Move.normal 12 28)).map Position.ep_square = some Square.NONE
    ∧ (startpos.do_move (Move.normal 8 24)).map Position.ep_square = some Square.NONE
    ∧ attacks.pawn Color.White 20 &&& startpos.pieces_bb_color Color.Black .Pawn = 0
    ∧ attacks.pawn Color.White 16 &&& startpos.pieces_bb_color Color.Black .Pawn = 0 := by
  exact ⟨rfl, rfl, rfl, rfl⟩

/-! ## C8: the nibble decoder never sees a value ≥ 16 -/

/-- Any nibble below 16 is handled by one of the decoder's branches, so
the `unreachable!` branch is not taken. -/
theorem decompress_piece_total (pos : Position) (sq : Square) (n : Nat) (h : n < 16) :
    ∃ p, decompress_piece pos sq n = some p := by
  interval_cases n <;>
    simp [decompress_piece, Position.place, Position.place_piece, Piece.from_id,
      Piece.piece_type, Piece.WHITE_PAWN, Piece.BLACK_PAWN, Piece.WHITE_ROOK,
      Piece.BLACK_ROOK, Piece.BLACK_KING, Piece.new, PieceType.from_ordinal,
      PieceType.ordinal, Color.toNat] <;>
    split <;> simp

theorem decompress_loop_total (chunks : List Nat) (hc : ∀ c ∈ chunks, c < 256) :
    ∀ (pos : Position) (sqs : List Square), ∃ p, decompress_loop pos chunks sqs = some p := by
  induction chunks with
  | nil =>
    intro pos sqs
    cases sqs <;> exact ⟨_, rfl⟩
  | cons chunk chunks ih =>
    intro pos sqs
    have h1 : chunk &&& 0xF < 16 := by
      have := Nat.and_le_right (n := chunk) (m := 0xF)
      omega
    have h2 : chunk >>> 4 < 16 := by
      have hc0 : chunk < 256 := hc chunk (by simp)
      have : chunk >>> 4 = chunk / 16 := by
        rw [Nat.shiftRight_eq_div_pow]
      omega
    match sqs with
    | [] => exact ⟨_, rfl⟩
    | [sq] =>
      obtain ⟨p1, hp1⟩ := decompress_piece_total pos sq (chunk &&& 0xF) h1
      exact ⟨p1, by simp [decompress_loop, hp1]⟩
    | sq :: sq2 :: rest =>
      obtain ⟨p1, hp1⟩ := decompress_piece_total pos sq (chunk &&& 0xF) h1
      obtain ⟨p2, hp2⟩ := decompress_piece_total p1 sq2 (chunk >>> 4) h2
      obtain ⟨p3, hp3⟩ := ih (fun c hcmem => hc c (by simp [hcmem])) p2 rest
      exact ⟨p3, by simp [decompress_loop, hp1, hp2, hp3]⟩

/-- C8: for every 24-byte input, `CompressedPosition::decompress` passes
only nibble values 0..15 (the two 4-bit halves of each packed byte) to the
per-square decoder, so the panic branch for nibbles ≥ 16 is unreachable
and decompression always produces a position. -/
theorem C8_decompress_never_panics (data : List Nat) (hlen : data.length = 24)
    (hbytes : ∀ b ∈ data, b < 256) :
    ∃ p, (CompressedPosition.read_from_big_endian data).decompress = some p := by
  apply decompress_loop_total
  intro c hcmem
  exact hbytes c (List.mem_of_mem_drop (List.mem_of_mem_take hcmem))

/-- Witness for C8 at the stem prefix of the library's decode test. -/
theorem C8_decompress_never_panics_witness :
    ∃ p, (CompressedPosition.read_from_big_endian (c1_stem_bytes.take 24)).decompress
      = some p :=
  C8_decompress_never_panics (c1_stem_bytes.take 24) (by decide)
    (by decide)

/-! ## C6: ply accounting, C10: rule50 truncation -/

/-- C6: `ply()` returns `(fullm − 1)·2 + (stm == Black)` in the `u16`
arithmetic of the field, and `set_ply(p)` stores `fullm = p/2 + 1`;
consequently `ply()` after `set_ply(p)` returns `p` exactly when the
parity of `p` matches the side to move (`p` odd iff Black to move). -/
theorem C6_ply_set_ply :
    (∀ pos : Position, pos.ply = ((pos.fullm + 65535) * 2 + pos.stm.toNat) % 65536)
    ∧ (∀ (pos : Position) (p : Nat), p < 65536 →
      ((pos.set_ply p).fullm = p / 2 + 1)
      ∧ ((pos.set_ply p).ply = p ↔ (p % 2 = 1 ↔ (pos.set_ply p).stm = Color.Black))) := by
  constructor
  · intro pos
    cases h : pos.stm <;> unfold Position.ply <;> rw [h] <;>
      simp only [Color.toNat] <;> omega
  · intro pos p hp
    refine ⟨rfl, ?_⟩
    have hstm : (pos.set_ply p).stm = pos.stm := rfl
    have key : (pos.set_ply p).ply
        = ((p / 2 + 1 + 65536 - 1) % 65536 * 2 % 65536 + pos.stm.toNat) % 65536 := rfl
    rw [key, hstm]
    cases h : pos.stm with
    | White =>
      simp only [Color.toNat, show (Color.White = Color.Black) ↔ False by simp, iff_false]
      omega
    | Black =>
      simp only [Color.toNat, show (Color.Black = Color.Black) ↔ True by simp, iff_true]
      omega

/-- Witness for C6 at `p = 39` on a position with Black to move (odd ply
matches Black). -/
theorem C6_ply_set_ply_witness :
    ((Position.new.set_side_to_move Color.Black).set_ply 39).ply = 39 := by
  have h := (C6_ply_set_ply.2 (Position.new.set_side_to_move Color.Black) 39
    (by decide)).2
  exact h.mpr (by decide)

/-- C10: the stem stores the fifty-move counter in 16 bits but
`set_rule50_counter` truncates it to the 8-bit `halfm` field, so the
decoded position reports `rule50_counter() = c mod 256`; in particular
`unpack_entry` silently truncates stem rule50 values ≥ 256. -/
theorem C10_rule50_truncated_to_u8 :
    (∀ (pos : Position) (c : Nat), c < 65536 →
      (pos.set_rule50_counter c).rule50_counter = c % 256)
    ∧ (∀ (e : PackedTrainingDataEntry) (t : TrainingDataEntry),
      e.unpack_entry = some t →
      t.pos.rule50_counter = read_u16_be e.data 30 % 256) := by
  constructor
  · intro pos c _
    rfl
  · intro e t ht
    cases hdec : (CompressedPosition.read_from_big_endian e.data).decompress with
    | none =>
      simp [PackedTrainingDataEntry.unpack_entry, hdec] at ht
    | some pos0 =>
      simp only [PackedTrainingDataEntry.unpack_entry, hdec, Option.map_some] at ht
      cases ht
      rfl

/-- Witness for C10: a counter of 300 reads back as 44, and the decoded
test stem reports its rule50 bytes modulo 256. -/
theorem C10_rule50_truncated_to_u8_witness :
    (Position.new.set_rule50_counter 300).rule50_counter = 300 % 256
    ∧ ∃ t, PackedTrainingDataEntry.unpack_entry ⟨c1_stem_bytes⟩ = some t
        ∧ t.pos.rule50_counter = read_u16_be c1_stem_bytes 30 % 256 := by
  refine ⟨C10_rule50_truncated_to_u8.1 Position.new 300 (by decide), ⟨_, rfl, ?_⟩⟩
  exact C10_rule50_truncated_to_u8.2 ⟨c1_stem_bytes⟩ _ rfl

/-! ## C9: the reader constructor and empty files -/

/-- C9: `CompressedTrainingDataEntryReader::new` returns the `EndOfFile`
error exactly when the file contains zero chunks; with at least one chunk
(and the chunk interface reporting no error, which the chunk-granularity
model never does) it succeeds with the first chunk loaded and `has_next()`
returning true. -/
theorem C9_reader_new_end_of_file :
    (∀ f : CompressedTrainingDataFile,
      CompressedTrainingDataEntryReader.new f
        = .error CompressedReaderError.end_of_file ↔ f.chunks = [])
    ∧ (∀ (f : CompressedTrainingDataFile) (c : List Nat) (rest : List (List Nat)),
      f.chunks = c :: rest →
      ∃ r, CompressedTrainingDataEntryReader.new f = .ok r
        ∧ r.chunk = c ∧ r.has_next = true) := by
  constructor
  · intro f
    cases hf : f.chunks with
    | nil =>
      simp [CompressedTrainingDataEntryReader.new,
        CompressedTrainingDataFile.has_next_chunk, hf]
    | cons c rest =>
      simp [CompressedTrainingDataEntryReader.new,
        CompressedTrainingDataFile.has_next_chunk,
        CompressedTrainingDataFile.read_next_chunk, hf]
  · intro f c rest hf
    refine ⟨{ chunk := c, input_file := ⟨rest⟩, offset := 0, is_end := false },
      ?_, rfl, rfl⟩
    obtain ⟨chunks⟩ := f
    cases hf
    rfl

/-- Witness for C9: the empty file errors with `EndOfFile`; a one-chunk
file loads that chunk. -/
theorem C9_reader_new_end_of_file_witness :
    (CompressedTrainingDataEntryReader.new ⟨[]⟩
      = .error CompressedReaderError.end_of_file)
    ∧ ∃ r, CompressedTrainingDataEntryReader.new ⟨[[1, 2, 3]]⟩ = .ok r
        ∧ r.chunk = [1, 2, 3] ∧ r.has_next = true := by
  exact ⟨(C9_reader_new_end_of_file.1 ⟨[]⟩).mpr rfl,
    C9_reader_new_end_of_file.2 ⟨[[1, 2, 3]]⟩ [1, 2, 3] [] rfl⟩

/-! ## C3: bit-stream round trip.  The abstraction is arithmetic: a byte
buffer viewed big-endian as a single number, the logical bit stream as a
value `S` of `n` bits stored in the high bits of the buffer. -/

theorem lor_disjoint : ∀ (k q b : Nat), b < 2 ^ k → (q * 2 ^ k) ||| b = q * 2 ^ k + b := by
  intro k
  induction k with
  | zero =>
    intro q b hb
    interval_cases b
    simp
  | succ k ih =>
    intro q b hb
    have hb2 : b / 2 < 2 ^ k := by omega
    have hbit : b % 2 = 0 ∨ b % 2 = 1 := by omega
    rcases hbit with h | h
    · have hb2eq : b = Nat.bit false (b / 2) := by simp [Nat.bit]; omega
      have ha : q * 2 ^ (k + 1) = Nat.bit false (q * 2 ^ k) := by simp [Nat.bit]; ring
      rw [hb2eq, ha, Nat.lor_bit, ih q (b / 2) hb2]
      simp [Nat.bit]
      omega
    · have hb2eq : b = Nat.bit true (b / 2) := by simp [Nat.bit]; omega
      have ha : q * 2 ^ (k + 1) = Nat.bit false (q * 2 ^ k) := by simp [Nat.bit]; ring
      rw [hb2eq, ha, Nat.lor_bit, ih q (b / 2) hb2]
      simp [Nat.bit]
      omega

theorem foldl_bytes_acc (l : List Nat) :
    ∀ a, l.foldl (fun x b => x * 256 + b) a = a * 256 ^ l.length + bytes_val l := by
  induction l with
  | nil => intro a; simp [bytes_val]
  | cons b l ih =>
    intro a
    have h1 : bytes_val (b :: l) = b * 256 ^ l.length + bytes_val l := by
      show List.foldl _ (0 * 256 + b) l = _
      rw [ih]
      ring_nf
    simp only [List.foldl_cons, List.length_cons]
    rw [ih, h1]
    ring

theorem bytes_val_cons (b : Nat) (l : List Nat) :
    bytes_val (b :: l) = b * 256 ^ l.length + bytes_val l := by
  show List.foldl _ (0 * 256 + b) l = _
  rw [foldl_bytes_acc]
  ring_nf

theorem bytes_val_append_byte (l : List Nat) (b : Nat) :
    bytes_val (l ++ [b]) = bytes_val l * 256 + b := by
  simp [bytes_val, List.foldl_append]

theorem bytes_val_lt (l : List Nat) (h : ∀ b ∈ l, b < 256) :
    bytes_val l < 256 ^ l.length := by
  induction l with
  | nil => simp [bytes_val]
  | cons b l ih =>
    have hb : b < 256 := h b (by simp)
    have hl := ih (fun x hx => h x (by simp [hx]))
    rw [bytes_val_cons]
    calc b * 256 ^ l.length + bytes_val l
        < b * 256 ^ l.length + 256 ^ l.length := by omega
      _ = (b + 1) * 256 ^ l.length := by ring
      _ ≤ 256 * 256 ^ l.length := by
          exact Nat.mul_le_mul_right _ (by omega)
      _ = 256 ^ (l.length + 1) := by ring

theorem bytes_val_dropLast (l : List Nat) (h : l ≠ []) :
    bytes_val l = bytes_val l.dropLast * 256 + l.getLastD 0 := by
  have hd : l.getLastD 0 = l.getLast h := by
    cases l with
    | nil => simp at h
    | cons a as => simp [List.getLastD_eq_getLast?, List.getLast?_eq_getLast]
  conv_lhs => rw [← List.dropLast_append_getLast h]
  rw [bytes_val_append_byte, hd]

theorem pow256_eq (n : Nat) : (256 : Nat) ^ n = 2 ^ (8 * n) := by
  have : (256 : Nat) = 2 ^ 8 := by norm_num
  rw [this, ← Nat.pow_mul]

theorem bytes_val_getD (l : List Nat) (h : ∀ b ∈ l, b < 256) :
    ∀ k, k < l.length →
      l.getD k 0 = bytes_val l / 2 ^ (8 * (l.length - 1 - k)) % 256 := by
  induction l with
  | nil => intro k hk; simp at hk
  | cons b l ih =>
    intro k hk
    have hV := bytes_val_lt l (fun x hx => h x (by simp [hx]))
    rw [pow256_eq] at hV
    cases k with
    | zero =>
      have hb : b < 256 := h b (by simp)
      have hE : (b :: l).length - 1 - 0 = l.length := by simp
      rw [hE, bytes_val_cons, pow256_eq]
      have : (b * 2 ^ (8 * l.length) + bytes_val l) / 2 ^ (8 * l.length) = b := by
        rw [Nat.add_comm, Nat.add_mul_div_right _ _ (Nat.pos_pow_of_pos _ (by norm_num))]
        rw [Nat.div_eq_of_lt hV]
        omega
      rw [this]
      simp [Nat.mod_eq_of_lt hb]
    | succ k =>
      have hk2 : k < l.length := by simpa using hk
      have hE : (b :: l).length - 1 - (k + 1) = l.length - 1 - k := by
        simp only [List.length_cons]
        omega
      rw [hE]
      have hgd : (b :: l).getD (k + 1) 0 = l.getD k 0 := by simp
      rw [hgd, ih (fun x hx => h x (by simp [hx])) k hk2, bytes_val_cons, pow256_eq]
      set E := 8 * (l.length - 1 - k) with hEdef
      have hsplit : 8 * l.length = E + 8 * (k + 1) := by omega
      have hb8 : b * 2 ^ (8 * l.length) = b * 2 ^ (8 * (k + 1)) * 2 ^ E := by
        rw [hsplit, Nat.pow_add]
        ring
      rw [hb8, Nat.add_comm,
        Nat.add_mul_div_right _ _ (Nat.pos_pow_of_pos E (by norm_num))]
      have h8k : b * 2 ^ (8 * (k + 1)) = b * 2 ^ (8 * k) * 256 := by
        have : 8 * (k + 1) = 8 * k + 8 := by omega
        rw [this, Nat.pow_add]
        norm_num
        ring
      rw [h8k, Nat.add_mul_mod_self_right]

theorem WInv_movetext_ne_nil {s : PackedMoveScoreList} {n S : Nat} (hi : WInv s n S)
    (hbl : s.bits_left ≠ 0) : s.movetext ≠ [] := by
  intro hnil
  have := hi.2.2.1
  rw [hnil] at this
  simp at this
  omega


theorem pow_split_eq (a b : Nat) (h : a ≤ b) : (2 : Nat) ^ b = 2 ^ a * 2 ^ (b - a) := by
  rw [← Nat.pow_add]
  congr 1
  omega

theorem two_pow_le_128 {a : Nat} (h : a ≤ 7) : (2 : Nat) ^ a ≤ 128 := by
  calc (2:Nat) ^ a ≤ 2 ^ 7 := Nat.pow_le_pow_right (by norm_num) h
    _ = 128 := by norm_num

/-- A byte whose low `k` bits are clear plus a value below `2^k` stays a
byte, and the sum agrees with bitwise or. -/
theorem byte_or_low (last x k : Nat) (hk : k ≤ 8) (hlast : last < 256)
    (hmod : last % 2 ^ k = 0) (hx : x < 2 ^ k) :
    last ||| x = last + x ∧ last + x < 256 := by
  obtain ⟨q, hq⟩ := Nat.dvd_of_mod_eq_zero hmod
  rw [Nat.mul_comm] at hq
  have hpow : (2:Nat) ^ k * 2 ^ (8 - k) = 256 := by
    have h8 : k + (8 - k) = 8 := by omega
    rw [← Nat.pow_add, h8]
  constructor
  · rw [hq]
    exact lor_disjoint _ q _ hx
  · have hql : q < 2 ^ (8 - k) := by
      by_contra hq3
      push_neg at hq3
      have h1 : 2 ^ k * 2 ^ (8 - k) ≤ 2 ^ k * q := Nat.mul_le_mul_left _ hq3
      rw [hpow, Nat.mul_comm] at h1
      rw [hq] at hlast
      omega
    calc last + x < q * 2 ^ k + 2 ^ k := by omega
      _ = 2 ^ k * (q + 1) := by ring
      _ ≤ 2 ^ k * 2 ^ (8 - k) := Nat.mul_le_mul_left _ (by omega)
      _ = 256 := hpow

theorem WInv_step (s : PackedMoveScoreList) (n S v c : Nat) (hi : WInv s n S)
    (hc : c ≤ 8) (hv : v < 2 ^ c) :
    WInv (s.add_bits_le8 v c) (n + c) (S * 2 ^ c + v) := by
  obtain ⟨hmem, hbl, hlen, hval⟩ := hi
  by_cases hc0 : c = 0
  · subst hc0
    have hv0 : v = 0 := by omega
    subst hv0
    unfold PackedMoveScoreList.add_bits_le8
    simpa [WInv] using ⟨hmem, hbl, hlen, hval⟩
  · have hc1 : 1 ≤ c := by omega
    by_cases hbl0 : s.bits_left = 0
    · -- fresh byte
      have hvlt : v * 2 ^ (8 - c) < 256 := by
        calc v * 2 ^ (8 - c) < 2 ^ c * 2 ^ (8 - c) :=
            (Nat.mul_lt_mul_right (Nat.pos_pow_of_pos _ (by norm_num))).mpr hv
          _ = 2 ^ 8 := (pow_split_eq c 8 hc).symm
      have hbyte : (v <<< (8 - c)) % 256 = v * 2 ^ (8 - c) := by
        rw [Nat.shiftLeft_eq]
        exact Nat.mod_eq_of_lt hvlt
      have hstep : s.add_bits_le8 v c =
          { s with movetext := s.movetext ++ [(v <<< (8 - c)) % 256]
                   bits_left := 8 - c } := by
        unfold PackedMoveScoreList.add_bits_le8
        rw [if_neg hc0, if_pos hbl0]
      rw [hstep]
      refine ⟨?_, (by omega : 8 - c ≤ 7), ?_, ?_⟩
      · intro b hb
        rcases List.mem_append.mp hb with h | h
        · exact hmem b h
        · simp at h
          subst h
          exact Nat.mod_lt _ (by norm_num)
      · show 8 * (s.movetext ++ [(v <<< (8 - c)) % 256]).length = (n + c) + (8 - c)
        simp only [List.length_append, List.length_cons, List.length_nil]
        omega
      · show bytes_val (s.movetext ++ [(v <<< (8 - c)) % 256])
          = (S * 2 ^ c + v) * 2 ^ (8 - c)
        rw [bytes_val_append_byte, hbyte, hval, hbl0]
        have h8 : (2 : Nat) ^ 8 = 2 ^ c * 2 ^ (8 - c) := pow_split_eq c 8 hc
        calc S * 2 ^ 0 * 256 + v * 2 ^ (8 - c)
            = S * (2 ^ c * 2 ^ (8 - c)) + v * 2 ^ (8 - c) := by
              rw [← h8]; norm_num
          _ = (S * 2 ^ c + v) * 2 ^ (8 - c) := by ring
    · -- the buffer is non-empty and its last byte has bits_left clear low bits
      have hne : s.movetext ≠ [] := by
        intro hnil
        rw [hnil] at hlen
        simp at hlen
        omega
      have hlastd : s.movetext.getLastD 0 = s.movetext.getLast hne := by
        rw [List.getLastD_eq_getLast?, List.getLast?_eq_getLast s.movetext hne]
        rfl
      have hlast_lt : s.movetext.getLastD 0 < 256 := by
        rw [hlastd]
        exact hmem _ (List.getLast_mem hne)
      have hsplit := bytes_val_dropLast s.movetext hne
      have hlast_mod : s.movetext.getLastD 0 % 2 ^ s.bits_left = 0 := by
        have h256 : (256 : Nat) = 2 ^ (8 - s.bits_left) * 2 ^ s.bits_left := by
          have h8 : 8 - s.bits_left + s.bits_left = 8 := by omega
          rw [← Nat.pow_add, h8]
        have hmod0 : bytes_val s.movetext % 2 ^ s.bits_left = 0 := by
          rw [hval]
          exact Nat.mul_mod_left S _
        rw [hsplit, h256, ← Nat.mul_assoc, Nat.add_comm, Nat.add_mul_mod_self_right] at hmod0
        exact hmod0
      have hlen0 : s.movetext.length ≠ 0 := by
        intro h0
        exact hne (List.eq_nil_of_length_eq_zero h0)
      by_cases hcle : c ≤ s.bits_left
      · -- bits fit into the free bits of the last byte
        have hxlt : v * 2 ^ (s.bits_left - c) < 2 ^ s.bits_left := by
          calc v * 2 ^ (s.bits_left - c) < 2 ^ c * 2 ^ (s.bits_left - c) :=
              (Nat.mul_lt_mul_right (Nat.pos_pow_of_pos _ (by norm_num))).mpr hv
            _ = 2 ^ s.bits_left := (pow_split_eq c s.bits_left hcle).symm
        have hx : (v <<< (s.bits_left - c)) % 256 = v * 2 ^ (s.bits_left - c) := by
          rw [Nat.shiftLeft_eq]
          apply Nat.mod_eq_of_lt
          have := two_pow_le_128 hbl
          omega
        obtain ⟨hlor, hsum_lt⟩ := byte_or_low (s.movetext.getLastD 0)
          (v * 2 ^ (s.bits_left - c)) s.bits_left (by omega) hlast_lt hlast_mod hxlt
        have hstep : s.add_bits_le8 v c =
            { s with movetext := or_into_last s.movetext ((v <<< (s.bits_left - c)) % 256)
                     bits_left := s.bits_left - c } := by
          unfold PackedMoveScoreList.add_bits_le8
          rw [if_neg hc0, if_neg hbl0, if_pos hcle]
        rw [hstep]
        refine ⟨?_, (by omega : s.bits_left - c ≤ 7), ?_, ?_⟩
        · intro b hb
          show b < 256
          have : b ∈ or_into_last s.movetext ((v <<< (s.bits_left - c)) % 256) := hb
          unfold or_into_last at this
          rcases List.mem_append.mp this with h | h
          · exact hmem b (List.dropLast_subset _ h)
          · simp only [List.mem_singleton] at h
            rw [hx, hlor] at h
            omega
        · show 8 * (or_into_last s.movetext ((v <<< (s.bits_left - c)) % 256)).length
            = (n + c) + (s.bits_left - c)
          unfold or_into_last
          simp only [List.length_append, List.length_cons, List.length_nil,
            List.length_dropLast]
          omega
        · show bytes_val (or_into_last s.movetext ((v <<< (s.bits_left - c)) % 256))
            = (S * 2 ^ c + v) * 2 ^ (s.bits_left - c)
          unfold or_into_last
          rw [hx, hlor, bytes_val_append_byte]
          have hmt : bytes_val s.movetext.dropLast * 256 + s.movetext.getLastD 0
              = S * 2 ^ s.bits_left := by rw [← hsplit, hval]
          rw [← Nat.add_assoc, hmt]
          rw [pow_split_eq c s.bits_left hcle]
          ring
      · -- spill into a fresh byte
        push_neg at hcle
        set spill := c - s.bits_left with hspilldef
        have hsp1 : 1 ≤ spill := by omega
        have hdiv_lt : v / 2 ^ spill < 2 ^ s.bits_left := by
          apply Nat.div_lt_of_lt_mul
          have h8 : spill + s.bits_left = c := by omega
          rw [← Nat.pow_add, h8]
          exact hv
        have hx1 : (v >>> spill) % 256 = v / 2 ^ spill := by
          rw [Nat.shiftRight_eq_div_pow]
          apply Nat.mod_eq_of_lt
          have := two_pow_le_128 hbl
          omega
        obtain ⟨hlor, hsum_lt⟩ := byte_or_low (s.movetext.getLastD 0)
          (v / 2 ^ spill) s.bits_left (by omega) hlast_lt hlast_mod hdiv_lt
        have hbyte2 : (v <<< (8 - spill)) % 256 = v % 2 ^ spill * 2 ^ (8 - spill) := by
          rw [Nat.shiftLeft_eq]
          have h256 : (256 : Nat) = 2 ^ spill * 2 ^ (8 - spill) := by
            have h8 : spill + (8 - spill) = 8 := by omega
            rw [← Nat.pow_add, h8]
          rw [h256]
          exact Nat.mul_mod_mul_right _ _ _
        have hbyte2_lt : v % 2 ^ spill * 2 ^ (8 - spill) < 256 := by
          have hm : v % 2 ^ spill < 2 ^ spill := Nat.mod_lt _ (Nat.pos_pow_of_pos _ (by norm_num))
          calc v % 2 ^ spill * 2 ^ (8 - spill) < 2 ^ spill * 2 ^ (8 - spill) :=
              (Nat.mul_lt_mul_right (Nat.pos_pow_of_pos _ (by norm_num))).mpr hm
            _ = 256 := by
                have h8 : spill + (8 - spill) = 8 := by omega
                rw [← Nat.pow_add, h8]
        have hstep : s.add_bits_le8 v c =
            { s with movetext := or_into_last s.movetext ((v >>> spill) % 256)
                       ++ [(v <<< (8 - spill)) % 256]
                     bits_left := s.bits_left + 8 - c } := by
          unfold PackedMoveScoreList.add_bits_le8
          rw [if_neg hc0, if_neg hbl0, if_neg (by omega)]
        rw [hstep]
        refine ⟨?_, (by omega : s.bits_left + 8 - c ≤ 7), ?_, ?_⟩
        · intro b hb
          show b < 256
          have hb2 : b ∈ or_into_last s.movetext ((v >>> spill) % 256)
              ++ [(v <<< (8 - spill)) % 256] := hb
          rcases List.mem_append.mp hb2 with h | h
          · unfold or_into_last at h
            rcases List.mem_append.mp h with h2 | h2
            · exact hmem b (List.dropLast_subset _ h2)
            · simp only [List.mem_singleton] at h2
              rw [hx1, hlor] at h2
              omega
          · simp only [List.mem_singleton] at h
            rw [hbyte2] at h
            omega
        · show 8 * (or_into_last s.movetext ((v >>> spill) % 256)
              ++ [(v <<< (8 - spill)) % 256]).length = (n + c) + (s.bits_left + 8 - c)
          unfold or_into_last
          simp only [List.length_append, List.length_cons, List.length_nil,
            List.length_dropLast]
          omega
        · show bytes_val (or_into_last s.movetext ((v >>> spill) % 256)
              ++ [(v <<< (8 - spill)) % 256]) = (S * 2 ^ c + v) * 2 ^ (s.bits_left + 8 - c)
          unfold or_into_last
          rw [hx1, hbyte2, bytes_val_append_byte, bytes_val_append_byte, hlor]
          have hmt : bytes_val s.movetext.dropLast * 256 + s.movetext.getLastD 0
              = S * 2 ^ s.bits_left := by rw [← hsplit, hval]
          have hvdm := Nat.div_add_mod v (2 ^ spill)
          have hpowc : (2:Nat) ^ c = 2 ^ spill * 2 ^ s.bits_left := by
            have h8 : spill + s.bits_left = c := by omega
            rw [← Nat.pow_add, h8]
          have hpow8 : (2:Nat) ^ 8 = 2 ^ spill * 2 ^ (8 - spill) := by
            have h8 : spill + (8 - spill) = 8 := by omega
            rw [← Nat.pow_add, h8]
          have hblp : s.bits_left + 8 - c = 8 - spill := by omega
          rw [hblp]
          calc (bytes_val s.movetext.dropLast * 256
              + (s.movetext.getLastD 0 + v / 2 ^ spill)) * 256
              + v % 2 ^ spill * 2 ^ (8 - spill)
              = (S * 2 ^ s.bits_left + v / 2 ^ spill) * 256
                + v % 2 ^ spill * 2 ^ (8 - spill) := by
                rw [← Nat.add_assoc, hmt]
            _ = S * (2 ^ s.bits_left * 256)
                + (v / 2 ^ spill * (2 ^ spill * 2 ^ (8 - spill))
                  + v % 2 ^ spill * 2 ^ (8 - spill)) := by
                have h256 : (256:Nat) = 2 ^ 8 := by norm_num
                rw [h256, hpow8]
                ring
            _ = S * (2 ^ s.bits_left * 256) + v * 2 ^ (8 - spill) := by
                congr 1
                calc v / 2 ^ spill * (2 ^ spill * 2 ^ (8 - spill))
                    + v % 2 ^ spill * 2 ^ (8 - spill)
                    = (2 ^ spill * (v / 2 ^ spill) + v % 2 ^ spill) * 2 ^ (8 - spill) := by
                      ring
                  _ = v * 2 ^ (8 - spill) := by rw [hvdm]
            _ = (S * 2 ^ c + v) * 2 ^ (8 - spill) := by
                have h256 : (256:Nat) = 2 ^ 8 := by norm_num
                rw [hpowc, h256, hpow8]
                ring


theorem extract_zero (r : BitReader) : r.extract_bits_le8 0 = (0, r) := rfl

theorem extract_renorm (r : BitReader) (c : Nat) (hc : c ≠ 0)
    (h0 : r.read_bits_left = 0) :
    r.extract_bits_le8 c
      = (BitReader.mk r.data 8 (r.read_offset + 1)).extract_bits_le8 c := by
  conv_lhs => unfold BitReader.extract_bits_le8
  conv_rhs => unfold BitReader.extract_bits_le8
  rw [if_neg hc, if_neg hc, if_pos h0]
  rfl

/-- One `extract_bits_le8` call reads the next `c` bits of the buffer:
the returned value is the big-endian bit range `[p, p+c)` of the buffer
value. -/
theorem extract_step (data : List Nat) (hdata : ∀ b ∈ data, b < 256) :
    ∀ (r : BitReader), r.data = data → ∀ (p c : Nat), RPos r p →
    c ≤ 8 → p + c ≤ 8 * data.length →
    (r.extract_bits_le8 c).1
        = bytes_val data / 2 ^ (8 * data.length - p - c) % 2 ^ c
      ∧ (r.extract_bits_le8 c).2.data = data
      ∧ RPos (r.extract_bits_le8 c).2 (p + c) := by
  intro r hr p c hp hc hend
  by_cases hc0 : c = 0
  · subst hc0
    rw [extract_zero]
    refine ⟨?_, hr, by simpa using hp⟩
    simp [Nat.mod_one]
  -- reduce to the case 1 ≤ read_bits_left ≤ 8
  suffices core : ∀ (r1 : BitReader), r1.data = data →
      1 ≤ r1.read_bits_left → 8 * r1.read_offset + 8 = p + r1.read_bits_left →
      r1.read_bits_left ≤ 8 →
      (r1.extract_bits_le8 c).1
          = bytes_val data / 2 ^ (8 * data.length - p - c) % 2 ^ c
        ∧ (r1.extract_bits_le8 c).2.data = data
        ∧ RPos (r1.extract_bits_le8 c).2 (p + c) by
    by_cases h0 : r.read_bits_left = 0
    · rw [extract_renorm r c hc0 h0]
      apply core
      · exact hr
      · norm_num
      · show 8 * (r.read_offset + 1) + 8 = p + 8
        have := hp.2
        omega
      · norm_num
    · exact core r hr (by omega) hp.2 hp.1
  intro r1 hr1 hrbl1 hpos hrbl8
  set L := data.length with hL
  set D := bytes_val data with hD
  set rbl := r1.read_bits_left with hrbl
  set off := r1.read_offset with hoffdef
  have hc1 : 1 ≤ c := by omega
  have hoff : off < L := by omega
  have hstep : r1.extract_bits_le8 c =
      (let byte := ((r1.data.getD off 0) <<< (8 - rbl)) % 256
      let bits := byte >>> (8 - c)
      if c > rbl then
        let spill_count := c - rbl
        let bits := bits ||| ((r1.data.getD (off + 1) 0) >>> (8 - spill_count))
        (bits, { r1 with read_offset := off + 1, read_bits_left := rbl + 8 - c })
      else
        (bits, { r1 with read_bits_left := rbl - c })) := by
    unfold BitReader.extract_bits_le8
    rw [if_neg hc0, if_neg (by omega : ¬ r1.read_bits_left = 0)]
  have hb := bytes_val_getD data hdata off hoff
  rw [hr1] at hstep
  set b := data.getD off 0 with hbdef
  have hblt : b < 256 := by
    rw [hb]
    exact Nat.mod_lt _ (by norm_num)
  have hE : 8 * (L - 1 - off) = 8 * L - 8 * off - 8 := by omega
  have hbyte : (b <<< (8 - rbl)) % 256 = b % 2 ^ rbl * 2 ^ (8 - rbl) := by
    rw [Nat.shiftLeft_eq]
    have h256 : (256 : Nat) = 2 ^ rbl * 2 ^ (8 - rbl) := by
      have h8 : rbl + (8 - rbl) = 8 := by omega
      rw [← Nat.pow_add, h8]
    rw [h256]
    exact Nat.mul_mod_mul_right _ _ _
  have hbmod : b % 2 ^ rbl = D / 2 ^ (8 * L - 8 * off - 8) % 2 ^ rbl := by
    rw [hb, ← hE]
    rw [Nat.mod_mod_of_dvd _ (by
      have h256 : (256 : Nat) = 2 ^ 8 := by norm_num
      rw [h256]
      exact Nat.pow_dvd_pow 2 (by omega))]
  by_cases hcr : c > rbl
  · -- spill into the next byte
    set spill := c - rbl with hspilldef
    have hsp1 : 1 ≤ spill := by omega
    have hoff2 : off + 1 < L := by omega
    have hb2 := bytes_val_getD data hdata (off + 1) hoff2
    set b2 := data.getD (off + 1) 0 with hb2def
    have hb2lt : b2 < 256 := by
      rw [hb2]
      exact Nat.mod_lt _ (by norm_num)
    have hE2 : 8 * (L - 1 - (off + 1)) = 8 * L - 8 * off - 16 := by omega
    have hbits0 : (b % 2 ^ rbl * 2 ^ (8 - rbl)) >>> (8 - c) = b % 2 ^ rbl * 2 ^ spill := by
      rw [Nat.shiftRight_eq_div_pow]
      have hsplitp : (2:Nat) ^ (8 - rbl) = 2 ^ spill * 2 ^ (8 - c) := by
        have h8 : spill + (8 - c) = 8 - rbl := by omega
        rw [← Nat.pow_add, h8]
      rw [hsplitp, ← Nat.mul_assoc]
      exact Nat.mul_div_cancel _ (Nat.pos_pow_of_pos _ (by norm_num))
    have hylt : b2 / 2 ^ (8 - spill) < 2 ^ spill := by
      apply Nat.div_lt_of_lt_mul
      have h8 : (8 : Nat) - spill + spill = 8 := by omega
      calc b2 < 256 := hb2lt
        _ = 2 ^ 8 := by norm_num
        _ = 2 ^ (8 - spill) * 2 ^ spill := by rw [← Nat.pow_add, h8]
    have hlor : b % 2 ^ rbl * 2 ^ spill ||| b2 >>> (8 - spill)
        = b % 2 ^ rbl * 2 ^ spill + b2 / 2 ^ (8 - spill) := by
      rw [Nat.shiftRight_eq_div_pow]
      exact lor_disjoint spill (b % 2 ^ rbl) _ hylt
    set X := D / 2 ^ (8 * L - 8 * off - 16) with hX
    have hbX : b % 2 ^ rbl = X / 2 ^ 8 % 2 ^ rbl := by
      rw [hbmod]
      congr 1
      rw [hX, Nat.div_div_eq_div_mul, ← Nat.pow_add]
      congr 2
      omega
    have hb2X : b2 = X % 2 ^ 8 := by
      rw [hb2, hE2, hX]
      norm_num
    have hXmod : X % 2 ^ (8 + rbl) = X / 2 ^ 8 % 2 ^ rbl * 2 ^ 8 + X % 2 ^ 8 := by
      have hpow : (2:Nat) ^ (8 + rbl) = 2 ^ rbl * 2 ^ 8 := by
        rw [← Nat.pow_add]
        congr 1
        omega
      have hrewrite : X = 2 ^ rbl * 2 ^ 8 * (X / 2 ^ 8 / 2 ^ rbl)
          + (X / 2 ^ 8 % 2 ^ rbl * 2 ^ 8 + X % 2 ^ 8) := by
        calc X = 2 ^ 8 * (X / 2 ^ 8) + X % 2 ^ 8 := (Nat.div_add_mod X (2 ^ 8)).symm
          _ = 2 ^ 8 * (2 ^ rbl * (X / 2 ^ 8 / 2 ^ rbl) + X / 2 ^ 8 % 2 ^ rbl)
              + X % 2 ^ 8 := by rw [Nat.div_add_mod (X / 2 ^ 8) (2 ^ rbl)]
          _ = 2 ^ rbl * 2 ^ 8 * (X / 2 ^ 8 / 2 ^ rbl)
              + (X / 2 ^ 8 % 2 ^ rbl * 2 ^ 8 + X % 2 ^ 8) := by ring
      have hfrag_lt : X / 2 ^ 8 % 2 ^ rbl * 2 ^ 8 + X % 2 ^ 8 < 2 ^ rbl * 2 ^ 8 := by
        have h1 : X / 2 ^ 8 % 2 ^ rbl < 2 ^ rbl := Nat.mod_lt _ (Nat.pos_pow_of_pos _ (by norm_num))
        have h2 : X % 2 ^ 8 < 2 ^ 8 := Nat.mod_lt _ (by norm_num)
        have h3 : X / 2 ^ 8 % 2 ^ rbl * 2 ^ 8 ≤ (2 ^ rbl - 1) * 2 ^ 8 :=
          Nat.mul_le_mul_right _ (by omega)
        have hpos : (1:Nat) ≤ 2 ^ rbl := Nat.one_le_two_pow
        have h4 : (2 ^ rbl - 1) * 2 ^ 8 + 2 ^ 8 = 2 ^ rbl * 2 ^ 8 := by
          calc (2 ^ rbl - 1) * 2 ^ 8 + 2 ^ 8 = (2 ^ rbl - 1 + 1) * 2 ^ 8 := by ring
            _ = 2 ^ rbl * 2 ^ 8 := by rw [Nat.sub_add_cancel hpos]
        omega
      rw [hpow]
      conv_lhs => rw [hrewrite]
      rw [Nat.mul_add_mod]
      exact Nat.mod_eq_of_lt hfrag_lt
    have htarget : D / 2 ^ (8 * L - p - c) % 2 ^ c
        = b % 2 ^ rbl * 2 ^ spill + b2 / 2 ^ (8 - spill) := by
      have hexp : 8 * L - p - c = (8 * L - 8 * off - 16) + (8 - spill) := by omega
      rw [hexp, Nat.pow_add, ← Nat.div_div_eq_div_mul, ← hX]
      have hms : (2:Nat) ^ (8 - spill) * 2 ^ c = 2 ^ (8 + rbl) := by
        rw [← Nat.pow_add]
        congr 1
        omega
      rw [← Nat.mod_mul_right_div_self X (2 ^ (8 - spill)) (2 ^ c), hms, hXmod]
      have hq8 : X / 2 ^ 8 % 2 ^ rbl * 2 ^ 8
          = X / 2 ^ 8 % 2 ^ rbl * 2 ^ spill * 2 ^ (8 - spill) := by
        have h8 : spill + (8 - spill) = 8 := by omega
        rw [Nat.mul_assoc, ← Nat.pow_add, h8]
      rw [hq8, Nat.add_comm, Nat.add_mul_div_right _ _ (Nat.pos_pow_of_pos _ (by norm_num))]
      rw [hbX, hb2X]
      omega
    rw [hstep]
    simp only [if_pos hcr]
    refine ⟨?_, trivial, ?_⟩
    · show (((b <<< (8 - rbl)) % 256) >>> (8 - c))
          ||| (data.getD (off + 1) 0) >>> (8 - (c - rbl))
        = D / 2 ^ (8 * L - p - c) % 2 ^ c
      rw [hbyte, hbits0, ← hspilldef, ← hb2def, hlor, htarget]
    · constructor
      · show rbl + 8 - c ≤ 8
        omega
      · show 8 * (off + 1) + 8 = (p + c) + (rbl + 8 - c)
        omega
  · -- the field fits in the current byte
    push_neg at hcr
    have hbits0 : (b % 2 ^ rbl * 2 ^ (8 - rbl)) >>> (8 - c) = b % 2 ^ rbl / 2 ^ (rbl - c) := by
      rw [Nat.shiftRight_eq_div_pow]
      have hsplitp : (2:Nat) ^ (8 - c) = 2 ^ (8 - rbl) * 2 ^ (rbl - c) := by
        have h8 : (8 - rbl) + (rbl - c) = 8 - c := by omega
        rw [← Nat.pow_add, h8]
      rw [hsplitp, ← Nat.div_div_eq_div_mul]
      congr 1
      exact Nat.mul_div_cancel _ (Nat.pos_pow_of_pos _ (by norm_num))
    have htarget : b % 2 ^ rbl / 2 ^ (rbl - c) = D / 2 ^ (8 * L - p - c) % 2 ^ c := by
      rw [hbmod]
      have hms : (2:Nat) ^ rbl = 2 ^ (rbl - c) * 2 ^ c := by
        have h8 : (rbl - c) + c = rbl := by omega
        rw [← Nat.pow_add, h8]
      rw [hms, Nat.mod_mul_right_div_self, Nat.div_div_eq_div_mul, ← Nat.pow_add]
      have hexp : 8 * L - 8 * off - 8 + (rbl - c) = 8 * L - p - c := by omega
      rw [hexp]
    rw [hstep]
    simp only [if_neg (by omega : ¬ c > rbl)]
    refine ⟨?_, trivial, ?_⟩
    · show (((b <<< (8 - rbl)) % 256) >>> (8 - c)) = D / 2 ^ (8 * L - p - c) % 2 ^ c
      rw [hbyte, hbits0, htarget]
    · constructor
      · show rbl - c ≤ 8
        omega
      · show 8 * off + 8 = (p + c) + (rbl - c)
        omega

theorem fields_bits_cons (f : Nat × Nat) (fs : List (Nat × Nat)) :
    fields_bits (f :: fs) = f.2 + fields_bits fs := by
  simp [fields_bits]

theorem fields_val_from_eq (fs : List (Nat × Nat)) :
    ∀ a, fields_val_from a fs = a * 2 ^ fields_bits fs + fields_val fs := by
  induction fs with
  | nil =>
    intro a
    simp [fields_val_from, fields_val, fields_bits]
  | cons f fs ih =>
    intro a
    have hcons : fields_val (f :: fs) = f.1 * 2 ^ fields_bits fs + fields_val fs := by
      show fields_val_from (0 * 2 ^ f.2 + f.1) fs = _
      rw [ih]
      ring_nf
    show fields_val_from (a * 2 ^ f.2 + f.1) fs = a * 2 ^ fields_bits (f :: fs) + fields_val (f :: fs)
    rw [ih, hcons, fields_bits_cons, Nat.pow_add]
    ring

theorem fields_val_lt (fs : List (Nat × Nat)) (h : fields_ok fs) :
    fields_val fs < 2 ^ fields_bits fs := by
  induction fs with
  | nil => simp [fields_val, fields_val_from, fields_bits]
  | cons f fs ih =>
    have hf := h f (by simp)
    have hfs := ih (fun g hg => h g (by simp [hg]))
    have hcons : fields_val (f :: fs) = f.1 * 2 ^ fields_bits fs + fields_val fs := by
      show fields_val_from (0 * 2 ^ f.2 + f.1) fs = _
      rw [fields_val_from_eq]
      ring_nf
    rw [hcons, fields_bits_cons, Nat.pow_add]
    calc f.1 * 2 ^ fields_bits fs + fields_val fs
        < f.1 * 2 ^ fields_bits fs + 2 ^ fields_bits fs := by omega
      _ = (f.1 + 1) * 2 ^ fields_bits fs := by ring
      _ ≤ 2 ^ f.2 * 2 ^ fields_bits fs := Nat.mul_le_mul_right _ (by omega)

theorem write_fields_inv :
    ∀ (fs : List (Nat × Nat)) (s : PackedMoveScoreList) (n S : Nat),
    WInv s n S → fields_ok fs →
    WInv (fs.foldl (fun s f => s.add_bits_le8 f.1 f.2) s) (n + fields_bits fs)
      (fields_val_from S fs) := by
  intro fs
  induction fs with
  | nil =>
    intro s n S hi _
    simpa [fields_bits, fields_val_from] using hi
  | cons f fs ih =>
    intro s n S hi hok
    have hf := hok f (by simp)
    have hstep := WInv_step s n S f.1 f.2 hi hf.1 hf.2
    have := ih (s.add_bits_le8 f.1 f.2) (n + f.2) (S * 2 ^ f.2 + f.1) hstep
      (fun g hg => hok g (by simp [hg]))
    simp only [List.foldl_cons]
    rw [fields_bits_cons, ← Nat.add_assoc]
    exact this

theorem WInv_new : WInv PackedMoveScoreList.new 0 0 := by
  refine ⟨?_, by simp [PackedMoveScoreList.new], by simp [PackedMoveScoreList.new], ?_⟩
  · intro b hb
    simp [PackedMoveScoreList.new] at hb
  · simp [PackedMoveScoreList.new, bytes_val]

theorem write_fields_spec (fs : List (Nat × Nat)) (h : fields_ok fs) :
    WInv (write_fields fs) (fields_bits fs) (fields_val fs) := by
  have := write_fields_inv fs PackedMoveScoreList.new 0 0 WInv_new h
  simpa [write_fields, fields_val] using this

/-- Reading the widths of a field list whose bits sit at position `p` of
the buffer returns the field values. -/
theorem read_fields_spec (data : List Nat) (hdata : ∀ b ∈ data, b < 256) :
    ∀ (fs : List (Nat × Nat)) (r : BitReader) (p : Nat),
    r.data = data → RPos r p → fields_ok fs →
    p + fields_bits fs ≤ 8 * data.length →
    bytes_val data / 2 ^ (8 * data.length - p - fields_bits fs) % 2 ^ fields_bits fs
      = fields_val fs →
    read_fields r (fs.map Prod.snd) = fs.map Prod.fst := by
  intro fs
  induction fs with
  | nil => intro r p _ _ _ _ _; rfl
  | cons f fs ih =>
    intro r p hr hp hok hend hstream
    have hf := hok f (by simp)
    have hbits := fields_bits_cons f fs
    have hstep := extract_step data hdata r hr p f.2 hp hf.1 (by omega)
    -- the head field's value
    have hcons : fields_val (f :: fs) = f.1 * 2 ^ fields_bits fs + fields_val fs := by
      show fields_val_from (0 * 2 ^ f.2 + f.1) fs = _
      rw [fields_val_from_eq]
      ring_nf
    have hflt := fields_val_lt fs (fun g hg => hok g (by simp [hg]))
    have hhead : bytes_val data / 2 ^ (8 * data.length - p - f.2) % 2 ^ f.2 = f.1 := by
      have hsplit : 8 * data.length - p - fields_bits (f :: fs) + fields_bits fs
          = 8 * data.length - p - f.2 := by
        rw [hbits] at hend ⊢
        omega
      have h1 : bytes_val data / 2 ^ (8 * data.length - p - f.2)
          = bytes_val data / 2 ^ (8 * data.length - p - fields_bits (f :: fs))
            / 2 ^ fields_bits fs := by
        rw [Nat.div_div_eq_div_mul, ← Nat.pow_add, hsplit]
      rw [h1]
      have h2 : bytes_val data / 2 ^ (8 * data.length - p - fields_bits (f :: fs))
            / 2 ^ fields_bits fs % 2 ^ f.2
          = bytes_val data / 2 ^ (8 * data.length - p - fields_bits (f :: fs))
            % (2 ^ fields_bits fs * 2 ^ f.2) / 2 ^ fields_bits fs := by
        rw [Nat.mod_mul_right_div_self]
      rw [h2, ← Nat.pow_add]
      have h3 : fields_bits fs + f.2 = fields_bits (f :: fs) := by
        rw [hbits]
        omega
      rw [h3, hstream, hcons]
      rw [Nat.add_comm, Nat.add_mul_div_right _ _ (Nat.pos_pow_of_pos _ (by norm_num))]
      rw [Nat.div_eq_of_lt hflt]
      omega
    -- the tail's bits sit at position p + f.2
    have htail : bytes_val data / 2 ^ (8 * data.length - (p + f.2) - fields_bits fs)
        % 2 ^ fields_bits fs = fields_val fs := by
      have hsame : 8 * data.length - (p + f.2) - fields_bits fs
          = 8 * data.length - p - fields_bits (f :: fs) := by
        rw [hbits]
        omega
      rw [hsame]
      have hdvd : (2:Nat) ^ fields_bits fs ∣ 2 ^ fields_bits (f :: fs) := by
        apply Nat.pow_dvd_pow
        rw [hbits]
        omega
      rw [← Nat.mod_mod_of_dvd _ hdvd, hstream, hcons]
      rw [Nat.mul_comm, Nat.mul_add_mod]
      exact Nat.mod_eq_of_lt hflt
    -- assemble
    show (r.extract_bits_le8 f.2).1
        :: read_fields (r.extract_bits_le8 f.2).2 (fs.map Prod.snd)
      = f.1 :: fs.map Prod.fst
    obtain ⟨hv, hd, hpos⟩ := hstep
    rw [hv, hhead]
    congr 1
    exact ih (r.extract_bits_le8 f.2).2 (p + f.2) hd hpos
      (fun g hg => hok g (by simp [hg])) (by rw [hbits] at hend; omega) htail

/-- The head field of a stream embedded at position `p` is readable, and
the tail stream sits at `p + c`. -/
theorem stream_split (data : List Nat) (p v c : Nat) (fs : List (Nat × Nat))
    (hvc : v < 2 ^ c)
    (hend : p + fields_bits ((v, c) :: fs) ≤ 8 * data.length)
    (hflt : fields_val fs < 2 ^ fields_bits fs)
    (hstream : bytes_val data
        / 2 ^ (8 * data.length - p - fields_bits ((v, c) :: fs))
        % 2 ^ fields_bits ((v, c) :: fs) = fields_val ((v, c) :: fs)) :
    bytes_val data / 2 ^ (8 * data.length - p - c) % 2 ^ c = v
    ∧ bytes_val data / 2 ^ (8 * data.length - (p + c) - fields_bits fs)
        % 2 ^ fields_bits fs = fields_val fs := by
  have hbits : fields_bits ((v, c) :: fs) = c + fields_bits fs := fields_bits_cons _ _
  have hcons : fields_val ((v, c) :: fs) = v * 2 ^ fields_bits fs + fields_val fs := by
    show fields_val_from (0 * 2 ^ c + v) fs = _
    rw [fields_val_from_eq]
    ring_nf
  constructor
  · have hsplit : 8 * data.length - p - fields_bits ((v, c) :: fs) + fields_bits fs
        = 8 * data.length - p - c := by
      rw [hbits] at hend ⊢
      omega
    have h1 : bytes_val data / 2 ^ (8 * data.length - p - c)
        = bytes_val data / 2 ^ (8 * data.length - p - fields_bits ((v, c) :: fs))
          / 2 ^ fields_bits fs := by
      rw [Nat.div_div_eq_div_mul, ← Nat.pow_add, hsplit]
    rw [h1]
    have h2 : bytes_val data / 2 ^ (8 * data.length - p - fields_bits ((v, c) :: fs))
          / 2 ^ fields_bits fs % 2 ^ c
        = bytes_val data / 2 ^ (8 * data.length - p - fields_bits ((v, c) :: fs))
          % (2 ^ fields_bits fs * 2 ^ c) / 2 ^ fields_bits fs := by
      rw [Nat.mod_mul_right_div_self]
    rw [h2, ← Nat.pow_add]
    have h3 : fields_bits fs + c = fields_bits ((v, c) :: fs) := by
      rw [hbits]
      omega
    rw [h3, hstream, hcons]
    rw [Nat.add_comm, Nat.add_mul_div_right _ _ (Nat.pos_pow_of_pos _ (by norm_num))]
    rw [Nat.div_eq_of_lt hflt]
    omega
  · have hsame : 8 * data.length - (p + c) - fields_bits fs
        = 8 * data.length - p - fields_bits ((v, c) :: fs) := by
      rw [hbits]
      omega
    rw [hsame]
    have hdvd : (2:Nat) ^ fields_bits fs ∣ 2 ^ fields_bits ((v, c) :: fs) := by
      apply Nat.pow_dvd_pow
      rw [hbits]
      omega
    rw [← Nat.mod_mod_of_dvd _ hdvd, hstream, hcons]
    rw [Nat.mul_comm, Nat.mul_add_mod]
    exact Nat.mod_eq_of_lt hflt

/-- C3, general round trip: writing any sequence of fields of at most 8
bits each and reading them back with the same widths recovers the
values. -/
theorem bit_round_trip_fields (fs : List (Nat × Nat)) (h : fields_ok fs) :
    read_fields (BitReader.new (write_fields fs).movetext) (fs.map Prod.snd)
      = fs.map Prod.fst := by
  obtain ⟨hmem, hbl, hlen, hval⟩ := write_fields_spec fs h
  apply read_fields_spec (write_fields fs).movetext hmem fs
    (BitReader.new (write_fields fs).movetext) 0 rfl
  · exact ⟨by simp [BitReader.new], by simp [BitReader.new]⟩
  · exact h
  · omega
  · have hexp : 8 * (write_fields fs).movetext.length - 0 - fields_bits fs
        = (write_fields fs).bits_left := by omega
    rw [hexp, hval, Nat.mul_div_cancel _ (Nat.pos_pow_of_pos _ (by norm_num))]
    exact Nat.mod_eq_of_lt (fields_val_lt fs h)

/-- `add_bits_vle16_aux` writes exactly the field list `vle_blocks`. -/
theorem vle_writer_blocks (bs : Nat) :
    ∀ (fuel v : Nat) (s : PackedMoveScoreList),
    add_bits_vle16_aux bs fuel v s
      = (vle_blocks bs fuel v).foldl (fun t f => t.add_bits_le8 f.1 f.2) s := by
  intro fuel
  induction fuel with
  | zero => intro v s; rfl
  | succ fuel ih =>
    intro v s
    have h1 : add_bits_vle16_aux bs (fuel + 1) v s
        = (if v >>> bs = 0
           then s.add_bits_le8
             ((v &&& ((1 <<< bs) - 1)) ||| ((if v > (1 <<< bs) - 1 then 1 else 0) <<< bs))
             (bs + 1)
           else add_bits_vle16_aux bs fuel (v >>> bs)
             (s.add_bits_le8
               ((v &&& ((1 <<< bs) - 1)) ||| ((if v > (1 <<< bs) - 1 then 1 else 0) <<< bs))
               (bs + 1))) := rfl
    have h2 : vle_blocks bs (fuel + 1) v
        = (if v >>> bs = 0
           then [((v &&& ((1 <<< bs) - 1)) ||| ((if v > (1 <<< bs) - 1 then 1 else 0) <<< bs),
             bs + 1)]
           else ((v &&& ((1 <<< bs) - 1)) ||| ((if v > (1 <<< bs) - 1 then 1 else 0) <<< bs),
             bs + 1) :: vle_blocks bs fuel (v >>> bs)) := rfl
    rw [h1, h2]
    by_cases h : v >>> bs = 0
    · rw [if_pos h, if_pos h]
      rfl
    · rw [if_neg h, if_neg h, List.foldl_cons]
      exact ih (v >>> bs) _

/-- The block a `vle16` iteration emits, in arithmetic form. -/
theorem vle_block_eq (bs v : Nat) :
    (v &&& ((1 <<< bs) - 1)) ||| ((if v > (1 <<< bs) - 1 then 1 else 0) <<< bs)
      = (if v > (1 <<< bs) - 1 then 1 else 0) * 2 ^ bs + v % 2 ^ bs := by
  have h1 : (1 : Nat) <<< bs = 2 ^ bs := by simp [Nat.shiftLeft_eq]
  have hmod : v % 2 ^ bs < 2 ^ bs := Nat.mod_lt _ (Nat.pos_pow_of_pos _ (by norm_num))
  rw [h1, Nat.and_pow_two_sub_one_eq_mod]
  by_cases h : v > 2 ^ bs - 1
  · rw [if_pos h, h1, Nat.lor_comm]
    have hd := lor_disjoint bs 1 (v % 2 ^ bs) hmod
    rw [Nat.one_mul] at hd
    rw [hd, Nat.one_mul]
  · rw [if_neg h]
    simp

/-- Every `vle16` block is a legal `add_bits_le8` field when the block
size is at most 7. -/
theorem vle_blocks_ok (bs : Nat) (hbs : bs ≤ 7) :
    ∀ fuel v, fields_ok (vle_blocks bs fuel v) := by
  intro fuel
  induction fuel with
  | zero =>
    intro v f hf
    simp [vle_blocks] at hf
  | succ fuel ih =>
    intro v f hf
    have hblock : (v &&& ((1 <<< bs) - 1))
        ||| ((if v > (1 <<< bs) - 1 then 1 else 0) <<< bs) < 2 ^ (bs + 1) := by
      rw [vle_block_eq]
      have hm : v % 2 ^ bs < 2 ^ bs := Nat.mod_lt _ (Nat.pos_pow_of_pos _ (by norm_num))
      have h2 : (if v > (1 <<< bs) - 1 then 1 else 0) ≤ 1 := by split <;> norm_num
      have h4 : (if v > (1 <<< bs) - 1 then 1 else 0) * 2 ^ bs ≤ 1 * 2 ^ bs :=
        Nat.mul_le_mul_right _ h2
      have h3 : (2 : Nat) ^ (bs + 1) = 2 * 2 ^ bs := by ring
      omega
    have h2 : vle_blocks bs (fuel + 1) v
        = (if v >>> bs = 0
           then [((v &&& ((1 <<< bs) - 1)) ||| ((if v > (1 <<< bs) - 1 then 1 else 0) <<< bs),
             bs + 1)]
           else ((v &&& ((1 <<< bs) - 1)) ||| ((if v > (1 <<< bs) - 1 then 1 else 0) <<< bs),
             bs + 1) :: vle_blocks bs fuel (v >>> bs)) := rfl
    rw [h2] at hf
    by_cases h : v >>> bs = 0
    · rw [if_pos h] at hf
      simp only [List.mem_singleton] at hf
      subst hf
      exact ⟨by omega, hblock⟩
    · rw [if_neg h] at hf
      rcases List.mem_cons.mp hf with h1 | h1
      · subst h1
        exact ⟨by omega, hblock⟩
      · exact ih (v >>> bs) f h1

/-- The `extract_vle16` loop recovers `v` from a buffer whose bits at
position `p` are the `vle_blocks` of `v`. -/
theorem vle_read_aux (bs : Nat) (hbs7 : bs ≤ 7)
    (data : List Nat) (hdata : ∀ b ∈ data, b < 256) :
    ∀ (fuel v offset acc : Nat) (r : BitReader) (p : Nat),
    1 ≤ fuel → v < 2 ^ (bs * fuel) →
    r.data = data → RPos r p →
    acc < 2 ^ offset → v * 2 ^ offset < 2 ^ 16 →
    p + fields_bits (vle_blocks bs fuel v) ≤ 8 * data.length →
    bytes_val data / 2 ^ (8 * data.length - p - fields_bits (vle_blocks bs fuel v))
        % 2 ^ fields_bits (vle_blocks bs fuel v)
      = fields_val (vle_blocks bs fuel v) →
    (extract_vle16_aux bs fuel offset acc r).1 = acc + v * 2 ^ offset := by
  intro fuel
  induction fuel with
  | zero =>
    intro v offset acc r p h1
    exact absurd h1 (by omega)
  | succ fuel ih =>
    intro v offset acc r p _ hvf hr hp hacc h16 hend hstream
    have hmask : (1 : Nat) <<< bs - 1 = 2 ^ bs - 1 := by simp [Nat.shiftLeft_eq]
    have hmod : v % 2 ^ bs < 2 ^ bs := Nat.mod_lt _ (Nat.pos_pow_of_pos _ (by norm_num))
    have hunf : extract_vle16_aux bs (fuel + 1) offset acc r
        = (if (r.extract_bits_le8 (bs + 1)).1 >>> bs = 0
           then (acc |||
               ((((r.extract_bits_le8 (bs + 1)).1 &&& ((1 <<< bs) - 1)) <<< offset) % 65536),
             (r.extract_bits_le8 (bs + 1)).2)
           else extract_vle16_aux bs fuel (offset + bs)
             (acc |||
               ((((r.extract_bits_le8 (bs + 1)).1 &&& ((1 <<< bs) - 1)) <<< offset) % 65536))
             (r.extract_bits_le8 (bs + 1)).2) := rfl
    by_cases h0 : v >>> bs = 0
    · -- final block: the continuation bit is clear
      have hdiv : v / 2 ^ bs = 0 := by
        rw [← Nat.shiftRight_eq_div_pow]
        exact h0
      have hveq := Nat.div_add_mod v (2 ^ bs)
      rw [hdiv, Nat.mul_zero, Nat.zero_add] at hveq
      have hv : v < 2 ^ bs := by omega
      have hcont : ¬ v > (1 <<< bs) - 1 := by
        rw [hmask]
        omega
      have hblock : (v &&& ((1 <<< bs) - 1))
          ||| ((if v > (1 <<< bs) - 1 then 1 else 0) <<< bs) = v := by
        rw [vle_block_eq, if_neg hcont, Nat.zero_mul, Nat.zero_add]
        omega
      have hblocks : vle_blocks bs (fuel + 1) v = [(v, bs + 1)] := by
        have h2 : vle_blocks bs (fuel + 1) v
            = (if v >>> bs = 0
               then [((v &&& ((1 <<< bs) - 1))
                 ||| ((if v > (1 <<< bs) - 1 then 1 else 0) <<< bs), bs + 1)]
               else ((v &&& ((1 <<< bs) - 1))
                 ||| ((if v > (1 <<< bs) - 1 then 1 else 0) <<< bs), bs + 1)
                 :: vle_blocks bs fuel (v >>> bs)) := rfl
        rw [h2, if_pos h0, hblock]
      have hbits : fields_bits [((v : Nat), bs + 1)] = bs + 1 := by
        simp [fields_bits]
      have hval : fields_val [((v : Nat), bs + 1)] = v := by
        simp [fields_val, fields_val_from]
      rw [hblocks, hbits] at hend
      rw [hblocks, hbits, hval] at hstream
      obtain ⟨hv1, hd1, hp1⟩ := extract_step data hdata r hr p (bs + 1) hp (by omega) hend
      rw [hunf, hv1, hstream, if_pos h0]
      show acc ||| (((v &&& ((1 <<< bs) - 1)) <<< offset) % 65536) = acc + v * 2 ^ offset
      have hand : v &&& ((1 <<< bs) - 1) = v := by
        rw [hmask, Nat.and_pow_two_sub_one_eq_mod, Nat.mod_eq_of_lt hv]
      rw [hand, Nat.shiftLeft_eq]
      have h316 : (65536 : Nat) = 2 ^ 16 := by norm_num
      have hlt16 : v * 2 ^ offset < 65536 := by omega
      rw [Nat.mod_eq_of_lt hlt16, Nat.lor_comm, lor_disjoint offset v acc hacc]
      exact Nat.add_comm _ _
    · -- a continuation block followed by the blocks of `v >>> bs`
      have hge : 2 ^ bs ≤ v := by
        by_contra hlt
        push_neg at hlt
        apply h0
        rw [Nat.shiftRight_eq_div_pow]
        exact Nat.div_eq_of_lt hlt
      have hcont : v > (1 <<< bs) - 1 := by
        have hpos : (1 : Nat) ≤ 2 ^ bs := Nat.one_le_two_pow
        rw [hmask]
        omega
      have hfuel1 : 1 ≤ fuel := by
        rcases Nat.eq_zero_or_pos fuel with hf0 | hf1
        · subst hf0
          have hvb : v < 2 ^ bs := by simpa using hvf
          omega
        · exact hf1
      have hblock : (v &&& ((1 <<< bs) - 1))
          ||| ((if v > (1 <<< bs) - 1 then 1 else 0) <<< bs) = 2 ^ bs + v % 2 ^ bs := by
        rw [vle_block_eq, if_pos hcont, Nat.one_mul]
      have hblocks : vle_blocks bs (fuel + 1) v
          = (2 ^ bs + v % 2 ^ bs, bs + 1) :: vle_blocks bs fuel (v >>> bs) := by
        have h2 : vle_blocks bs (fuel + 1) v
            = (if v >>> bs = 0
               then [((v &&& ((1 <<< bs) - 1))
                 ||| ((if v > (1 <<< bs) - 1 then 1 else 0) <<< bs), bs + 1)]
               else ((v &&& ((1 <<< bs) - 1))
                 ||| ((if v > (1 <<< bs) - 1 then 1 else 0) <<< bs), bs + 1)
                 :: vle_blocks bs fuel (v >>> bs)) := rfl
        rw [h2, if_neg h0, hblock]
      rw [hblocks] at hend hstream
      have hbc := fields_bits_cons (2 ^ bs + v % 2 ^ bs, bs + 1) (vle_blocks bs fuel (v >>> bs))
      have hpair : ((2 : Nat) ^ bs + v % 2 ^ bs, bs + 1).2 = bs + 1 := rfl
      have hend2 : p + (bs + 1) ≤ 8 * data.length := by omega
      have hflt : fields_val (vle_blocks bs fuel (v >>> bs))
          < 2 ^ fields_bits (vle_blocks bs fuel (v >>> bs)) :=
        fields_val_lt _ (vle_blocks_ok bs hbs7 fuel (v >>> bs))
      have hbv : 2 ^ bs + v % 2 ^ bs < 2 ^ (bs + 1) := by
        have h3 : (2 : Nat) ^ (bs + 1) = 2 * 2 ^ bs := by ring
        omega
      obtain ⟨hhead, htail⟩ := stream_split data p (2 ^ bs + v % 2 ^ bs) (bs + 1)
        (vle_blocks bs fuel (v >>> bs)) hbv hend hflt hstream
      obtain ⟨hv1, hd1, hp1⟩ := extract_step data hdata r hr p (bs + 1) hp (by omega) hend2
      rw [hunf, hv1, hhead]
      have hshift : (2 ^ bs + v % 2 ^ bs) >>> bs = 1 := by
        rw [Nat.shiftRight_eq_div_pow]
        have hq : (2 ^ bs + v % 2 ^ bs) / 2 ^ bs = v % 2 ^ bs / 2 ^ bs + 1 := by
          rw [Nat.add_comm, Nat.add_div_right _ (Nat.pos_pow_of_pos _ (by norm_num))]
        rw [hq, Nat.div_eq_of_lt hmod]
      rw [hshift, if_neg (by norm_num : ¬ (1 : Nat) = 0)]
      have hand2 : (2 ^ bs + v % 2 ^ bs) &&& ((1 <<< bs) - 1) = v % 2 ^ bs := by
        rw [hmask, Nat.and_pow_two_sub_one_eq_mod, Nat.add_comm, Nat.add_mod_right]
        exact Nat.mod_eq_of_lt hmod
      have hupd : acc ||| (((v % 2 ^ bs) <<< offset) % 65536)
          = acc + v % 2 ^ bs * 2 ^ offset := by
        rw [Nat.shiftLeft_eq]
        have hle1 : v % 2 ^ bs ≤ v := Nat.mod_le _ _
        have hle2 : v % 2 ^ bs * 2 ^ offset ≤ v * 2 ^ offset :=
          Nat.mul_le_mul_right _ hle1
        have h316 : (65536 : Nat) = 2 ^ 16 := by norm_num
        have hlt : v % 2 ^ bs * 2 ^ offset < 65536 := by omega
        rw [Nat.mod_eq_of_lt hlt, Nat.lor_comm,
          lor_disjoint offset (v % 2 ^ bs) acc hacc]
        exact Nat.add_comm _ _
      rw [hand2, hupd]
      have hv' : v >>> bs < 2 ^ (bs * fuel) := by
        rw [Nat.shiftRight_eq_div_pow]
        apply Nat.div_lt_of_lt_mul
        have he : bs + bs * fuel = bs * (fuel + 1) := by ring
        rw [← Nat.pow_add, he]
        exact hvf
      have hacc' : acc + v % 2 ^ bs * 2 ^ offset < 2 ^ (offset + bs) := by
        have hstepm : (v % 2 ^ bs + 1) * 2 ^ offset ≤ 2 ^ bs * 2 ^ offset :=
          Nat.mul_le_mul_right _ (by omega)
        have hsum : v % 2 ^ bs * 2 ^ offset + 2 ^ offset ≤ 2 ^ bs * 2 ^ offset := by
          calc v % 2 ^ bs * 2 ^ offset + 2 ^ offset
              = (v % 2 ^ bs + 1) * 2 ^ offset := by ring
            _ ≤ 2 ^ bs * 2 ^ offset := hstepm
        have hpow : (2 : Nat) ^ (offset + bs) = 2 ^ bs * 2 ^ offset := by
          rw [Nat.pow_add]
          ring
        omega
      have h16' : v >>> bs * 2 ^ (offset + bs) < 2 ^ 16 := by
        rw [Nat.shiftRight_eq_div_pow, Nat.pow_add]
        have hdl : v / 2 ^ bs * (2 ^ offset * 2 ^ bs) ≤ v * 2 ^ offset := by
          calc v / 2 ^ bs * (2 ^ offset * 2 ^ bs)
              = v / 2 ^ bs * 2 ^ bs * 2 ^ offset := by ring
            _ ≤ v * 2 ^ offset := Nat.mul_le_mul_right _ (Nat.div_mul_le_self v _)
        omega
      have hend' : p + (bs + 1) + fields_bits (vle_blocks bs fuel (v >>> bs))
          ≤ 8 * data.length := by omega
      have happ := ih (v >>> bs) (offset + bs) (acc + v % 2 ^ bs * 2 ^ offset)
        (r.extract_bits_le8 (bs + 1)).2 (p + (bs + 1)) hfuel1 hv' hd1 hp1 hacc' h16'
        hend' htail
      rw [happ, Nat.shiftRight_eq_div_pow, Nat.pow_add]
      have hveq := Nat.div_add_mod v (2 ^ bs)
      have hdm : v / 2 ^ bs * (2 ^ offset * 2 ^ bs) + v % 2 ^ bs * 2 ^ offset
          = v * 2 ^ offset := by
        calc v / 2 ^ bs * (2 ^ offset * 2 ^ bs) + v % 2 ^ bs * 2 ^ offset
            = (2 ^ bs * (v / 2 ^ bs) + v % 2 ^ bs) * 2 ^ offset := by ring
          _ = v * 2 ^ offset := by rw [hveq]
      rw [← hdm]
      ring

/-- C3: for every finite sequence of fields `(v, c)` with `c ≤ 8` and
`v < 2^c`, writing the fields in order with
`PackedMoveScoreList::add_bits_le8` and reading the produced byte buffer
back with `BitReader::extract_bits_le8` at the same widths returns
exactly the values; and for every 16-bit value `v`,
`BitReader::extract_vle16(4)` applied to the output of
`PackedMoveScoreList::add_bits_vle16(v, 4)` returns `v`. -/
theorem C3_bit_stream_round_trip :
    (∀ fs : List (Nat × Nat), fields_ok fs →
      read_fields (BitReader.new (write_fields fs).movetext) (fs.map Prod.snd)
        = fs.map Prod.fst)
    ∧ (∀ v : Nat, v < 2 ^ 16 →
      ((BitReader.new
          (PackedMoveScoreList.new.add_bits_vle16 v 4).movetext).extract_vle16 4).1
        = v) := by
  constructor
  · exact bit_round_trip_fields
  · intro v hv
    have hwrite : PackedMoveScoreList.new.add_bits_vle16 v 4
        = write_fields (vle_blocks 4 17 v) := by
      show add_bits_vle16_aux 4 17 v PackedMoveScoreList.new = _
      rw [vle_writer_blocks]
      rfl
    rw [hwrite]
    have hok := vle_blocks_ok 4 (by norm_num) 17 v
    obtain ⟨hmem, hbl, hlen, hval⟩ := write_fields_spec (vle_blocks 4 17 v) hok
    show (extract_vle16_aux 4 17 0 0
        (BitReader.new (write_fields (vle_blocks 4 17 v)).movetext)).1 = v
    have hvf : v < 2 ^ (4 * 17) :=
      lt_of_lt_of_le hv (Nat.pow_le_pow_right (by norm_num) (by norm_num))
    have h := vle_read_aux 4 (by norm_num) (write_fields (vle_blocks 4 17 v)).movetext
      hmem 17 v 0 0 (BitReader.new (write_fields (vle_blocks 4 17 v)).movetext) 0
      (by norm_num) hvf rfl
      ⟨by simp [BitReader.new], by simp [BitReader.new]⟩
      (by norm_num) (by simpa using hv)
      (by omega)
      (by
        have hexp : 8 * (write_fields (vle_blocks 4 17 v)).movetext.length - 0
            - fields_bits (vle_blocks 4 17 v)
            = (write_fields (vle_blocks 4 17 v)).bits_left := by omega
        rw [hexp, hval,
          Nat.mul_div_cancel _ (Nat.pos_pow_of_pos _ (by norm_num))]
        exact Nat.mod_eq_of_lt (fields_val_lt _ hok))
    rw [h]
    norm_num

/-- C3 witness: a concrete nine-field round trip and the vle16 round trip
at `v = 52515`. -/
theorem C3_bit_stream_round_trip_witness :
    read_fields
        (BitReader.new
          (write_fields
            [(5, 3), (0, 0), (255, 8), (1, 1), (9, 5), (0, 2), (77, 7), (3, 2),
              (200, 8)]).movetext)
        ([(5, 3), (0, 0), (255, 8), (1, 1), (9, 5), (0, 2), (77, 7), (3, 2),
            (200, 8)].map Prod.snd)
      = [((5 : Nat), (3 : Nat)), (0, 0), (255, 8), (1, 1), (9, 5), (0, 2), (77, 7),
          (3, 2), (200, 8)].map Prod.fst
    ∧ ((BitReader.new
          (PackedMoveScoreList.new.add_bits_vle16 52515 4).movetext).extract_vle16 4).1
      = 52515 := by
  refine ⟨C3_bit_stream_round_trip.1 _ ?_, C3_bit_stream_round_trip.2 52515 (by norm_num)⟩
  show ∀ f ∈ [((5 : Nat), (3 : Nat)), (0, 0), (255, 8), (1, 1), (9, 5), (0, 2),
      (77, 7), (3, 2), (200, 8)], f.2 ≤ 8 ∧ f.1 < 2 ^ f.2
  decide

/-- In the ascending filtered enumeration of `p` over `range n`, the
number of earlier `p`-elements below the `j`-th element is `j`. -/
theorem countP_filter_get (p : Nat → Bool) :
    ∀ (n : Nat) (j : Nat) (hj : j < ((List.range n).filter p).length),
    (List.range (((List.range n).filter p).get ⟨j, hj⟩)).countP p = j := by
  intro n
  induction n with
  | zero => intro j hj; simp at hj
  | succ n ih =>
    intro j hj
    have hsplit : (List.range (n + 1)).filter p
        = (List.range n).filter p ++ (if p n then [n] else []) := by
      rw [List.range_succ, List.filter_append]
      congr 1
      by_cases hpn : p n <;> simp [List.filter, hpn]
    by_cases hjl : j < ((List.range n).filter p).length
    · have hget : ((List.range (n + 1)).filter p).get ⟨j, hj⟩
          = ((List.range n).filter p).get ⟨j, hjl⟩ := by
        simp only [List.get_eq_getElem]
        simp only [hsplit]
        rw [List.getElem_append_left hjl]
      rw [hget]
      exact ih j hjl
    · have hlen : ((List.range (n + 1)).filter p).length
          = ((List.range n).filter p).length + (if p n then [n] else []).length := by
        rw [hsplit, List.length_append]
      by_cases hpn : p n
      · have hl1 : (if p n then [n] else ([] : List Nat)).length = 1 := by
          rw [if_pos hpn]
          rfl
        have hj' : j = ((List.range n).filter p).length := by omega
        have hget : ((List.range (n + 1)).filter p).get ⟨j, hj⟩ = n := by
          simp only [List.get_eq_getElem]
          simp only [hsplit]
          rw [List.getElem_append_right (by omega)]
          simp only [hpn, if_true]
          simp [hj']
        rw [hget, List.countP_eq_length_filter]
        omega
      · have hl0 : (if p n then [n] else ([] : List Nat)).length = 0 := by
          rw [if_neg hpn]
          rfl
        omega

/-- Counting the set bits below square `sq` equals counting the set-bit
indices in `range sq`. -/
theorem count64_and_from_before (bb sq : Nat) (hsq : sq ≤ 64) :
    count64 (bb &&& from_before sq) = (List.range sq).countP (fun i => bb.testBit i) := by
  unfold count64 from_before
  have hshift : (1 : Nat) <<< sq = 2 ^ sq := by simp [Nat.shiftLeft_eq]
  have h1 : ∀ i : Nat, (bb &&& (1 <<< sq - 1)).testBit i
      = (bb.testBit i && decide (i < sq)) := by
    intro i
    rw [Nat.testBit_and, hshift, Nat.testBit_two_pow_sub_one]
  have h2 : (List.range 64).countP (fun i => (bb &&& (1 <<< sq - 1)).testBit i)
      = (List.range 64).countP (fun i => bb.testBit i && decide (i < sq)) := by
    apply List.countP_congr
    intro x _
    rw [h1]
  rw [h2]
  have hsplit : (64 : Nat) = sq + (64 - sq) := by omega
  rw [hsplit, List.range_add, List.countP_append]
  have hleft : (List.range sq).countP (fun i => bb.testBit i && decide (i < sq))
      = (List.range sq).countP (fun i => bb.testBit i) := by
    apply List.countP_congr
    intro x hx
    have hxlt : x < sq := List.mem_range.mp hx
    simp [hxlt]
  have hright : ((List.range (64 - sq)).map (fun x => sq + x)).countP
      (fun i => bb.testBit i && decide (i < sq)) = 0 := by
    rw [List.countP_eq_zero]
    intro a ha
    obtain ⟨x, _, hax⟩ := List.mem_map.mp ha
    subst hax
    simp
  rw [hleft, hright]
  omega

theorem count64_le (v : Nat) : count64 v ≤ 64 := by
  unfold count64
  calc (List.range 64).countP (fun i => v.testBit i)
      ≤ (List.range 64).length := List.countP_le_length _
    _ = 64 := by simp

/-- C4: when `add_move_score` encodes a king move, the ordinary king
destinations (king-attack squares not occupied by the mover's own pieces,
in ascending square index) receive ordinals `0` through `n-1`; a long
castle whose right is held receives ordinal `n`, a short castle receives
`n` plus one if the long right is also held; and the candidate count used
for the `move_id` width is `n` plus the number of castling rights held by
the mover. -/
theorem C4_king_move_encoding (pos : Position) (mv : Move)
    (hk : (pos.piece_at mv.from_sq).piece_type = PieceType.King) :
    (∀ (j : Nat) (hj : j < ((List.range 64).filter
        (fun i => (attacks.king mv.from_sq
          &&& compl64 (pos.pieces_bb pos.stm)).testBit i)).length),
      mv.move_type ≠ MoveType.Castle →
      mv.to_sq = ((List.range 64).filter
        (fun i => (attacks.king mv.from_sq
          &&& compl64 (pos.pieces_bb pos.stm)).testBit i)).get ⟨j, hj⟩ →
      (move_id_and_count pos mv).1 = j)
    ∧ (mv.move_type = MoveType.Castle → mv.castle_type = CastleType.Long →
      pos.castling_rights.contains
          (CastlingTraits.castling_rights pos.stm CastleType.Long) = true →
      (move_id_and_count pos mv).1
        = count64 (attacks.king mv.from_sq &&& compl64 (pos.pieces_bb pos.stm)))
    ∧ (mv.move_type = MoveType.Castle → mv.castle_type = CastleType.Short →
      pos.castling_rights.contains
          (CastlingTraits.castling_rights pos.stm CastleType.Short) = true →
      (move_id_and_count pos mv).1
        = count64 (attacks.king mv.from_sq &&& compl64 (pos.pieces_bb pos.stm))
          + (if pos.castling_rights.contains
              (CastlingTraits.castling_rights pos.stm CastleType.Long) = true
            then 1 else 0))
    ∧ (move_id_and_count pos mv).2
        = count64 (attacks.king mv.from_sq &&& compl64 (pos.pieces_bb pos.stm))
          + (pos.castling_rights.inter
              (if pos.stm = Color.White then CastlingRights.WHITE
               else CastlingRights.BLACK)).count_ones := by
  refine ⟨?_, ?_, ?_, ?_⟩
  · intro j hj hnc heq
    simp only [move_id_and_count, hk]
    rw [if_neg hnc]
    show count64 ((attacks.king mv.from_sq &&& compl64 (pos.pieces_bb pos.stm))
        &&& from_before mv.to_sq) = j
    have hmem := List.get_mem ((List.range 64).filter
        (fun i => (attacks.king mv.from_sq
          &&& compl64 (pos.pieces_bb pos.stm)).testBit i)) j hj
    have hlt : ((List.range 64).filter
        (fun i => (attacks.king mv.from_sq
          &&& compl64 (pos.pieces_bb pos.stm)).testBit i)).get ⟨j, hj⟩ < 64 :=
      List.mem_range.mp (List.mem_filter.mp hmem).1
    rw [heq, count64_and_from_before _ _ (by omega)]
    exact countP_filter_get _ 64 j hj
  · intro hc hct hcont
    simp only [move_id_and_count, hk]
    rw [if_pos hc]
    show (if mv.castle_type = CastleType.Short
        then ((if pos.castling_rights.contains
              (CastlingTraits.castling_rights pos.stm CastleType.Long) = true
            then ((count64 (attacks.king mv.from_sq
                &&& compl64 (pos.pieces_bb pos.stm)) + 2 ^ 32 - 1) % 2 ^ 32 + 1) % 2 ^ 32
            else (count64 (attacks.king mv.from_sq
                &&& compl64 (pos.pieces_bb pos.stm)) + 2 ^ 32 - 1) % 2 ^ 32) + 1) % 2 ^ 32
        else (if pos.castling_rights.contains
              (CastlingTraits.castling_rights pos.stm CastleType.Long) = true
            then ((count64 (attacks.king mv.from_sq
                &&& compl64 (pos.pieces_bb pos.stm)) + 2 ^ 32 - 1) % 2 ^ 32 + 1) % 2 ^ 32
            else (count64 (attacks.king mv.from_sq
                &&& compl64 (pos.pieces_bb pos.stm)) + 2 ^ 32 - 1) % 2 ^ 32))
      = count64 (attacks.king mv.from_sq &&& compl64 (pos.pieces_bb pos.stm))
    rw [hct]
    rw [if_neg (by decide : ¬ (CastleType.Long = CastleType.Short)), if_pos hcont]
    have has := count64_le (attacks.king mv.from_sq &&& compl64 (pos.pieces_bb pos.stm))
    have h32 : (2 : Nat) ^ 32 = 4294967296 := by norm_num
    rw [h32]
    omega
  · intro hc hct hcont
    simp only [move_id_and_count, hk]
    rw [if_pos hc]
    show (if mv.castle_type = CastleType.Short
        then ((if pos.castling_rights.contains
              (CastlingTraits.castling_rights pos.stm CastleType.Long) = true
            then ((count64 (attacks.king mv.from_sq
                &&& compl64 (pos.pieces_bb pos.stm)) + 2 ^ 32 - 1) % 2 ^ 32 + 1) % 2 ^ 32
            else (count64 (attacks.king mv.from_sq
                &&& compl64 (pos.pieces_bb pos.stm)) + 2 ^ 32 - 1) % 2 ^ 32) + 1) % 2 ^ 32
        else (if pos.castling_rights.contains
              (CastlingTraits.castling_rights pos.stm CastleType.Long) = true
            then ((count64 (attacks.king mv.from_sq
                &&& compl64 (pos.pieces_bb pos.stm)) + 2 ^ 32 - 1) % 2 ^ 32 + 1) % 2 ^ 32
            else (count64 (attacks.king mv.from_sq
                &&& compl64 (pos.pieces_bb pos.stm)) + 2 ^ 32 - 1) % 2 ^ 32))
      = count64 (attacks.king mv.from_sq &&& compl64 (pos.pieces_bb pos.stm))
          + (if pos.castling_rights.contains
              (CastlingTraits.castling_rights pos.stm CastleType.Long) = true
            then 1 else 0)
    rw [hct, if_pos rfl]
    have has := count64_le (attacks.king mv.from_sq &&& compl64 (pos.pieces_bb pos.stm))
    have h32 : (2 : Nat) ^ 32 = 4294967296 := by norm_num
    rw [h32]
    by_cases hlong : pos.castling_rights.contains
        (CastlingTraits.castling_rights pos.stm CastleType.Long) = true
    · rw [if_pos hlong, if_pos hlong]
      omega
    · rw [if_neg hlong, if_neg hlong]
      omega
  · simp only [move_id_and_count, hk]
    by_cases hc : mv.move_type = MoveType.Castle
    · rw [if_pos hc]
    · rw [if_neg hc]

/-- C4 witness: in `kings_and_rooks`, the king move e1-f1 is the second
ascending destination (ordinal 1), the long castle gets ordinal 5, the
short castle ordinal 6, and the candidate count is 7. -/
theorem C4_king_move_encoding_witness :
    (move_id_and_count kings_and_rooks (Move.normal 4 5)).1 = 1
    ∧ (move_id_and_count kings_and_rooks (Move.castle 4 0)).1 = 5
    ∧ (move_id_and_count kings_and_rooks (Move.castle 4 7)).1 = 6
    ∧ (move_id_and_count kings_and_rooks (Move.normal 4 5)).2 = 7 := by
  refine ⟨?_, ?_, ?_, ?_⟩
  · exact (C4_king_move_encoding kings_and_rooks (Move.normal 4 5) (by decide)).1 1
      (by decide) (by decide) (by decide)
  · exact ((C4_king_move_encoding kings_and_rooks (Move.castle 4 0) (by decide)).2.1
      (by decide) (by decide) (by decide)).trans (by decide)
  · exact ((C4_king_move_encoding kings_and_rooks (Move.castle 4 7) (by decide)).2.2.1
      (by decide) (by decide) (by decide)).trans (by decide)
  · exact ((C4_king_move_encoding kings_and_rooks (Move.normal 4 5) (by decide)).2.2.2).trans
      (by decide)

/-- `place_piece` never touches the clocks or the side to move. -/
theorem place_piece_clocks {pos : Position} {side : Color} {pc : Piece} {sq : Square}
    {p : Position} (h : pos.place_piece side pc sq = some p) :
    p.halfm = pos.halfm ∧ p.fullm = pos.fullm := by
  unfold Position.place_piece at h
  by_cases hn : pc.piece_type = PieceType.None
  · rw [if_pos hn] at h
    cases h
  · rw [if_neg hn] at h
    obtain rfl := Option.some.inj h
    exact ⟨rfl, rfl⟩

/-- `remove_piece` never touches the clocks or the side to move. -/
theorem remove_piece_clocks {pos : Position} {side : Color} {pc : Piece} {sq : Square}
    {p : Position} (h : pos.remove_piece side pc sq = some p) :
    p.halfm = pos.halfm ∧ p.fullm = pos.fullm := by
  unfold Position.remove_piece at h
  by_cases hn : pc.piece_type = PieceType.None
  · rw [if_pos hn] at h
    cases h
  · rw [if_neg hn] at h
    obtain rfl := Option.some.inj h
    exact ⟨rfl, rfl⟩

/-- The en-passant legality loop never touches the clocks. -/
theorem ep_loop_clocks (ep tsq : Square) (piece : Piece) (stm : Color) :
    ∀ (l : List Square) (pos p : Position),
    Position.ep_loop ep tsq piece stm pos l = some p →
    p.halfm = pos.halfm ∧ p.fullm = pos.fullm := by
  intro l
  induction l with
  | nil =>
    intro pos p h
    obtain rfl := Option.some.inj h
    exact ⟨rfl, rfl⟩
  | cons e rest ih =>
    intro pos p h
    simp only [Position.ep_loop, Option.bind_eq_some] at h
    obtain ⟨p1, h1, p2, h2, p3, h3, checked, hc, p4, h4, p5, h5, p6, h6, h⟩ := h
    have c1 := remove_piece_clocks h1
    have c2 := place_piece_clocks h2
    have c3 := remove_piece_clocks h3
    have c4 := place_piece_clocks h4
    have c5 := remove_piece_clocks h5
    have c6 := place_piece_clocks h6
    by_cases hch : checked = false
    · rw [if_pos hch] at h
      obtain rfl := Option.some.inj h
      constructor
      · show p6.halfm = pos.halfm
        omega
      · show p6.fullm = pos.fullm
        omega
    · rw [if_neg hch] at h
      have := ih p6 p h
      omega

/-- The clock fields of the intermediate record `do_move` builds before
the en-passant handling. -/
theorem clockset_halfm (q : Position) (fr tsq : Square) (h0 f0 : Nat) :
    ({ ({ q with halfm := h0, fullm := f0 }).update_castling_rights fr tsq with
      enpassant := Square.NONE }).halfm = h0 := rfl

theorem clockset_fullm (q : Position) (fr tsq : Square) (h0 f0 : Nat) :
    ({ ({ q with halfm := h0, fullm := f0 }).update_castling_rights fr tsq with
      enpassant := Square.NONE }).fullm = f0 := rfl

/-- The en-passant tail of `do_move` (two nested conditionals around the
legality loop) preserves the clocks. -/
theorem opt_tail_clocks (A B : Prop) [Decidable A] [Decidable B] (ep tsq : Square)
    (piece : Piece) (stm : Color) (l : List Square) (E p7 : Position)
    (h : (if A then (if B then Position.ep_loop ep tsq piece stm E l else some E)
      else some E) = some p7) :
    p7.halfm = E.halfm ∧ p7.fullm = E.fullm := by
  by_cases hA : A
  · rw [if_pos hA] at h
    by_cases hB : B
    · rw [if_pos hB] at h
      exact ep_loop_clocks _ _ _ _ _ _ _ h
    · rw [if_neg hB] at h
      obtain rfl := Option.some.inj h
      exact ⟨rfl, rfl⟩
  · rw [if_neg hA] at h
    obtain rfl := Option.some.inj h
    exact ⟨rfl, rfl⟩

/-- C5: after `do_move` on a pseudo-legal move of the side to move, the
halfmove clock is 0 if the move captured a piece (castling, encoded as
king-takes-rook, does not count) or moved a pawn, and the previous value
plus one (in `u8`) otherwise; the fullmove number is incremented (in
`u16`) exactly when the mover was Black. -/
theorem C5_halfmove_fullmove (pos : Position) (mv : Move) (ms : List Move)
    (pos2 : Position) (hms : pseudo_legal_moves pos = some ms) (hmem : mv ∈ ms)
    (hdm : pos.do_move mv = some pos2) :
    pos2.halfm = (if (pos.piece_at mv.to_sq ≠ Piece.none ∧ mv.move_type ≠ MoveType.Castle)
        ∨ (pos.piece_at mv.from_sq).piece_type = PieceType.Pawn
      then 0 else (pos.halfm + 1) % 256)
    ∧ pos2.fullm = (if pos.stm = Color.Black then (pos.fullm + 1) % 65536
      else pos.fullm) := by
  simp only [Position.do_move, Option.bind_eq_some, Option.map_eq_some'] at hdm
  obtain ⟨p1, h1, p2, h2, p3, h3, p7, h7, hstm⟩ := hdm
  have c1 := remove_piece_clocks h1
  have c2 : p2.halfm = p1.halfm ∧ p2.fullm = p1.fullm := by
    by_cases hg : pos.piece_at mv.to_sq ≠ Piece.none ∧ mv.move_type ≠ MoveType.Castle
    · rw [if_pos hg] at h2
      exact remove_piece_clocks h2
    · rw [if_neg hg] at h2
      obtain rfl := Option.some.inj h2
      exact ⟨rfl, rfl⟩
  have c3 : p3.halfm = p2.halfm ∧ p3.fullm = p2.fullm := by
    by_cases hp : mv.move_type = MoveType.Promotion
    · rw [if_pos hp] at h3
      exact place_piece_clocks h3
    · rw [if_neg hp] at h3
      by_cases he : mv.move_type = MoveType.EnPassant
      · rw [if_pos he] at h3
        have h3x : (p2.remove_piece pos.stm.opp (p2.piece_at (mv.to_sq ^^^ 8))
            (mv.to_sq ^^^ 8)).bind
            (fun pa => pa.place_piece pos.stm (pos.piece_at mv.from_sq) mv.to_sq)
            = some p3 := h3
        rw [Option.bind_eq_some] at h3x
        obtain ⟨pa, ha, hb⟩ := h3x
        have ca := remove_piece_clocks ha
        have cb := place_piece_clocks hb
        omega
      · rw [if_neg he] at h3
        by_cases hn : mv.move_type = MoveType.Normal
        · rw [if_pos hn] at h3
          exact place_piece_clocks h3
        · rw [if_neg hn] at h3
          by_cases hcs : mv.castle_type = CastleType.Short
          · rw [if_pos hcs] at h3
            have h3x : (p2.remove_piece pos.stm (p2.piece_at mv.to_sq) mv.to_sq).bind
                (fun pa => (pa.place_piece pos.stm (p2.piece_at mv.to_sq)
                  (if pos.stm = Color.White then Square.F1 else Square.F8)).bind
                  (fun pb => pb.place_piece pos.stm (pos.piece_at mv.from_sq)
                    (if pos.stm = Color.White then Square.G1 else Square.G8)))
                = some p3 := h3
            simp only [Option.bind_eq_some] at h3x
            obtain ⟨pa, ha, pb, hb, hc2⟩ := h3x
            have ca := remove_piece_clocks ha
            have cb := place_piece_clocks hb
            have cc := place_piece_clocks hc2
            omega
          · rw [if_neg hcs] at h3
            have h3x : (p2.remove_piece pos.stm (p2.piece_at mv.to_sq) mv.to_sq).bind
                (fun pa => (pa.place_piece pos.stm (p2.piece_at mv.to_sq)
                  (if pos.stm = Color.White then Square.D1 else Square.D8)).bind
                  (fun pb => pb.place_piece pos.stm (pos.piece_at mv.from_sq)
                    (if pos.stm = Color.White then Square.C1 else Square.C8)))
                = some p3 := h3
            simp only [Option.bind_eq_some] at h3x
            obtain ⟨pa, ha, pb, hb, hc2⟩ := h3x
            have ca := remove_piece_clocks ha
            have cb := place_piece_clocks hb
            have cc := place_piece_clocks hc2
            omega
  subst hstm
  have hc := opt_tail_clocks _ _ _ _ _ _ _ _ p7 h7
  rw [clockset_halfm, clockset_fullm] at hc
  refine ⟨?_, ?_⟩
  · show p7.halfm = _
    rw [hc.1, c3.1, c2.1, c1.1]
  · show p7.fullm = _
    rw [hc.2, c3.2, c2.2, c1.2]

/-- C5 witness: the double pawn push e2e4 from the starting position is
pseudo-legal, resets the halfmove clock and leaves the fullmove number at
1 (White moved). -/
theorem C5_halfmove_fullmove_witness :
    pseudo_legal_moves startpos = some ((pseudo_legal_moves startpos).getD [])
    ∧ Move.normal 12 28 ∈ (pseudo_legal_moves startpos).getD []
    ∧ startpos.do_move (Move.normal 12 28)
        = some ((startpos.do_move (Move.normal 12 28)).getD startpos)
    ∧ ((startpos.do_move (Move.normal 12 28)).getD startpos).halfm = 0
    ∧ ((startpos.do_move (Move.normal 12 28)).getD startpos).fullm = 1 := by
  have h := C5_halfmove_fullmove startpos (Move.normal 12 28)
    ((pseudo_legal_moves startpos).getD [])
    ((startpos.do_move (Move.normal 12 28)).getD startpos)
    rfl (by decide) rfl
  refine ⟨rfl, by decide, rfl, ?_, ?_⟩
  · exact h.1.trans (by decide)
  · exact h.2.trans (by decide)

theorem getD_set_self {α : Type} (l : List α) (i : Nat) (x d : α) (h : i < l.length) :
    (l.set i x).getD i d = x := by
  rw [List.getD_eq_getElem?_getD, List.getElem?_set_self (by omega), Option.getD_some]

theorem getD_set_ne {α : Type} (l : List α) (i j : Nat) (x d : α) (h : i ≠ j) :
    (l.set i x).getD j d = l.getD j d := by
  rw [List.getD_eq_getElem?_getD, List.getElem?_set_ne h, ← List.getD_eq_getElem?_getD]

theorem color_toNat_lt (c : Color) : c.toNat < 2 := by cases c <;> decide

theorem color_toNat_inj (c c2 : Color) : c.toNat = c2.toNat ↔ c = c2 := by
  cases c <;> cases c2 <;> decide

theorem color_mem (c : Color) : c ∈ [Color.White, Color.Black] := by cases c <;> decide

theorem ordinal_lt_of_mem {pt : PieceType} (h : pt ∈ all_piece_types) : pt.ordinal < 6 := by
  fin_cases h <;> decide

theorem ordinal_inj {pt pt2 : PieceType} (h : pt ∈ all_piece_types)
    (h2 : pt2 ∈ all_piece_types) : pt.ordinal = pt2.ordinal ↔ pt = pt2 := by
  fin_cases h <;> fin_cases h2 <;> decide

theorem piece_type_ne_none_of_lt {pc : Piece} (h : pc.id < 12) :
    pc.piece_type ≠ PieceType.None := by
  obtain ⟨i⟩ := pc
  have h2 : i < 12 := h
  interval_cases i <;> decide

theorem piece_mem_types_of_lt {pc : Piece} (h : pc.id < 12) :
    pc.piece_type ∈ all_piece_types := by
  obtain ⟨i⟩ := pc
  have h2 : i < 12 := h
  interval_cases i <;> decide

theorem piece_eta {pc : Piece} (h : pc.id < 12) :
    Piece.new pc.piece_type pc.color = pc := by
  obtain ⟨i⟩ := pc
  have h2 : i < 12 := h
  interval_cases i <;> decide

theorem piece_new_lt {pt : PieceType} (c : Color) (h : pt ∈ all_piece_types) :
    (Piece.new pt c).id < 12 := by
  fin_cases h <;> cases c <;> decide

theorem piece_new_ne_none {pt : PieceType} (c : Color) (h : pt ∈ all_piece_types) :
    Piece.new pt c ≠ Piece.none := by
  fin_cases h <;> cases c <;> decide

theorem piece_new_type {pt : PieceType} (c : Color) (h : pt ∈ all_piece_types) :
    (Piece.new pt c).piece_type = pt ∧ (Piece.new pt c).color = c := by
  fin_cases h <;> cases c <;> decide

theorem piece_eq_new_iff {pc : Piece} (hpc : pc.id < 12) {pt : PieceType}
    (h : pt ∈ all_piece_types) (c : Color) :
    pc = Piece.new pt c ↔ pt = pc.piece_type ∧ c = pc.color := by
  constructor
  · intro he
    rw [he]
    exact ⟨(piece_new_type c h).1.symm, (piece_new_type c h).2.symm⟩
  · rintro ⟨h1, h2⟩
    rw [h1, h2]
    exact (piece_eta hpc).symm

theorem testBit_mask (sq i : Nat) : (1 <<< sq).testBit i = decide (sq = i) := by
  have h1 : (1 : Nat) <<< sq = 2 ^ sq := by simp [Nat.shiftLeft_eq]
  rw [h1, Nat.testBit_two_pow]

theorem testBit_or_mask_ne {x sq i : Nat} (h : sq ≠ i) :
    (x ||| 1 <<< sq).testBit i = x.testBit i := by
  rw [Nat.testBit_or, testBit_mask]
  simp [h]

theorem testBit_or_mask_self (x sq : Nat) : (x ||| 1 <<< sq).testBit sq = true := by
  rw [Nat.testBit_or, testBit_mask]
  simp

theorem testBit_xor_mask_ne {x sq i : Nat} (h : sq ≠ i) :
    (x ^^^ 1 <<< sq).testBit i = x.testBit i := by
  rw [Nat.testBit_xor, testBit_mask]
  simp [h]

theorem testBit_xor_mask_self (x sq : Nat) :
    (x ^^^ 1 <<< sq).testBit sq = !x.testBit sq := by
  rw [Nat.testBit_xor, testBit_mask]
  simp

theorem type_union_testBit (pos : Position) (i : Nat) :
    (type_union pos).testBit i
      = ((pos.bb.getD 0 0).testBit i || (pos.bb.getD 1 0).testBit i
        || (pos.bb.getD 2 0).testBit i || (pos.bb.getD 3 0).testBit i
        || (pos.bb.getD 4 0).testBit i || (pos.bb.getD 5 0).testBit i) := by
  unfold type_union
  simp only [Nat.testBit_or]

/-- At an empty square, every color and type bitboard bit is clear. -/
theorem empty_square_bits {pos : Position} (hinv : AgreeInv pos) {sq : Nat}
    (hsq : sq < 64) (hempty : pos.piece_at sq = Piece.none) :
    (∀ c : Color, (pos.pieces_bb c).testBit sq = false)
    ∧ (∀ pt ∈ all_piece_types, (pos.bb.getD pt.ordinal 0).testBit sq = false) := by
  have hconj : ∀ pt ∈ all_piece_types, ∀ c : Color,
      ¬ ((pos.pieces_bb c).testBit sq ∧ (pos.bb.getD pt.ordinal 0).testBit sq) := by
    intro pt hpt c hand
    have hiff := hinv.1 sq hsq pt hpt c (color_mem c)
    have hbit : (pos.pieces_bb_color c pt).testBit sq = true := by
      unfold Position.pieces_bb_color
      rw [Nat.testBit_and]
      have h1 : (pos.bb_color.getD c.toNat 0).testBit sq = true := hand.1
      have h2 : (pos.bb.getD pt.ordinal 0).testBit sq = true := hand.2
      rw [h1, h2]
      rfl
    have := hiff.mpr (by rw [hbit])
    rw [hempty] at this
    exact piece_new_ne_none c hpt this.symm
  have hocc : (pos.occupied).testBit sq = false := by
    by_contra hbit
    have hbit2 : (pos.occupied).testBit sq = true := by
      cases h : (pos.occupied).testBit sq
      · exact absurd h hbit
      · rfl
    rw [hinv.2.2, type_union_testBit] at hbit2
    have hcol : (pos.pieces_bb Color.White).testBit sq = true
        ∨ (pos.pieces_bb Color.Black).testBit sq = true := by
      have h2 : (pos.occupied).testBit sq = true := by
        rw [hinv.2.2, type_union_testBit]
        exact hbit2
      rw [hinv.2.1, Nat.testBit_or] at h2
      rcases Bool.or_eq_true_iff.mp h2 with h | h
      · exact Or.inl h
      · exact Or.inr h
    obtain ⟨c, hc⟩ : ∃ c : Color, (pos.pieces_bb c).testBit sq = true := by
      rcases hcol with h | h
      · exact ⟨Color.White, h⟩
      · exact ⟨Color.Black, h⟩
    have hty : ∃ pt ∈ all_piece_types, (pos.bb.getD pt.ordinal 0).testBit sq = true := by
      simp only [Bool.or_eq_true] at hbit2
      rcases hbit2 with ((((h|h)|h)|h)|h)|h
      · exact ⟨.Pawn, by decide, h⟩
      · exact ⟨.Knight, by decide, h⟩
      · exact ⟨.Bishop, by decide, h⟩
      · exact ⟨.Rook, by decide, h⟩
      · exact ⟨.Queen, by decide, h⟩
      · exact ⟨.King, by decide, h⟩
    obtain ⟨pt, hptm, hpt⟩ := hty
    exact hconj pt hptm c ⟨by rw [hc], by rw [hpt]⟩
  constructor
  · intro c
    cases hc : (pos.pieces_bb c).testBit sq
    · rfl
    · exfalso
      have h2 : (pos.occupied).testBit sq = true := by
        rw [hinv.2.1, Nat.testBit_or]
        cases c
        · rw [hc]
          rfl
        · rw [hc]
          simp
      rw [hocc] at h2
      cases h2
  · intro pt hpt
    cases hb : (pos.bb.getD pt.ordinal 0).testBit sq
    · rfl
    · exfalso
      have h2 : (type_union pos).testBit sq = true := by
        rw [type_union_testBit]
        fin_cases hpt <;> simp_all [PieceType.ordinal]
      rw [← hinv.2.2, hocc] at h2
      cases h2

/-- At a square holding a real piece, exactly the piece's color bit and
type bit are set. -/
theorem occupied_square_bits {pos : Position} (hinv : AgreeInv pos) {sq : Nat}
    (hsq : sq < 64) {pc : Piece} (hat : pos.piece_at sq = pc) (hlt : pc.id < 12) :
    (∀ c : Color, (pos.pieces_bb c).testBit sq = decide (c = pc.color))
    ∧ (∀ pt ∈ all_piece_types,
      (pos.bb.getD pt.ordinal 0).testBit sq = decide (pt = pc.piece_type)) := by
  have hmem := piece_mem_types_of_lt hlt
  have hconj : ∀ pt ∈ all_piece_types, ∀ c : Color,
      ((pos.pieces_bb c).testBit sq && (pos.bb.getD pt.ordinal 0).testBit sq)
        = decide (pt = pc.piece_type ∧ c = pc.color) := by
    intro pt hpt c
    have hiff := hinv.1 sq hsq pt hpt c (color_mem c)
    rw [hat] at hiff
    have hbit : (pos.pieces_bb_color c pt).testBit sq
        = ((pos.pieces_bb c).testBit sq && (pos.bb.getD pt.ordinal 0).testBit sq) := by
      unfold Position.pieces_bb_color
      rw [Nat.testBit_and]
      rfl
    rw [hbit] at hiff
    rw [piece_eq_new_iff hlt hpt c] at hiff
    by_cases hcase : pt = pc.piece_type ∧ c = pc.color
    · rw [hiff.mp hcase]
      simp [hcase]
    · have : ¬ ((pos.pieces_bb c).testBit sq && (pos.bb.getD pt.ordinal 0).testBit sq) = true :=
        fun hb => hcase (hiff.mpr hb)
      simp only [Bool.not_eq_true] at this
      rw [this]
      simp [hcase]
  have hmain := hconj pc.piece_type hmem pc.color
  rw [show decide (pc.piece_type = pc.piece_type ∧ pc.color = pc.color) = true by simp] at hmain
  have hpair := Bool.and_eq_true_iff.mp hmain
  have hcolbit : (pos.pieces_bb pc.color).testBit sq = true := hpair.1
  have htybit : (pos.bb.getD pc.piece_type.ordinal 0).testBit sq = true := hpair.2
  constructor
  · intro c
    by_cases hc : c = pc.color
    · subst hc
      rw [hcolbit]
      simp
    · have h2 := hconj pc.piece_type hmem c
      have h3 : decide (pc.piece_type = pc.piece_type ∧ c = pc.color) = false := by
        simp [hc]
      rw [h3] at h2
      have h4 := Bool.and_eq_false_iff.mp h2
      rcases h4 with h4 | h4
      · rw [h4]
        simp [hc]
      · rw [htybit] at h4
        cases h4
  · intro pt hpt
    by_cases hp : pt = pc.piece_type
    · subst hp
      rw [htybit]
      simp
    · have h2 := hconj pt hpt pc.color
      have h3 : decide (pt = pc.piece_type ∧ pc.color = pc.color) = false := by
        simp [hp]
      rw [h3] at h2
      have h4 := Bool.and_eq_false_iff.mp h2
      rcases h4 with h4 | h4
      · rw [hcolbit] at h4
        cases h4
      · rw [h4]
        simp [hp]

theorem getD_mem_of_lt {α : Type} (l : List α) (i : Nat) (d : α) (h : i < l.length) :
    l.getD i d ∈ l := by
  rw [List.getD_eq_getElem _ _ h]
  exact List.getElem_mem h

theorem ite_or_mask_testBit_ne (P : Prop) [Decidable P] (x sq i : Nat) (h : sq ≠ i) :
    (if P then x ||| 1 <<< sq else x).testBit i = x.testBit i := by
  split
  · exact testBit_or_mask_ne h
  · rfl

theorem ite_xor_mask_testBit_ne (P : Prop) [Decidable P] (x sq i : Nat) (h : sq ≠ i) :
    (if P then x ^^^ 1 <<< sq else x).testBit i = x.testBit i := by
  split
  · exact testBit_xor_mask_ne h
  · rfl

/-- `place_piece` with the mover's color, on an empty square, preserves
the agreement invariant; the piece array is updated pointwise. -/
theorem place_piece_agree {pos : Position} {pc : Piece} {sq : Nat} {p : Position}
    (hinv : AgreeInv pos) (hwf : PosWF pos) (hsq : sq < 64)
    (hempty : pos.piece_at sq = Piece.none) (hpc : pc.id < 12)
    (h : pos.place_piece pc.color pc sq = some p) :
    AgreeInv p ∧ PosWF p
      ∧ (∀ x, p.piece_at x = if x = sq then pc else pos.piece_at x) := by
  obtain ⟨hl6, hl2, hl64, hb6, hb2, hpcs⟩ := hwf
  have hptn := piece_type_ne_none_of_lt hpc
  have hptm := piece_mem_types_of_lt hpc
  simp only [Position.place_piece] at h
  rw [if_neg hptn] at h
  obtain rfl := Option.some.inj h
  have hembits := empty_square_bits hinv hsq hempty
  -- pointwise description of the three updated lists
  have hpieces : ∀ x, (pos.pieces.set sq pc).getD x Piece.none
      = if x = sq then pc else pos.piece_at x := by
    intro x
    by_cases hx : x = sq
    · subst hx
      rw [if_pos rfl]
      exact getD_set_self _ _ _ _ (by omega)
    · rw [if_neg hx]
      exact getD_set_ne _ _ _ _ _ (fun he => hx he.symm)
  have hcb : ∀ c : Color,
      (pos.bb_color.set pc.color.toNat (pos.bb_color.getD pc.color.toNat 0 ||| 1 <<< sq)).getD
        c.toNat 0
      = if c = pc.color then pos.bb_color.getD c.toNat 0 ||| 1 <<< sq
        else pos.bb_color.getD c.toNat 0 := by
    intro c
    by_cases hc : c = pc.color
    · subst hc
      rw [if_pos rfl]
      exact getD_set_self _ _ _ _ (by rw [hl2]; exact color_toNat_lt _)
    · rw [if_neg hc]
      exact getD_set_ne _ _ _ _ _
        (fun he => hc (((color_toNat_inj pc.color c).mp he).symm))
  have htbk : ∀ k,
      (pos.bb.set pc.piece_type.ordinal (pos.bb.getD pc.piece_type.ordinal 0 ||| 1 <<< sq)).getD
        k 0
      = if pc.piece_type.ordinal = k then pos.bb.getD k 0 ||| 1 <<< sq
        else pos.bb.getD k 0 := by
    intro k
    by_cases hk : pc.piece_type.ordinal = k
    · subst hk
      rw [if_pos rfl]
      exact getD_set_self _ _ _ _ (by rw [hl6]; exact ordinal_lt_of_mem hptm)
    · rw [if_neg hk]
      exact getD_set_ne _ _ _ _ _ hk
  have htb : ∀ pt ∈ all_piece_types,
      (pos.bb.set pc.piece_type.ordinal (pos.bb.getD pc.piece_type.ordinal 0 ||| 1 <<< sq)).getD
        pt.ordinal 0
      = if pt = pc.piece_type then pos.bb.getD pt.ordinal 0 ||| 1 <<< sq
        else pos.bb.getD pt.ordinal 0 := by
    intro pt hpt
    rw [htbk pt.ordinal]
    by_cases hp : pt = pc.piece_type
    · rw [if_pos hp, if_pos (by rw [hp])]
    · rw [if_neg hp, if_neg (fun he => hp ((ordinal_inj hptm hpt).mp he).symm)]
  refine ⟨⟨?_, rfl, ?_⟩, ?_, hpieces⟩
  · -- per-square agreement
    intro sq2 hsq2 pt hptm2 c hcm2
    simp only [Position.piece_at, Position.pieces_bb_color]
    rw [hpieces sq2, hcb c, htb pt hptm2, Nat.testBit_and]
    by_cases hx : sq2 = sq
    · subst hx
      rw [if_pos rfl]
      rw [piece_eq_new_iff hpc hptm2 c]
      by_cases hc : c = pc.color
      · rw [if_pos hc]
        rw [testBit_or_mask_self]
        by_cases hp : pt = pc.piece_type
        · rw [if_pos hp, testBit_or_mask_self]
          simp [hc, hp]
        · rw [if_neg hp, hembits.2 pt hptm2]
          simp [hp]
      · rw [if_neg hc]
        have : (pos.bb_color.getD c.toNat 0).testBit sq2 = false := hembits.1 c
        rw [this]
        simp [hc]
    · rw [if_neg hx]
      rw [ite_or_mask_testBit_ne _ _ _ _ (fun he => hx he.symm),
        ite_or_mask_testBit_ne _ _ _ _ (fun he => hx he.symm)]
      have hold := hinv.1 sq2 hsq2 pt hptm2 c hcm2
      unfold Position.pieces_bb_color at hold
      rw [Nat.testBit_and] at hold
      exact hold
  · -- color union equals type union
    apply Nat.eq_of_testBit_eq
    intro i
    simp only [Position.occupied, type_union]
    have hcbW : (pos.bb_color.set pc.color.toNat
          (pos.bb_color.getD pc.color.toNat 0 ||| 1 <<< sq)).getD 0 0
        = if Color.White = pc.color then pos.bb_color.getD 0 0 ||| 1 <<< sq
          else pos.bb_color.getD 0 0 := hcb Color.White
    have hcbB : (pos.bb_color.set pc.color.toNat
          (pos.bb_color.getD pc.color.toNat 0 ||| 1 <<< sq)).getD 1 0
        = if Color.Black = pc.color then pos.bb_color.getD 1 0 ||| 1 <<< sq
          else pos.bb_color.getD 1 0 := hcb Color.Black
    rw [hcbW, hcbB, htbk 0, htbk 1, htbk 2, htbk 3, htbk 4, htbk 5]
    simp only [Nat.testBit_or]
    by_cases hi : i = sq
    · subst hi
      -- both sides have the freshly set bit
      have hleft : ((if Color.White = pc.color
            then pos.bb_color.getD 0 0 ||| 1 <<< i
            else pos.bb_color.getD 0 0).testBit i
          || (if Color.Black = pc.color
            then pos.bb_color.getD 1 0 ||| 1 <<< i
            else pos.bb_color.getD 1 0).testBit i) = true := by
        cases hcol : pc.color
        · rw [if_pos rfl, testBit_or_mask_self]
          rfl
        · rw [if_neg (by decide), if_pos rfl, testBit_or_mask_self]
          simp
      rw [hleft]
      have hract : ∃ k, k < 6 ∧ pc.piece_type.ordinal = k := ⟨pc.piece_type.ordinal,
        ordinal_lt_of_mem hptm, rfl⟩
      obtain ⟨k, hk6, hko⟩ := hract
      interval_cases k <;> simp [hko, testBit_or_mask_self]
    · rw [ite_or_mask_testBit_ne _ _ _ _ (fun he => hi he.symm),
        ite_or_mask_testBit_ne _ _ _ _ (fun he => hi he.symm),
        ite_or_mask_testBit_ne _ _ _ _ (fun he => hi he.symm),
        ite_or_mask_testBit_ne _ _ _ _ (fun he => hi he.symm),
        ite_or_mask_testBit_ne _ _ _ _ (fun he => hi he.symm),
        ite_or_mask_testBit_ne _ _ _ _ (fun he => hi he.symm),
        ite_or_mask_testBit_ne _ _ _ _ (fun he => hi he.symm),
        ite_or_mask_testBit_ne _ _ _ _ (fun he => hi he.symm)]
      have hold := congrArg (fun v => v.testBit i) hinv.2.2
      simp only [Position.occupied, type_union, Nat.testBit_or] at hold
      exact hold
  · -- well-formedness
    refine ⟨by rw [List.length_set, hl6], by rw [List.length_set, hl2],
      by rw [List.length_set, hl64], ?_, ?_, ?_⟩
    · intro b hb
      rcases List.mem_or_eq_of_mem_set hb with hmem | rfl
      · exact hb6 b hmem
      · apply Nat.or_lt_two_pow
        · by_cases hlt : pc.piece_type.ordinal < pos.bb.length
          · exact hb6 _ (getD_mem_of_lt _ _ _ hlt)
          · rw [List.getD_eq_default _ _ (by omega)]
            exact Nat.pos_pow_of_pos _ (by norm_num)
        · have : (1 : Nat) <<< sq = 2 ^ sq := by simp [Nat.shiftLeft_eq]
          rw [this]
          exact Nat.pow_lt_pow_right (by norm_num) hsq
    · intro b hb
      rcases List.mem_or_eq_of_mem_set hb with hmem | rfl
      · exact hb2 b hmem
      · apply Nat.or_lt_two_pow
        · by_cases hlt : pc.color.toNat < pos.bb_color.length
          · exact hb2 _ (getD_mem_of_lt _ _ _ hlt)
          · rw [List.getD_eq_default _ _ (by omega)]
            exact Nat.pos_pow_of_pos _ (by norm_num)
        · have : (1 : Nat) <<< sq = 2 ^ sq := by simp [Nat.shiftLeft_eq]
          rw [this]
          exact Nat.pow_lt_pow_right (by norm_num) hsq
    · intro q hq
      rcases List.mem_or_eq_of_mem_set hq with hmem | rfl
      · exact hpcs q hmem
      · omega

theorem from_ordinal_ordinal {pt : PieceType} (h : pt ∈ all_piece_types) :
    PieceType.from_ordinal pt.ordinal = pt := by
  fin_cases h <;> decide

/-- `remove_piece` with the piece actually standing on the square
preserves the agreement invariant; the piece array is cleared pointwise. -/
theorem remove_piece_agree {pos : Position} {pc : Piece} {sq : Nat} {p : Position}
    (hinv : AgreeInv pos) (hwf : PosWF pos) (hsq : sq < 64)
    (hat : pos.piece_at sq = pc) (hpc : pc.id < 12)
    (h : pos.remove_piece pc.color pc sq = some p) :
    AgreeInv p ∧ PosWF p
      ∧ (∀ x, p.piece_at x = if x = sq then Piece.none else pos.piece_at x) := by
  obtain ⟨hl6, hl2, hl64, hb6, hb2, hpcs⟩ := hwf
  have hptn := piece_type_ne_none_of_lt hpc
  have hptm := piece_mem_types_of_lt hpc
  simp only [Position.remove_piece] at h
  rw [if_neg hptn] at h
  obtain rfl := Option.some.inj h
  have hocb := occupied_square_bits hinv hsq hat hpc
  have hpieces : ∀ x, (pos.pieces.set sq Piece.none).getD x Piece.none
      = if x = sq then Piece.none else pos.piece_at x := by
    intro x
    by_cases hx : x = sq
    · subst hx
      rw [if_pos rfl]
      exact getD_set_self _ _ _ _ (by omega)
    · rw [if_neg hx]
      exact getD_set_ne _ _ _ _ _ (fun he => hx he.symm)
  have hcb : ∀ c : Color,
      (pos.bb_color.set pc.color.toNat (pos.bb_color.getD pc.color.toNat 0 ^^^ 1 <<< sq)).getD
        c.toNat 0
      = if c = pc.color then pos.bb_color.getD c.toNat 0 ^^^ 1 <<< sq
        else pos.bb_color.getD c.toNat 0 := by
    intro c
    by_cases hc : c = pc.color
    · subst hc
      rw [if_pos rfl]
      exact getD_set_self _ _ _ _ (by rw [hl2]; exact color_toNat_lt _)
    · rw [if_neg hc]
      exact getD_set_ne _ _ _ _ _
        (fun he => hc (((color_toNat_inj pc.color c).mp he).symm))
  have htbk : ∀ k,
      (pos.bb.set pc.piece_type.ordinal (pos.bb.getD pc.piece_type.ordinal 0 ^^^ 1 <<< sq)).getD
        k 0
      = if pc.piece_type.ordinal = k then pos.bb.getD k 0 ^^^ 1 <<< sq
        else pos.bb.getD k 0 := by
    intro k
    by_cases hk : pc.piece_type.ordinal = k
    · subst hk
      rw [if_pos rfl]
      exact getD_set_self _ _ _ _ (by rw [hl6]; exact ordinal_lt_of_mem hptm)
    · rw [if_neg hk]
      exact getD_set_ne _ _ _ _ _ hk
  have htb : ∀ pt ∈ all_piece_types,
      (pos.bb.set pc.piece_type.ordinal (pos.bb.getD pc.piece_type.ordinal 0 ^^^ 1 <<< sq)).getD
        pt.ordinal 0
      = if pt = pc.piece_type then pos.bb.getD pt.ordinal 0 ^^^ 1 <<< sq
        else pos.bb.getD pt.ordinal 0 := by
    intro pt hpt
    rw [htbk pt.ordinal]
    by_cases hp : pt = pc.piece_type
    · rw [if_pos hp, if_pos (by rw [hp])]
    · rw [if_neg hp, if_neg (fun he => hp ((ordinal_inj hptm hpt).mp he).symm)]
  refine ⟨⟨?_, rfl, ?_⟩, ?_, hpieces⟩
  · intro sq2 hsq2 pt hptm2 c hcm2
    simp only [Position.piece_at, Position.pieces_bb_color]
    rw [hpieces sq2, hcb c, htb pt hptm2, Nat.testBit_and]
    by_cases hx : sq2 = sq
    · subst hx
      rw [if_pos rfl]
      have hL : ¬ (Piece.none = Piece.new pt c) :=
        fun he => piece_new_ne_none c hptm2 he.symm
      have hcbit : (if c = pc.color then pos.bb_color.getD c.toNat 0 ^^^ 1 <<< sq2
          else pos.bb_color.getD c.toNat 0).testBit sq2 = false := by
        have hold : (pos.bb_color.getD c.toNat 0).testBit sq2 = decide (c = pc.color) :=
          hocb.1 c
        by_cases hc : c = pc.color
        · rw [if_pos hc, testBit_xor_mask_self, hold]
          simp [hc]
        · rw [if_neg hc, hold]
          simp [hc]
      rw [hcbit]
      simp [hL]
    · rw [if_neg hx]
      rw [ite_xor_mask_testBit_ne _ _ _ _ (fun he => hx he.symm),
        ite_xor_mask_testBit_ne _ _ _ _ (fun he => hx he.symm)]
      have hold := hinv.1 sq2 hsq2 pt hptm2 c hcm2
      unfold Position.pieces_bb_color at hold
      rw [Nat.testBit_and] at hold
      exact hold
  · apply Nat.eq_of_testBit_eq
    intro i
    simp only [Position.occupied, type_union]
    have hcbW : (pos.bb_color.set pc.color.toNat
          (pos.bb_color.getD pc.color.toNat 0 ^^^ 1 <<< sq)).getD 0 0
        = if Color.White = pc.color then pos.bb_color.getD 0 0 ^^^ 1 <<< sq
          else pos.bb_color.getD 0 0 := hcb Color.White
    have hcbB : (pos.bb_color.set pc.color.toNat
          (pos.bb_color.getD pc.color.toNat 0 ^^^ 1 <<< sq)).getD 1 0
        = if Color.Black = pc.color then pos.bb_color.getD 1 0 ^^^ 1 <<< sq
          else pos.bb_color.getD 1 0 := hcb Color.Black
    rw [hcbW, hcbB, htbk 0, htbk 1, htbk 2, htbk 3, htbk 4, htbk 5]
    simp only [Nat.testBit_or]
    by_cases hi : i = sq
    · subst hi
      have hcw : (pos.bb_color.getD 0 0).testBit i = decide (Color.White = pc.color) :=
        hocb.1 Color.White
      have hcbl : (pos.bb_color.getD 1 0).testBit i = decide (Color.Black = pc.color) :=
        hocb.1 Color.Black
      have hLz : ((if Color.White = pc.color then pos.bb_color.getD 0 0 ^^^ 1 <<< i
            else pos.bb_color.getD 0 0).testBit i
          || (if Color.Black = pc.color then pos.bb_color.getD 1 0 ^^^ 1 <<< i
            else pos.bb_color.getD 1 0).testBit i) = false := by
        cases hcol : pc.color
        · rw [if_pos rfl, if_neg (by decide), testBit_xor_mask_self, hcw, hcbl]
          simp [hcol]
        · rw [if_neg (by decide), if_pos rfl, testBit_xor_mask_self, hcw, hcbl]
          simp [hcol]
      rw [hLz]
      have hcomp : ∀ k, k < 6 → (pos.bb.getD k 0).testBit i
          = decide (PieceType.from_ordinal k = pc.piece_type) := by
        intro k hk
        have hm : PieceType.from_ordinal k ∈ all_piece_types := by
          interval_cases k <;> decide
        have hko : (PieceType.from_ordinal k).ordinal = k := by
          interval_cases k <;> decide
        have := hocb.2 (PieceType.from_ordinal k) hm
        rw [hko] at this
        exact this
      have hcomp2 : ∀ k, k < 6 →
          (if pc.piece_type.ordinal = k then pos.bb.getD k 0 ^^^ 1 <<< i
            else pos.bb.getD k 0).testBit i = false := by
        intro k hk
        by_cases hkk : pc.piece_type.ordinal = k
        · rw [if_pos hkk, testBit_xor_mask_self, hcomp k hk]
          have heq : PieceType.from_ordinal k = pc.piece_type := by
            rw [← hkk]
            exact from_ordinal_ordinal hptm
          simp [heq]
        · rw [if_neg hkk, hcomp k hk]
          have hne : PieceType.from_ordinal k ≠ pc.piece_type := by
            intro he
            apply hkk
            have hko : (PieceType.from_ordinal k).ordinal = k := by
              interval_cases k <;> decide
            rw [← he, hko]
          simp [hne]
      rw [hcomp2 0 (by norm_num), hcomp2 1 (by norm_num), hcomp2 2 (by norm_num),
        hcomp2 3 (by norm_num), hcomp2 4 (by norm_num), hcomp2 5 (by norm_num)]
      rfl
    · rw [ite_xor_mask_testBit_ne _ _ _ _ (fun he => hi he.symm),
        ite_xor_mask_testBit_ne _ _ _ _ (fun he => hi he.symm),
        ite_xor_mask_testBit_ne _ _ _ _ (fun he => hi he.symm),
        ite_xor_mask_testBit_ne _ _ _ _ (fun he => hi he.symm),
        ite_xor_mask_testBit_ne _ _ _ _ (fun he => hi he.symm),
        ite_xor_mask_testBit_ne _ _ _ _ (fun he => hi he.symm),
        ite_xor_mask_testBit_ne _ _ _ _ (fun he => hi he.symm),
        ite_xor_mask_testBit_ne _ _ _ _ (fun he => hi he.symm)]
      have hold := congrArg (fun v => v.testBit i) hinv.2.2
      simp only [Position.occupied, type_union, Nat.testBit_or] at hold
      exact hold
  · refine ⟨by rw [List.length_set, hl6], by rw [List.length_set, hl2],
      by rw [List.length_set, hl64], ?_, ?_, ?_⟩
    · intro b hb
      rcases List.mem_or_eq_of_mem_set hb with hmem | rfl
      · exact hb6 b hmem
      · apply Nat.xor_lt_two_pow
        · by_cases hlt : pc.piece_type.ordinal < pos.bb.length
          · exact hb6 _ (getD_mem_of_lt _ _ _ hlt)
          · rw [List.getD_eq_default _ _ (by omega)]
            exact Nat.pos_pow_of_pos _ (by norm_num)
        · have : (1 : Nat) <<< sq = 2 ^ sq := by simp [Nat.shiftLeft_eq]
          rw [this]
          exact Nat.pow_lt_pow_right (by norm_num) hsq
    · intro b hb
      rcases List.mem_or_eq_of_mem_set hb with hmem | rfl
      · exact hb2 b hmem
      · apply Nat.xor_lt_two_pow
        · by_cases hlt : pc.color.toNat < pos.bb_color.length
          · exact hb2 _ (getD_mem_of_lt _ _ _ hlt)
          · rw [List.getD_eq_default _ _ (by omega)]
            exact Nat.pos_pow_of_pos _ (by norm_num)
        · have : (1 : Nat) <<< sq = 2 ^ sq := by simp [Nat.shiftLeft_eq]
          rw [this]
          exact Nat.pow_lt_pow_right (by norm_num) hsq
    · intro q hq
      rcases List.mem_or_eq_of_mem_set hq with hmem | rfl
      · exact hpcs q hmem
      · decide

theorem color_opp_ne (c : Color) : c.opp ≠ c := by cases c <;> decide

/-- The en-passant legality loop preserves the agreement invariant: each
iteration restores the board before moving on. -/
theorem ep_loop_agree (ep tsq : Square) (piece : Piece) (stmc : Color)
    (hep : ep < 64) (htsq : tsq < 64) (hnet : ep ≠ tsq)
    (hpc : piece.id < 12) (hcol : piece.color = stmc) :
    ∀ (l : List Square) (pos p : Position),
    AgreeInv pos → PosWF pos →
    pos.piece_at ep = Piece.none → pos.piece_at tsq = piece →
    (∀ e ∈ l, e < 64 ∧ pos.piece_at e = Piece.new PieceType.Pawn stmc.opp) →
    Position.ep_loop ep tsq piece stmc pos l = some p →
    AgreeInv p ∧ PosWF p := by
  have hpawnm : PieceType.Pawn ∈ all_piece_types := by decide
  have hpawnlt : (Piece.new PieceType.Pawn stmc.opp).id < 12 := piece_new_lt _ hpawnm
  have hcpc : (Piece.new PieceType.Pawn stmc.opp).color = stmc.opp :=
    (piece_new_type _ hpawnm).2
  have hoppne : stmc.opp ≠ stmc := color_opp_ne stmc
  have hpiece_ne_pawn : piece ≠ Piece.new PieceType.Pawn stmc.opp := by
    intro he
    have h2 := hcol.symm.trans ((congrArg Piece.color he).trans hcpc)
    exact hoppne h2.symm
  intro l
  induction l with
  | nil =>
    intro pos p hI hW _ _ _ h
    obtain rfl := Option.some.inj h
    exact ⟨hI, hW⟩
  | cons e rest ih =>
    intro pos p hI hW hepn hptsq hl h
    obtain ⟨helt, hat⟩ := hl e (by simp)
    have he_ep : e ≠ ep := by
      intro he
      rw [he, hepn] at hat
      exact piece_new_ne_none _ hpawnm hat.symm
    have hep_ne_e : ep ≠ e := fun x => he_ep x.symm
    have he_tsq : e ≠ tsq := by
      intro he
      rw [he, hptsq] at hat
      exact hpiece_ne_pawn hat
    have htsq_ne_e : tsq ≠ e := fun x => he_tsq x.symm
    simp only [Position.ep_loop, Option.bind_eq_some] at h
    obtain ⟨p1, h1, p2, h2, p3, h3, checked, hchk, p4, h4, p5, h5, p6, h6, hres⟩ := h
    rw [hat] at h1 h2 h4 h5
    nth_rewrite 1 [← hcpc] at h1
    nth_rewrite 1 [← hcpc] at h2
    nth_rewrite 1 [← hcpc] at h4
    nth_rewrite 1 [← hcpc] at h5
    rw [← hcol] at h3 h6
    obtain ⟨hI1, hW1, hU1⟩ := remove_piece_agree hI hW helt hat hpawnlt h1
    have hp1ep : p1.piece_at ep = Piece.none := by
      rw [hU1 ep, if_neg hep_ne_e]
      exact hepn
    obtain ⟨hI2, hW2, hU2⟩ := place_piece_agree hI1 hW1 hep hp1ep hpawnlt h2
    have hp2tsq : p2.piece_at tsq = piece := by
      rw [hU2 tsq, if_neg (fun x => hnet x.symm), hU1 tsq, if_neg htsq_ne_e]
      exact hptsq
    obtain ⟨hI3, hW3, hU3⟩ := remove_piece_agree hI2 hW2 htsq hp2tsq hpc h3
    have hp3e : p3.piece_at e = Piece.none := by
      rw [hU3 e, if_neg he_tsq, hU2 e, if_neg he_ep, hU1 e, if_pos rfl]
    obtain ⟨hI4, hW4, hU4⟩ := place_piece_agree hI3 hW3 helt hp3e hpawnlt h4
    have hp4ep : p4.piece_at ep = Piece.new PieceType.Pawn stmc.opp := by
      rw [hU4 ep, if_neg hep_ne_e, hU3 ep, if_neg hnet, hU2 ep, if_pos rfl]
    obtain ⟨hI5, hW5, hU5⟩ := remove_piece_agree hI4 hW4 hep hp4ep hpawnlt h5
    have hp5tsq : p5.piece_at tsq = Piece.none := by
      rw [hU5 tsq, if_neg (fun x => hnet x.symm), hU4 tsq, if_neg htsq_ne_e,
        hU3 tsq, if_pos rfl]
    obtain ⟨hI6, hW6, hU6⟩ := place_piece_agree hI5 hW5 htsq hp5tsq hpc h6
    by_cases hch : checked = false
    · rw [if_pos hch] at hres
      obtain rfl := Option.some.inj hres
      exact ⟨hI6, hW6⟩
    · rw [if_neg hch] at hres
      apply ih p6 p hI6 hW6 ?_ ?_ ?_ hres
      · rw [hU6 ep, if_neg hnet, hU5 ep, if_pos rfl]
      · rw [hU6 tsq, if_pos rfl]
      · intro e2 he2
        obtain ⟨he2lt, hate2⟩ := hl e2 (by simp [he2])
        refine ⟨he2lt, ?_⟩
        by_cases h2t : e2 = tsq
        · exfalso
          rw [h2t, hptsq] at hate2
          exact hpiece_ne_pawn hate2
        · by_cases h2ep : e2 = ep
          · exfalso
            rw [h2ep, hepn] at hate2
            exact piece_new_ne_none _ hpawnm hate2.symm
          · by_cases h2e : e2 = e
            · subst h2e
              rw [hU6 e2, if_neg he_tsq, hU5 e2, if_neg he_ep, hU4 e2, if_pos rfl]
            · rw [hU6 e2, if_neg h2t, hU5 e2, if_neg h2ep, hU4 e2, if_neg h2e,
                hU3 e2, if_neg h2t, hU2 e2, if_neg h2ep, hU1 e2, if_neg h2e]
              exact hate2

theorem testBit_false_of_ge {x i : Nat} (h : x < 2 ^ 64) (hi : 64 ≤ i) :
    x.testBit i = false := by
  apply Nat.testBit_lt_two_pow
  calc x < 2 ^ 64 := h
    _ ≤ 2 ^ i := Nat.pow_le_pow_right (by norm_num) hi

/-- A nonzero 64-bit value has its lowest set bit below 64, and
`trailing_zeros64` finds it. -/
theorem tz_spec {v : Nat} (hv : v < 2 ^ 64) (hnz : v ≠ 0) :
    trailing_zeros64 v < 64 ∧ v.testBit (trailing_zeros64 v) = true := by
  have hex : ∃ i, v.testBit i = true := by
    by_contra hall
    push_neg at hall
    apply hnz
    apply Nat.eq_of_testBit_eq
    intro i
    rw [Nat.zero_testBit]
    cases h : v.testBit i
    · rfl
    · exact absurd h (by simp [hall i])
  obtain ⟨i, hi⟩ := hex
  have hilt : i < 64 := by
    by_contra hge
    push_neg at hge
    rw [testBit_false_of_ge hv hge] at hi
    cases hi
  have hexl : ∃ x ∈ List.range 64, v.testBit x = true := ⟨i, List.mem_range.mpr hilt, hi⟩
  have hlt : (List.range 64).findIdx (fun j => v.testBit j) < 64 := by
    have := List.findIdx_lt_length_of_exists hexl
    simpa using this
  constructor
  · exact hlt
  · have hget := @List.findIdx_getElem _ (fun j => v.testBit j)
      (List.range 64) (by simpa using hlt)
    rw [List.getElem_range] at hget
    exact hget

/-- Squares yielded by the bitboard iterator are set bits below 64. -/
theorem mem_bb_to_list {v : Nat} (hv : v < 2 ^ 64) :
    ∀ (fuel : Nat) (e : Nat), e ∈ bb_to_list v fuel → v.testBit e = true ∧ e < 64 := by
  intro fuel
  induction fuel generalizing v with
  | zero => intro e he; simp [bb_to_list] at he
  | succ fuel ih =>
    intro e he
    by_cases hz : v = 0
    · rw [show bb_to_list v (fuel + 1) = [] by rw [bb_to_list, if_pos hz]] at he
      simp at he
    · rw [show bb_to_list v (fuel + 1)
          = trailing_zeros64 v :: bb_to_list (clear_lsb v) fuel by
            rw [bb_to_list, if_neg hz]] at he
      rcases List.mem_cons.mp he with rfl | hrec
      · exact ⟨(tz_spec hv hz).2, (tz_spec hv hz).1⟩
      · have hcl : clear_lsb v < 2 ^ 64 :=
          Nat.lt_of_le_of_lt (Nat.and_le_left) hv
        obtain ⟨hbit, hlt⟩ := ih hcl e hrec
        refine ⟨?_, hlt⟩
        have := Nat.testBit_and v (v - 1) e
        rw [show clear_lsb v = v &&& (v - 1) from rfl] at hbit
        rw [this] at hbit
        exact (Bool.and_eq_true_iff.mp hbit).1

theorem pieces_bb_color_lt {pos : Position} (hW : PosWF pos) (c : Color) (pt : PieceType) :
    pos.pieces_bb_color c pt < 2 ^ 64 := by
  unfold Position.pieces_bb_color
  apply Nat.lt_of_le_of_lt Nat.and_le_left
  obtain ⟨_, hl2, _, _, hb2, _⟩ := hW
  exact hb2 _ (getD_mem_of_lt _ _ _ (by rw [hl2]; exact color_toNat_lt c))

theorem piece_at_id_lt {pos : Position} (hW : PosWF pos) {sq : Nat} (h : sq < 64) :
    (pos.piece_at sq).id < 13 := by
  obtain ⟨_, _, hl64, _, _, hpcs⟩ := hW
  exact hpcs _ (getD_mem_of_lt _ _ _ (by omega))

theorem piece_lt12_of_ne_none {pc : Piece} (h13 : pc.id < 13) (hne : pc ≠ Piece.none) :
    pc.id < 12 := by
  obtain ⟨i⟩ := pc
  have h2 : i < 13 := h13
  have hne12 : i ≠ 12 := by
    intro he
    subst he
    exact hne (by decide)
  show i < 12
  omega

/-- The en-passant tail of `do_move` preserves the agreement invariant. -/
theorem do_move_tail_agree (A B : Prop) [Decidable A] [Decidable B]
    (ep tsq : Square) (piece : Piece) (stmc : Color) (l : List Square)
    (E p7 : Position)
    (h : (if A then (if B then Position.ep_loop ep tsq piece stmc E l else some E)
      else some E) = some p7)
    (hI : AgreeInv E) (hW : PosWF E)
    (hcond : A → ep < 64 ∧ tsq < 64 ∧ ep ≠ tsq ∧ piece.id < 12 ∧ piece.color = stmc
      ∧ E.piece_at ep = Piece.none ∧ E.piece_at tsq = piece
      ∧ (∀ e ∈ l, e < 64 ∧ E.piece_at e = Piece.new PieceType.Pawn stmc.opp)) :
    AgreeInv p7 ∧ PosWF p7 := by
  by_cases hA : A
  · rw [if_pos hA] at h
    obtain ⟨h1, h2, h3, h4, h5, h6, h7c, h8⟩ := hcond hA
    by_cases hB : B
    · rw [if_pos hB] at h
      exact ep_loop_agree ep tsq piece stmc h1 h2 h3 h4 h5 l E p7 hI hW h6 h7c h8 h
    · rw [if_neg hB] at h
      obtain rfl := Option.some.inj h
      exact ⟨hI, hW⟩
  · rw [if_neg hA] at h
    obtain rfl := Option.some.inj h
    exact ⟨hI, hW⟩

/-- `do_move` preserves the agreement invariant under the structural
preconditions every pseudo-legal move satisfies. -/
theorem do_move_agree (pos : Position) (mv : Move) (pos2 : Position)
    (hI : AgreeInv pos) (hW : PosWF pos)
    (hfr : mv.from_sq < 64) (hto : mv.to_sq < 64) (hne : mv.from_sq ≠ mv.to_sq)
    (hmover : (pos.piece_at mv.from_sq).color = pos.stm)
    (hmover12 : (pos.piece_at mv.from_sq).id < 12)
    (htarget : mv.move_type = MoveType.Normal ∨ mv.move_type = MoveType.Promotion →
      pos.piece_at mv.to_sq = Piece.none
      ∨ (pos.piece_at mv.to_sq).color = pos.stm.opp)
    (hprom : mv.move_type = MoveType.Promotion →
      mv.promoted_piece.id < 12 ∧ mv.promoted_piece.color = pos.stm)
    (hepc : mv.move_type = MoveType.EnPassant →
      pos.piece_at mv.to_sq = Piece.none
      ∧ pos.piece_at (mv.to_sq ^^^ 8) = Piece.new PieceType.Pawn pos.stm.opp
      ∧ mv.to_sq ^^^ 8 ≠ mv.from_sq ∧ mv.to_sq ^^^ 8 ≠ mv.to_sq ∧ mv.to_sq ^^^ 8 < 64)
    (hcastle : mv.move_type = MoveType.Castle →
      pos.piece_at mv.to_sq = Piece.new PieceType.Rook pos.stm
      ∧ (mv.castle_type = CastleType.Short →
          castle_targets_ok pos mv (if pos.stm = Color.White then Square.F1 else Square.F8)
            (if pos.stm = Color.White then Square.G1 else Square.G8))
      ∧ (mv.castle_type = CastleType.Long →
          castle_targets_ok pos mv (if pos.stm = Color.White then Square.D1 else Square.D8)
            (if pos.stm = Color.White then Square.C1 else Square.C8)))
    (hdp : (pos.piece_at mv.from_sq).piece_type = PieceType.Pawn
        ∧ ((mv.to_sq : Int) - (mv.from_sq : Int)).natAbs = 16 →
      mv.move_type = MoveType.Normal
      ∧ pos.piece_at (mv.to_sq ^^^ 8) = Piece.none
      ∧ mv.to_sq ^^^ 8 ≠ mv.from_sq ∧ mv.to_sq ^^^ 8 ≠ mv.to_sq ∧ mv.to_sq ^^^ 8 < 64)
    (hdm : pos.do_move mv = some pos2) :
    AgreeInv pos2 ∧ PosWF pos2 := by
  have hfrne : mv.to_sq ≠ mv.from_sq := fun x => hne x.symm
  simp only [Position.do_move, Option.bind_eq_some, Option.map_eq_some'] at hdm
  obtain ⟨p1, h1, p2, h2, p3, h3, p7, h7, hstm⟩ := hdm
  subst hstm
  rw [← hmover] at h1
  obtain ⟨hI1, hW1, hU1⟩ := remove_piece_agree hI hW hfr rfl hmover12 h1
  cases hmt : mv.move_type with
  | Normal =>
    rw [hmt] at h2 h3
    rw [if_neg (by decide : ¬ (MoveType.Normal = MoveType.Promotion)),
      if_neg (by decide : ¬ (MoveType.Normal = MoveType.EnPassant)),
      if_pos rfl] at h3
    have trio : AgreeInv p2 ∧ PosWF p2
        ∧ (∀ x, p2.piece_at x = if x = mv.to_sq then Piece.none else p1.piece_at x) := by
      by_cases hcap : pos.piece_at mv.to_sq = Piece.none
      · rw [if_neg (fun hgc => hgc.1 hcap)] at h2
        obtain rfl := Option.some.inj h2
        refine ⟨hI1, hW1, ?_⟩
        intro x
        by_cases hx : x = mv.to_sq
        · rw [if_pos hx, hx, hU1 _, if_neg hfrne]
          exact hcap
        · rw [if_neg hx]
      · have hcapcol : (pos.piece_at mv.to_sq).color = pos.stm.opp :=
          (htarget (Or.inl hmt)).resolve_left hcap
        have hcap12 : (pos.piece_at mv.to_sq).id < 12 :=
          piece_lt12_of_ne_none (piece_at_id_lt hW hto) hcap
        rw [if_pos ⟨hcap, by decide⟩] at h2
        rw [← hcapcol] at h2
        have hp1to : p1.piece_at mv.to_sq = pos.piece_at mv.to_sq := by
          rw [hU1 _, if_neg hfrne]
        obtain ⟨hI2, hW2, hU2⟩ := remove_piece_agree hI1 hW1 hto hp1to hcap12 h2
        exact ⟨hI2, hW2, hU2⟩
    obtain ⟨hI2, hW2, hU2g⟩ := trio
    rw [← hmover] at h3
    have hp2to : p2.piece_at mv.to_sq = Piece.none := by
      rw [hU2g _, if_pos rfl]
    obtain ⟨hI3, hW3, hU3⟩ := place_piece_agree hI2 hW2 hto hp2to hmover12 h3
    have hp3to : p3.piece_at mv.to_sq = pos.piece_at mv.from_sq := by
      rw [hU3 _, if_pos rfl]
    have hp3gen : ∀ x, x ≠ mv.from_sq → x ≠ mv.to_sq → p3.piece_at x = pos.piece_at x := by
      intro x hxf hxt
      rw [hU3 x, if_neg hxt, hU2g x, if_neg hxt, hU1 x, if_neg hxf]
    obtain ⟨hIp7, hWp7⟩ := do_move_tail_agree _ _ _ _ _ _ _ _ p7 h7 hI3 hW3 (by
      intro hA
      obtain ⟨_, hepnone, hnefr, hneto, heplt⟩ := hdp hA
      refine ⟨heplt, hto, hneto, hmover12, hmover, ?_, hp3to, ?_⟩
      · exact (hp3gen _ hnefr hneto).trans hepnone
      · intro e hmem
        have hv : attacks.pawn pos.stm (mv.to_sq ^^^ 8)
            &&& p3.pieces_bb_color pos.stm.opp .Pawn < 2 ^ 64 :=
          Nat.lt_of_le_of_lt Nat.and_le_right (pieces_bb_color_lt hW3 _ _)
        obtain ⟨hbit, helt⟩ := mem_bb_to_list hv 64 e hmem
        refine ⟨helt, ?_⟩
        have hbit2 : (p3.pieces_bb_color pos.stm.opp .Pawn).testBit e = true := by
          rw [Nat.testBit_and] at hbit
          exact (Bool.and_eq_true_iff.mp hbit).2
        exact (hI3.1 e helt .Pawn (by decide) pos.stm.opp (color_mem _)).mpr hbit2)
    exact ⟨hIp7, hWp7⟩
  | Promotion =>
    rw [hmt] at h2 h3
    rw [if_pos rfl] at h3
    obtain ⟨hpr12, hprcol⟩ := hprom hmt
    have trio : AgreeInv p2 ∧ PosWF p2
        ∧ (∀ x, p2.piece_at x = if x = mv.to_sq then Piece.none else p1.piece_at x) := by
      by_cases hcap : pos.piece_at mv.to_sq = Piece.none
      · rw [if_neg (fun hgc => hgc.1 hcap)] at h2
        obtain rfl := Option.some.inj h2
        refine ⟨hI1, hW1, ?_⟩
        intro x
        by_cases hx : x = mv.to_sq
        · rw [if_pos hx, hx, hU1 _, if_neg hfrne]
          exact hcap
        · rw [if_neg hx]
      · have hcapcol : (pos.piece_at mv.to_sq).color = pos.stm.opp :=
          (htarget (Or.inr hmt)).resolve_left hcap
        have hcap12 : (pos.piece_at mv.to_sq).id < 12 :=
          piece_lt12_of_ne_none (piece_at_id_lt hW hto) hcap
        rw [if_pos ⟨hcap, by decide⟩] at h2
        rw [← hcapcol] at h2
        have hp1to : p1.piece_at mv.to_sq = pos.piece_at mv.to_sq := by
          rw [hU1 _, if_neg hfrne]
        obtain ⟨hI2, hW2, hU2⟩ := remove_piece_agree hI1 hW1 hto hp1to hcap12 h2
        exact ⟨hI2, hW2, hU2⟩
    obtain ⟨hI2, hW2, hU2g⟩ := trio
    rw [← hprcol] at h3
    have hp2to : p2.piece_at mv.to_sq = Piece.none := by
      rw [hU2g _, if_pos rfl]
    obtain ⟨hI3, hW3, hU3⟩ := place_piece_agree hI2 hW2 hto hp2to hpr12 h3
    have hAfalse : ¬ ((pos.piece_at mv.from_sq).piece_type = PieceType.Pawn
        ∧ ((mv.to_sq : Int) - (mv.from_sq : Int)).natAbs = 16) := by
      intro hA
      exact absurd (hmt.symm.trans (hdp hA).1) (by decide)
    obtain ⟨hIp7, hWp7⟩ := do_move_tail_agree _ _ _ _ _ _ _ _ p7 h7 hI3 hW3
      (fun hA => absurd hA hAfalse)
    exact ⟨hIp7, hWp7⟩
  | EnPassant =>
    rw [hmt] at h2 h3
    obtain ⟨hep1, hep2, hep3, hep4, hep5⟩ := hepc hmt
    rw [if_neg (fun hgc => hgc.1 hep1)] at h2
    obtain rfl := Option.some.inj h2
    rw [if_neg (by decide : ¬ (MoveType.EnPassant = MoveType.Promotion)),
      if_pos rfl] at h3
    have h3x : (p1.remove_piece pos.stm.opp (p1.piece_at (mv.to_sq ^^^ 8))
        (mv.to_sq ^^^ 8)).bind
        (fun pa => pa.place_piece pos.stm (pos.piece_at mv.from_sq) mv.to_sq)
        = some p3 := h3
    rw [Option.bind_eq_some] at h3x
    obtain ⟨pa, ha, hb⟩ := h3x
    have hp1csq : p1.piece_at (mv.to_sq ^^^ 8) = Piece.new PieceType.Pawn pos.stm.opp := by
      rw [hU1 _, if_neg hep3]
      exact hep2
    rw [hp1csq] at ha
    have hcpc : (Piece.new PieceType.Pawn pos.stm.opp).color = pos.stm.opp :=
      (piece_new_type _ (by decide)).2
    nth_rewrite 1 [← hcpc] at ha
    obtain ⟨hIa, hWa, hUa⟩ := remove_piece_agree hI1 hW1 hep5 hp1csq
      (piece_new_lt _ (by decide)) ha
    rw [← hmover] at hb
    have hpato : pa.piece_at mv.to_sq = Piece.none := by
      rw [hUa _, if_neg (fun x => hep4 x.symm), hU1 _, if_neg hfrne]
      exact hep1
    obtain ⟨hI3, hW3, hU3⟩ := place_piece_agree hIa hWa hto hpato hmover12 hb
    have hAfalse : ¬ ((pos.piece_at mv.from_sq).piece_type = PieceType.Pawn
        ∧ ((mv.to_sq : Int) - (mv.from_sq : Int)).natAbs = 16) := by
      intro hA
      exact absurd (hmt.symm.trans (hdp hA).1) (by decide)
    obtain ⟨hIp7, hWp7⟩ := do_move_tail_agree _ _ _ _ _ _ _ _ p7 h7 hI3 hW3
      (fun hA => absurd hA hAfalse)
    exact ⟨hIp7, hWp7⟩
  | Castle =>
    rw [hmt] at h2 h3
    obtain ⟨hrook, hshort, hlong⟩ := hcastle hmt
    rw [if_neg (fun hgc => hgc.2 rfl)] at h2
    obtain rfl := Option.some.inj h2
    rw [if_neg (by decide : ¬ (MoveType.Castle = MoveType.Promotion)),
      if_neg (by decide : ¬ (MoveType.Castle = MoveType.EnPassant)),
      if_neg (by decide : ¬ (MoveType.Castle = MoveType.Normal))] at h3
    have hrookat : p1.piece_at mv.to_sq = Piece.new PieceType.Rook pos.stm := by
      rw [hU1 _, if_neg hfrne]
      exact hrook
    have hcrook : (Piece.new PieceType.Rook pos.stm).color = pos.stm :=
      (piece_new_type _ (by decide)).2
    have hAfalse : ¬ ((pos.piece_at mv.from_sq).piece_type = PieceType.Pawn
        ∧ ((mv.to_sq : Int) - (mv.from_sq : Int)).natAbs = 16) := by
      intro hA
      exact absurd (hmt.symm.trans (hdp hA).1) (by decide)
    by_cases hcs : mv.castle_type = CastleType.Short
    · rw [if_pos hcs] at h3
      obtain ⟨hrtlt, hktlt, hrtkt, hrtcase, hktcase⟩ := hshort hcs
      have h3x : (p1.remove_piece pos.stm (p1.piece_at mv.to_sq) mv.to_sq).bind
          (fun pa => (pa.place_piece pos.stm (p1.piece_at mv.to_sq)
            (if pos.stm = Color.White then Square.F1 else Square.F8)).bind
            (fun pb => pb.place_piece pos.stm (pos.piece_at mv.from_sq)
              (if pos.stm = Color.White then Square.G1 else Square.G8)))
          = some p3 := h3
      simp only [Option.bind_eq_some] at h3x
      obtain ⟨pa, ha, pb, hb, hc2⟩ := h3x
      rw [hrookat] at ha hb
      nth_rewrite 1 [← hcrook] at ha
      nth_rewrite 1 [← hcrook] at hb
      obtain ⟨hIa, hWa, hUa⟩ := remove_piece_agree hI1 hW1 hto hrookat
        (piece_new_lt _ (by decide)) ha
      have hpart : pa.piece_at (if pos.stm = Color.White then Square.F1 else Square.F8)
          = Piece.none := by
        by_cases hrto : (if pos.stm = Color.White then Square.F1 else Square.F8) = mv.to_sq
        · rw [hrto, hUa _, if_pos rfl]
        · by_cases hrfr : (if pos.stm = Color.White then Square.F1 else Square.F8)
              = mv.from_sq
          · rw [hrfr, hUa _, if_neg hne, hU1 _, if_pos rfl]
          · rw [hUa _, if_neg hrto, hU1 _, if_neg hrfr]
            rcases hrtcase with h | h | h
            · exact absurd h hrfr
            · exact absurd h hrto
            · exact h
      obtain ⟨hIb, hWb, hUb⟩ := place_piece_agree hIa hWa hrtlt hpart
        (piece_new_lt _ (by decide)) hb
      have hpbkt : pb.piece_at (if pos.stm = Color.White then Square.G1 else Square.G8)
          = Piece.none := by
        rw [hUb _, if_neg (fun x => hrtkt x.symm)]
        by_cases hkto : (if pos.stm = Color.White then Square.G1 else Square.G8) = mv.to_sq
        · rw [hkto, hUa _, if_pos rfl]
        · by_cases hkfr : (if pos.stm = Color.White then Square.G1 else Square.G8)
              = mv.from_sq
          · rw [hkfr, hUa _, if_neg hne, hU1 _, if_pos rfl]
          · rw [hUa _, if_neg hkto, hU1 _, if_neg hkfr]
            rcases hktcase with h | h | h
            · exact absurd h hkfr
            · exact absurd h hkto
            · exact h
      nth_rewrite 1 [← hmover] at hc2
      obtain ⟨hI3, hW3, hU3⟩ := place_piece_agree hIb hWb hktlt hpbkt hmover12 hc2
      obtain ⟨hIp7, hWp7⟩ := do_move_tail_agree _ _ _ _ _ _ _ _ p7 h7 hI3 hW3
        (fun hA => absurd hA hAfalse)
      exact ⟨hIp7, hWp7⟩
    · rw [if_neg hcs] at h3
      have hclong : mv.castle_type = CastleType.Long := by
        cases hct : mv.castle_type
        · exact absurd hct hcs
        · rfl
      obtain ⟨hrtlt, hktlt, hrtkt, hrtcase, hktcase⟩ := hlong hclong
      have h3x : (p1.remove_piece pos.stm (p1.piece_at mv.to_sq) mv.to_sq).bind
          (fun pa => (pa.place_piece pos.stm (p1.piece_at mv.to_sq)
            (if pos.stm = Color.White then Square.D1 else Square.D8)).bind
            (fun pb => pb.place_piece pos.stm (pos.piece_at mv.from_sq)
              (if pos.stm = Color.White then Square.C1 else Square.C8)))
          = some p3 := h3
      simp only [Option.bind_eq_some] at h3x
      obtain ⟨pa, ha, pb, hb, hc2⟩ := h3x
      rw [hrookat] at ha hb
      nth_rewrite 1 [← hcrook] at ha
      nth_rewrite 1 [← hcrook] at hb
      obtain ⟨hIa, hWa, hUa⟩ := remove_piece_agree hI1 hW1 hto hrookat
        (piece_new_lt _ (by decide)) ha
      have hpart : pa.piece_at (if pos.stm = Color.White then Square.D1 else Square.D8)
          = Piece.none := by
        by_cases hrto : (if pos.stm = Color.White then Square.D1 else Square.D8) = mv.to_sq
        · rw [hrto, hUa _, if_pos rfl]
        · by_cases hrfr : (if pos.stm = Color.White then Square.D1 else Square.D8)
              = mv.from_sq
          · rw [hrfr, hUa _, if_neg hne, hU1 _, if_pos rfl]
          · rw [hUa _, if_neg hrto, hU1 _, if_neg hrfr]
            rcases hrtcase with h | h | h
            · exact absurd h hrfr
            · exact absurd h hrto
            · exact h
      obtain ⟨hIb, hWb, hUb⟩ := place_piece_agree hIa hWa hrtlt hpart
        (piece_new_lt _ (by decide)) hb
      have hpbkt : pb.piece_at (if pos.stm = Color.White then Square.C1 else Square.C8)
          = Piece.none := by
        rw [hUb _, if_neg (fun x => hrtkt x.symm)]
        by_cases hkto : (if pos.stm = Color.White then Square.C1 else Square.C8) = mv.to_sq
        · rw [hkto, hUa _, if_pos rfl]
        · by_cases hkfr : (if pos.stm = Color.White then Square.C1 else Square.C8)
              = mv.from_sq
          · rw [hkfr, hUa _, if_neg hne, hU1 _, if_pos rfl]
          · rw [hUa _, if_neg hkto, hU1 _, if_neg hkfr]
            rcases hktcase with h | h | h
            · exact absurd h hkfr
            · exact absurd h hkto
            · exact h
      nth_rewrite 1 [← hmover] at hc2
      obtain ⟨hI3, hW3, hU3⟩ := place_piece_agree hIb hWb hktlt hpbkt hmover12 hc2
      obtain ⟨hIp7, hWp7⟩ := do_move_tail_agree _ _ _ _ _ _ _ _ p7 h7 hI3 hW3
        (fun hA => absurd hA hAfalse)
      exact ⟨hIp7, hWp7⟩

/-- C7 counterexample: the starting position satisfies the agreement
invariant, yet `place_piece` of a white knight onto a2 — an occupied
square — succeeds and breaks it (the pawn's type-bitboard bit survives
with no pawn in the piece array). -/
theorem C7_counterexample_place_on_occupied :
    AgreeInv startpos ∧ PosWF startpos
    ∧ startpos.place_piece Color.White (Piece.new PieceType.Knight Color.White) 8
        = some ((startpos.place_piece Color.White
          (Piece.new PieceType.Knight Color.White) 8).getD startpos)
    ∧ ¬ AgreeInv ((startpos.place_piece Color.White
          (Piece.new PieceType.Knight Color.White) 8).getD startpos) := by
  exact ⟨by decide, by decide, rfl, by decide⟩

/-- C7 (amended): `Position::new` satisfies the agreement invariant;
`place_piece` applied with the piece's color to an *empty* square,
`remove_piece` applied to a square actually holding the stated piece, and
`do_move` applied to a structurally well-formed move of the side to move
(move squares in range and distinct, mover's piece of the side to move,
normal/promotion targets empty or enemy-occupied, en-passant and castle
shapes as produced by the generator, double pushes over an empty
intermediate square) all preserve it, together with structural
well-formedness. -/
theorem C7_agreement_invariant_amended :
    (AgreeInv Position.new ∧ PosWF Position.new)
    ∧ (∀ (pos : Position) (pc : Piece) (sq : Nat) (p : Position),
      AgreeInv pos → PosWF pos → sq < 64 → pos.piece_at sq = Piece.none →
      pc.id < 12 → pos.place_piece pc.color pc sq = some p →
      AgreeInv p ∧ PosWF p)
    ∧ (∀ (pos : Position) (pc : Piece) (sq : Nat) (p : Position),
      AgreeInv pos → PosWF pos → sq < 64 → pos.piece_at sq = pc →
      pc.id < 12 → pos.remove_piece pc.color pc sq = some p →
      AgreeInv p ∧ PosWF p)
    ∧ (∀ (pos : Position) (mv : Move) (pos2 : Position),
      AgreeInv pos → PosWF pos →
      mv.from_sq < 64 → mv.to_sq < 64 → mv.from_sq ≠ mv.to_sq →
      (pos.piece_at mv.from_sq).color = pos.stm →
      (pos.piece_at mv.from_sq).id < 12 →
      (mv.move_type = MoveType.Normal ∨ mv.move_type = MoveType.Promotion →
        pos.piece_at mv.to_sq = Piece.none
        ∨ (pos.piece_at mv.to_sq).color = pos.stm.opp) →
      (mv.move_type = MoveType.Promotion →
        mv.promoted_piece.id < 12 ∧ mv.promoted_piece.color = pos.stm) →
      (mv.move_type = MoveType.EnPassant →
        pos.piece_at mv.to_sq = Piece.none
        ∧ pos.piece_at (mv.to_sq ^^^ 8) = Piece.new PieceType.Pawn pos.stm.opp
        ∧ mv.to_sq ^^^ 8 ≠ mv.from_sq ∧ mv.to_sq ^^^ 8 ≠ mv.to_sq
        ∧ mv.to_sq ^^^ 8 < 64) →
      (mv.move_type = MoveType.Castle →
        pos.piece_at mv.to_sq = Piece.new PieceType.Rook pos.stm
        ∧ (mv.castle_type = CastleType.Short →
            castle_targets_ok pos mv
              (if pos.stm = Color.White then Square.F1 else Square.F8)
              (if pos.stm = Color.White then Square.G1 else Square.G8))
        ∧ (mv.castle_type = CastleType.Long →
            castle_targets_ok pos mv
              (if pos.stm = Color.White then Square.D1 else Square.D8)
              (if pos.stm = Color.White then Square.C1 else Square.C8))) →
      ((pos.piece_at mv.from_sq).piece_type = PieceType.Pawn
          ∧ ((mv.to_sq : Int) - (mv.from_sq : Int)).natAbs = 16 →
        mv.move_type = MoveType.Normal
        ∧ pos.piece_at (mv.to_sq ^^^ 8) = Piece.none
        ∧ mv.to_sq ^^^ 8 ≠ mv.from_sq ∧ mv.to_sq ^^^ 8 ≠ mv.to_sq
        ∧ mv.to_sq ^^^ 8 < 64) →
      pos.do_move mv = some pos2 →
      AgreeInv pos2 ∧ PosWF pos2) := by
  refine ⟨by decide, ?_, ?_, ?_⟩
  · intro pos pc sq p h1 h2 h3 h4 h5 h6
    obtain ⟨a, b, _⟩ := place_piece_agree h1 h2 h3 h4 h5 h6
    exact ⟨a, b⟩
  · intro pos pc sq p h1 h2 h3 h4 h5 h6
    obtain ⟨a, b, _⟩ := remove_piece_agree h1 h2 h3 h4 h5 h6
    exact ⟨a, b⟩
  · intro pos mv pos2 h1 h2 h3 h4 h5 h6 h7 h8 h9 h10 h11 h12 h13
    exact do_move_agree pos mv pos2 h1 h2 h3 h4 h5 h6 h7 h8 h9 h10 h11 h12 h13

/-- C7 witness: concrete invariant-preserving operations from the
starting position — place a white knight on the empty square a3, remove
the a2 pawn, and play the double pawn push e2e4. -/
theorem C7_agreement_invariant_amended_witness :
    AgreeInv ((startpos.place_piece Color.White
        (Piece.new PieceType.Knight Color.White) 16).getD startpos)
    ∧ AgreeInv ((startpos.remove_piece Color.White
        (Piece.new PieceType.Pawn Color.White) 8).getD startpos)
    ∧ AgreeInv ((startpos.do_move (Move.normal 12 28)).getD startpos) := by
  refine ⟨?_, ?_, ?_⟩
  · exact (C7_agreement_invariant_amended.2.1 startpos
      (Piece.new PieceType.Knight Color.White) 16 _
      (by decide) (by decide) (by decide) (by decide) (by decide) rfl).1
  · exact (C7_agreement_invariant_amended.2.2.1 startpos
      (Piece.new PieceType.Pawn Color.White) 8 _
      (by decide) (by decide) (by decide) (by decide) (by decide) rfl).1
  · exact (C7_agreement_invariant_amended.2.2.2 startpos (Move.normal 12 28) _
      (by decide) (by decide) (by decide) (by decide) (by decide) (by decide)
      (by decide) (by decide) (by decide) (by decide) (by decide) (by decide)
      rfl).1
